import Mathlib

/-!
# Multilevel queue scheduler (schedule.cpp)

A shallow embedding of the scheduling engine of `MLQVisualizer`:
the `Process` record, the engine fields, and the member functions
`loadFromFile`, `initializeProcesses`, `resetSimulation`, `updateSimulation`,
`executeScheduling`, `selectFromQueue`, `selectProcess`, `executeProcess`.

Conventions of the embedding.
* C++ `int` is `Int`; signed overflow is undefined behaviour in the source, so
  the embedding describes executions that stay in range. The definitions whose
  name ends in `32` store every arithmetic result of `executeProcess` and
  `updateSimulation` in a 32-bit two's complement `int`, as the compiled
  program does; in range they agree with the unbounded ones (`ticks32_eq`).
* A `Process*` that points into the vector `processes` is the index of the
  element it points to; `nullptr` is `none`.
* The drawing fields (`color`, `position`, `target_position`), the fonts, the
  window and `positionProcesses` carry no scheduling state and are left out.
* The wall-clock test of `updateSimulation` is the Boolean argument `elapsed`.
* The file read by `loadFromFile` is the list of its whitespace-separated
  fields, or `none` when it cannot be opened.
* `calculateFinalStatistics` computes in `float` and writes display text only;
  it is not embedded.
-/

namespace MLQ

/-- The record `struct Process`, with the member initialisers of the source. -/
structure Process where
  pid : Int
  arrival_time : Int
  burst_time : Int
  priority : Int
  start_time : Int := 0
  completion_time : Int := 0
  remaining_time : Int := 0
  turnaround_time : Int := 0
  waiting_time : Int := 0
  finished : Bool := false
  started : Bool := false
  is_executing : Bool := false
  queue_index : Int := -1
  last_execution_time : Int := 0
  time_slice_remaining : Int := 0
deriving DecidableEq, Repr

instance : Inhabited Process := ⟨{ pid := 0, arrival_time := 0, burst_time := 0, priority := 0 }⟩

/-- The scheduling fields of `class MLQVisualizer`. `queues` has the four
bands the constructor creates; a band holds indices into `processes`. -/
structure MLQVisualizer where
  processes : List Process
  original_processes : List Process
  queues : List (List Nat)
  sequence : List Int
  time_quantum : Int
  current_time : Int
  current_executing_queue : Int
  current_executing_process : Option Nat
  simulation_running : Bool
  simulation_paused : Bool
  simulation_completed : Bool
deriving DecidableEq, Repr

/-- Dereference of a `Process*` held as an index into `processes`. An index
outside the vector is a dangling pointer (undefined behaviour in the source);
the embedding reads the default record there. -/
def deref (processes : List Process) (process : Nat) : Process :=
  processes.getD process default

/-- The read `sequence[q]`. A read outside the vector is undefined behaviour in
the source; the embedding returns `-1` there, which is no discipline code. -/
def seqAt (sequence : List Int) (q : Int) : Int :=
  if 0 ≤ q then sequence.getD q.toNat (-1) else -1

/-- The state the constructor of `MLQVisualizer` builds. -/
def construct : MLQVisualizer :=
  { processes := [], original_processes := [], queues := List.replicate 4 [],
    sequence := [], time_quantum := 0, current_time := 0,
    current_executing_queue := -1, current_executing_process := none,
    simulation_running := false, simulation_paused := false,
    simulation_completed := false }

/-- Body of the loop of `resetSimulation` for one process. -/
def resetProcess (process : Process) : Process :=
  { process with
    remaining_time := process.burst_time
    finished := false
    started := false
    is_executing := false
    start_time := 0
    completion_time := 0
    turnaround_time := 0
    waiting_time := 0
    last_execution_time := 0
    time_slice_remaining := 0 }

/-- The member function `resetSimulation`. -/
def resetSimulation (s : MLQVisualizer) : MLQVisualizer :=
  { s with
    current_time := 0
    current_executing_queue := -1
    current_executing_process := none
    simulation_running := false
    simulation_paused := false
    simulation_completed := false
    processes := s.processes.map resetProcess }

/-- Body of the first loop of `initializeProcesses` for one process. -/
def initProcess (process : Process) : Process :=
  { process with
    remaining_time := process.burst_time
    finished := false
    started := false
    time_slice_remaining := 0 }

/-- Body of the distribution loop of `initializeProcesses` at index `i`:
`processes[i].queue_index = i % 4; queues[i % 4].push_back(&processes[i])`. -/
def distributeStep (st : List Process × List (List Nat)) (i : Nat) :
    List Process × List (List Nat) :=
  let queue_index := i % 4
  (st.1.modify (fun p => { p with queue_index := (queue_index : Int) }) i,
   st.2.modify (fun queue => queue ++ [i]) queue_index)

/-- The distribution loop of `initializeProcesses`, run from four cleared bands. -/
def distribute (processes : List Process) : List Process × List (List Nat) :=
  (List.range processes.length).foldl distributeStep (processes, List.replicate 4 [])

/-- The member function `initializeProcesses`. -/
def initializeProcesses (s : MLQVisualizer) (input_processes : List Process)
    (sched_sequence : List Int) (quantum : Int) : MLQVisualizer :=
  let d := distribute (input_processes.map initProcess)
  resetSimulation
    { s with
      original_processes := input_processes
      processes := d.1
      sequence := sched_sequence
      time_quantum := quantum
      queues := d.2 }

/-- The algorithm `std::min_element` with a comparator: the first element that
no later element is smaller than; `none` on an empty range. -/
def min_element {α : Type} (comp : α → α → Bool) : List α → Option α
  | [] => none
  | first :: rest =>
    some (rest.foldl (fun smallest it => if comp it smallest then it else smallest) first)

/-- Comparator of `case 0` (FCFS) in `selectProcess`. -/
def compFCFS (a b : Process) : Bool :=
  if a.arrival_time = b.arrival_time then decide (a.pid < b.pid)
  else decide (a.arrival_time < b.arrival_time)

/-- Comparator of `case 1` (Priority) in `selectProcess`. -/
def compPriority (a b : Process) : Bool :=
  if a.priority = b.priority then decide (a.arrival_time < b.arrival_time)
  else decide (a.priority < b.priority)

/-- Comparator of `case 2` (SJF) in `selectProcess`. -/
def compSJF (a b : Process) : Bool :=
  if a.remaining_time = b.remaining_time then decide (a.arrival_time < b.arrival_time)
  else decide (a.remaining_time < b.remaining_time)

/-- Comparator of `case 3` (Round Robin) in `selectProcess`. -/
def compRR (a b : Process) : Bool :=
  if a.last_execution_time = b.last_execution_time then
    decide (a.arrival_time < b.arrival_time)
  else decide (a.last_execution_time < b.last_execution_time)

/-- The member function `selectProcess`; the `switch` falls through to
`return nullptr` for a code outside 0..3. -/
def selectProcess (processes : List Process) (ready_processes : List Nat)
    (algorithm : Int) : Option Nat :=
  if algorithm = 0 then
    min_element (fun a b => compFCFS (deref processes a) (deref processes b)) ready_processes
  else if algorithm = 1 then
    min_element (fun a b => compPriority (deref processes a) (deref processes b)) ready_processes
  else if algorithm = 2 then
    min_element (fun a b => compSJF (deref processes a) (deref processes b)) ready_processes
  else if algorithm = 3 then
    min_element (fun a b => compRR (deref processes a) (deref processes b)) ready_processes
  else none

/-- The test `process->arrival_time <= current_time && !process->finished`. -/
def isReady (s : MLQVisualizer) (process : Nat) : Bool :=
  decide ((deref s.processes process).arrival_time ≤ s.current_time) &&
    !(deref s.processes process).finished

/-- The vector `ready_processes` that `selectFromQueue` builds for a band. -/
def readyProcesses (s : MLQVisualizer) (queue_index : Nat) : List Nat :=
  (s.queues.getD queue_index []).filter (isReady s)

/-- The member function `selectFromQueue`. It reads the state and writes
nothing, so its only result is the selected pointer. -/
def selectFromQueue (s : MLQVisualizer) (queue_index : Nat) : Option Nat :=
  let algorithm := seqAt s.sequence queue_index
  let ready_processes := readyProcesses s queue_index
  if ready_processes = [] then none
  else selectProcess s.processes ready_processes algorithm

/-- What `executeProcess` writes into the process it runs for one time unit. -/
def runUnit (current_time : Int) (algorithm : Int) (process : Process) : Process :=
  let p1 := if process.started then process
            else { process with started := true, start_time := current_time }
  let p2 := { p1 with is_executing := true, last_execution_time := current_time }
  let p3 := { p2 with remaining_time := p2.remaining_time - 1 }
  let p4 := if algorithm = 3 ∧ p3.time_slice_remaining > 0 then
              { p3 with time_slice_remaining := p3.time_slice_remaining - 1 }
            else p3
  if p4.remaining_time ≤ 0 then
    { p4 with
      finished := true
      completion_time := current_time + 1
      turnaround_time := current_time + 1 - p4.arrival_time
      waiting_time := current_time + 1 - p4.arrival_time - p4.burst_time }
  else p4

/-- The member function `executeProcess`. -/
def executeProcess (s : MLQVisualizer) (process : Nat) (algorithm : Int) : MLQVisualizer :=
  let p := runUnit s.current_time algorithm (deref s.processes process)
  let s1 := { s with processes := s.processes.set process p }
  if p.remaining_time ≤ 0 then
    { s1 with current_executing_process := none, current_executing_queue := -1 }
  else if algorithm = 3 ∧ p.time_slice_remaining ≤ 0 then
    { s1 with current_executing_process := none, current_executing_queue := -1 }
  else s1

/-- The write `process->time_slice_remaining = time_quantum`. -/
def setSlice (time_quantum : Int) (process : Process) : Process :=
  { process with time_slice_remaining := time_quantum }

/-- The write `process.is_executing = false`. -/
def clearFlag (process : Process) : Process :=
  { process with is_executing := false }

/-- The body of the band loop of `executeScheduling` once band `q` has yielded
`selected`: record the holder, set the time slice of a Round Robin band, run
the process. -/
def dispatch (s : MLQVisualizer) (q : Nat) (selected : Nat) : MLQVisualizer :=
  let s1 := { s with current_executing_process := some selected,
                     current_executing_queue := (q : Int) }
  let s2 := if seqAt s1.sequence q = 3 then
              { s1 with processes := s1.processes.modify (setSlice s1.time_quantum) selected }
            else s1
  executeProcess s2 selected (seqAt s2.sequence q)

/-- The band loop `for (int q = 0; q < 4; q++)` of `executeScheduling`, over
the bands still to visit; it stops at the first band that yields a process. -/
def scanQueues (s : MLQVisualizer) : List Nat → MLQVisualizer
  | [] => s
  | q :: rest =>
    match selectFromQueue s q with
    | some selected => dispatch s q selected
    | none => scanQueues s rest

/-- The writes `current_executing_process = nullptr; current_executing_queue = -1`. -/
def clearHolder (s : MLQVisualizer) : MLQVisualizer :=
  { s with current_executing_process := none, current_executing_queue := -1 }

/-- The second half of `executeScheduling`: clear the holder, then scan the
bands in order. -/
def selectNext (s : MLQVisualizer) : MLQVisualizer :=
  scanQueues (clearHolder s) [0, 1, 2, 3]

/-- The first loop of `executeScheduling`: no process is executing. -/
def clearExecuting (s : MLQVisualizer) : MLQVisualizer :=
  { s with processes := s.processes.map clearFlag }

/-- The test of `executeScheduling` that lets the current holder run on without
a new selection; on success it yields the holder and its band code. -/
def continuing (s : MLQVisualizer) : Option (Nat × Int) :=
  match s.current_executing_process with
  | none => none
  | some cur =>
    if (deref s.processes cur).finished then none
    else
      let current_algorithm := seqAt s.sequence s.current_executing_queue
      if current_algorithm = 3 then
        if (deref s.processes cur).time_slice_remaining > 0 then some (cur, current_algorithm)
        else none
      else some (cur, current_algorithm)

/-- The member function `executeScheduling`. -/
def executeScheduling (s : MLQVisualizer) : MLQVisualizer :=
  let s1 := clearExecuting s
  match continuing s1 with
  | some (cur, current_algorithm) => executeProcess s1 cur current_algorithm
  | none => selectNext s1

/-- The loop of `updateSimulation` that computes `all_finished`. -/
def allFinished (s : MLQVisualizer) : Bool :=
  s.processes.all (fun p => p.finished)

/-- The member function `updateSimulation`; `elapsed` is the outcome of the
clock test. `calculateFinalStatistics` writes only display text. -/
def updateSimulation (elapsed : Bool) (s : MLQVisualizer) : MLQVisualizer :=
  if !s.simulation_running || s.simulation_paused || s.simulation_completed then s
  else if elapsed then
    if allFinished s then { s with simulation_completed := true }
    else
      let s1 := executeScheduling s
      { s1 with current_time := s1.current_time + 1 }
  else s

/-- One tick: `updateSimulation` with the step timer elapsed. -/
def tick (s : MLQVisualizer) : MLQVisualizer := updateSimulation true s

/-- The `Space` key of `handleEvents`: start, or toggle pause. -/
def pressSpace (s : MLQVisualizer) : MLQVisualizer :=
  if !s.simulation_running && !s.simulation_completed then
    { s with simulation_running := true, simulation_paused := false }
  else if !s.simulation_completed then
    { s with simulation_paused := !s.simulation_paused }
  else s

/-- The status `render` shows: RUNNING. -/
def isRunning (s : MLQVisualizer) : Bool :=
  !s.simulation_completed && s.simulation_running && !s.simulation_paused

/-- Run `k` ticks. -/
def ticks : Nat → MLQVisualizer → MLQVisualizer
  | 0, s => s
  | k + 1, s => ticks k (tick s)

/-- The members of band `q` among `n` processes, in input order: what the
distribution loop of `initializeProcesses` leaves in `queues[q]`. -/
def bandOf (n q : Nat) : List Nat := (List.range n).filter (fun i => i % 4 = q)

/-- The states the engine reaches from `initializeProcesses` on a given input:
by `updateSimulation` (a tick when the timer has elapsed), by
`resetSimulation`, and by the space key (start, pause, resume). -/
inductive Reachable (input_processes : List Process) (sched_sequence : List Int)
    (quantum : Int) : MLQVisualizer → Prop
  | init (s0 : MLQVisualizer) :
      Reachable input_processes sched_sequence quantum
        (initializeProcesses s0 input_processes sched_sequence quantum)
  | update (elapsed : Bool) {s : MLQVisualizer} :
      Reachable input_processes sched_sequence quantum s →
      Reachable input_processes sched_sequence quantum (updateSimulation elapsed s)
  | reset {s : MLQVisualizer} :
      Reachable input_processes sched_sequence quantum s →
      Reachable input_processes sched_sequence quantum (resetSimulation s)
  | space {s : MLQVisualizer} :
      Reachable input_processes sched_sequence quantum s →
      Reachable input_processes sched_sequence quantum (pressSpace s)

/-- Bookkeeping of one process at time `now`: an unstarted process has all its
burst left, a started unfinished one has spent its executed units at distinct
ticks since `start_time`, and a finished one carries consistent statistics. -/
def TimingInv (now : Int) (p : Process) : Prop :=
  (p.started = false → p.remaining_time = p.burst_time ∧ p.finished = false) ∧
  (p.started = true → p.finished = false →
    p.start_time + (p.burst_time - p.remaining_time) ≤ now) ∧
  (p.finished = true →
    p.start_time + p.burst_time ≤ p.completion_time ∧
    p.turnaround_time = p.completion_time - p.arrival_time ∧
    p.waiting_time = p.turnaround_time - p.burst_time)

/-- Bounds on the remaining time of a process with a positive burst. -/
def RemainingInv (p : Process) : Prop :=
  0 < p.burst_time ∧ 0 ≤ p.remaining_time ∧ p.remaining_time ≤ p.burst_time ∧
  (p.finished = true ↔ p.remaining_time = 0)

/-- The engine fields that scheduling never writes agree in `s` and `t`. -/
def SameConfig (s t : MLQVisualizer) : Prop :=
  t.current_time = s.current_time ∧ t.time_quantum = s.time_quantum ∧
  t.sequence = s.sequence ∧ t.queues = s.queues ∧
  t.original_processes = s.original_processes ∧
  t.simulation_running = s.simulation_running ∧
  t.simulation_paused = s.simulation_paused ∧
  t.simulation_completed = s.simulation_completed ∧
  t.processes.length = s.processes.length

/-- Five sample processes, identifiers 1..5 in input order as `loadFromFile`
assigns them. -/
def sampleInput : List Process :=
  [ { pid := 1, arrival_time := 0, burst_time := 5, priority := 2 },
    { pid := 2, arrival_time := 0, burst_time := 3, priority := 1 },
    { pid := 3, arrival_time := 1, burst_time := 2, priority := 0 },
    { pid := 4, arrival_time := 2, burst_time := 1, priority := 3 },
    { pid := 5, arrival_time := 0, burst_time := 3, priority := 1 } ]

/-- The engine initialised on the sample input with the given band codes and
quantum 2, then started. -/
def sampleState (codes : List Int) : MLQVisualizer :=
  pressSpace (initializeProcesses construct sampleInput codes 2)

/-- Two processes in an FCFS configuration: P1 (arrival 0, burst 3) and
P2 (arrival 1, burst 2). -/
def pairInput : List Process :=
  [ { pid := 1, arrival_time := 0, burst_time := 3, priority := 0 },
    { pid := 2, arrival_time := 1, burst_time := 2, priority := 0 } ]

/-- The engine on `pairInput` after five ticks: both processes have finished. -/
def pairDone : MLQVisualizer :=
  ticks 5 (pressSpace (initializeProcesses construct pairInput [0, 0, 0, 0] 2))

/-- Five processes at arrival 0; band 0 is Round Robin with quantum 1 and holds
the first and the fifth. -/
def rrInput : List Process :=
  [ { pid := 1, arrival_time := 0, burst_time := 5, priority := 0 },
    { pid := 2, arrival_time := 0, burst_time := 1, priority := 0 },
    { pid := 3, arrival_time := 0, burst_time := 1, priority := 0 },
    { pid := 4, arrival_time := 0, burst_time := 1, priority := 0 },
    { pid := 5, arrival_time := 0, burst_time := 3, priority := 0 } ]

/-- The engine on `rrInput` after its first tick (tick 0 has run, `current_time` is 1). -/
def rrAfterFirstTick : MLQVisualizer :=
  tick (pressSpace (initializeProcesses construct rrInput [3, 0, 0, 0] 1))

/-- The state a tick leaves when no band yields a process: nothing executes,
the holder is empty and the clock advances. -/
def afterIdle (s : MLQVisualizer) : MLQVisualizer :=
  { s with
    processes := s.processes.map clearFlag
    current_executing_process := none
    current_executing_queue := -1
    current_time := s.current_time + 1 }

/-- The state a tick leaves when it runs process `r` of band `q` under band code
`a`, where `p1` is the record of `r` as `executeProcess` receives it: `r`
keeps the processor unless it finished or exhausted a Round Robin slice. -/
def afterRun (s : MLQVisualizer) (q : Int) (r : Nat) (a : Int) (p1 : Process) : MLQVisualizer :=
  { s with
    processes := (s.processes.map clearFlag).set r (runUnit s.current_time a p1)
    current_executing_process :=
      if (runUnit s.current_time a p1).remaining_time ≤ 0 ∨
          (a = 3 ∧ (runUnit s.current_time a p1).time_slice_remaining ≤ 0) then none
      else some r
    current_executing_queue :=
      if (runUnit s.current_time a p1).remaining_time ≤ 0 ∨
          (a = 3 ∧ (runUnit s.current_time a p1).time_slice_remaining ≤ 0) then -1
      else q
    current_time := s.current_time + 1 }

/-- The invariant of the engine between ticks: the bands are those
`initializeProcesses` built; a holder is a started, unfinished, arrived member
of the band recorded with it, with a live time slice when that band is Round
Robin; at most the process of the last tick is marked executing; and the
per-process bookkeeping is consistent, a started unfinished process of a band
that is not Round Robin being the holder with no tick lost since its start. -/
def EngineInv (s : MLQVisualizer) : Prop :=
  s.queues = (distribute s.processes).2 ∧
  (∀ r, s.current_executing_process = some r →
    r < s.processes.length ∧ (deref s.processes r).finished = false ∧
    (deref s.processes r).started = true ∧
    s.current_executing_queue = ((r % 4 : Nat) : Int) ∧
    (deref s.processes r).arrival_time ≤ s.current_time ∧
    (seqAt s.sequence s.current_executing_queue = 3 →
      1 ≤ (deref s.processes r).time_slice_remaining ∧
      (deref s.processes r).time_slice_remaining ≤ s.time_quantum - 1)) ∧
  (∀ i, (deref s.processes i).is_executing = true →
    (deref s.processes i).arrival_time ≤ (deref s.processes i).last_execution_time ∧
    (deref s.processes i).last_execution_time + 1 = s.current_time) ∧
  (∀ i j, (deref s.processes i).is_executing = true →
    (deref s.processes j).is_executing = true → i = j) ∧
  (∀ i, (deref s.processes i).started = false →
    (deref s.processes i).remaining_time = (deref s.processes i).burst_time ∧
    (deref s.processes i).finished = false) ∧
  (∀ i, (deref s.processes i).started = true → (deref s.processes i).finished = false →
    1 ≤ (deref s.processes i).remaining_time) ∧
  (∀ i, (deref s.processes i).started = true →
    (deref s.processes i).arrival_time ≤ (deref s.processes i).start_time) ∧
  (∀ i, i < s.processes.length → seqAt s.sequence ((i % 4 : Nat) : Int) ≠ 3 →
    (deref s.processes i).started = true → (deref s.processes i).finished = false →
    s.current_executing_process = some i ∧
    (deref s.processes i).start_time +
      ((deref s.processes i).burst_time - (deref s.processes i).remaining_time) =
        s.current_time) ∧
  (∀ i, seqAt s.sequence ((i % 4 : Nat) : Int) ≠ 3 → 0 < (deref s.processes i).burst_time →
    (deref s.processes i).finished = true →
    (deref s.processes i).completion_time =
      (deref s.processes i).start_time + (deref s.processes i).burst_time)

/-- The engine state with another value in `time_quantum`. -/
def withQuantum (quantum : Int) (s : MLQVisualizer) : MLQVisualizer :=
  { s with time_quantum := quantum }

/-- Scenario A input: see `pairInput`. Scenario B input: P1 (arrival 0, burst 4,
priority 2) and P2 (arrival 0, burst 2, priority 1), in that order. -/
def priorityPair : List Process :=
  [ { pid := 1, arrival_time := 0, burst_time := 4, priority := 2 },
    { pid := 2, arrival_time := 0, burst_time := 2, priority := 1 } ]

/-- Scenario C input: P1 (arrival 0, burst 5) and P2 (arrival 0, burst 3), in
that order. -/
def rrPair : List Process :=
  [ { pid := 1, arrival_time := 0, burst_time := 5, priority := 0 },
    { pid := 2, arrival_time := 0, burst_time := 3, priority := 0 } ]

/-- The engine initialised from the constructed state, started, and ticked `k`
times. -/
def run (input_processes : List Process) (sched_sequence : List Int) (quantum : Int)
    (k : Nat) : MLQVisualizer :=
  ticks k (pressSpace (initializeProcesses construct input_processes sched_sequence quantum))

/-- The `ifstream` of `loadFromFile` as `operator>>` sees it: the
whitespace-separated fields still unread, and whether the stream has failed. -/
structure IStream where
  fields : List String
  failed : Bool
deriving DecidableEq, Repr

/-- The number a run of decimal digits denotes. -/
def digitsValue (digits : List Char) : Nat :=
  digits.foldl (fun n c => 10 * n + (c.toNat - 48)) 0

/-- The extraction `file >> x` into an `int` that currently holds `old`
(`std::istream::operator>>(int&)`, C++11). On a failed stream, or at the end of
the file, nothing is stored and the stream is failed. Otherwise an optional
sign and the longest run of digits of the next field are consumed; with no
digit the stream fails and 0 is stored; a value outside `int` fails the stream
and stores the nearest bound. -/
def extractInt (st : IStream) (old : Int) : IStream × Int :=
  if st.failed then (st, old)
  else
    match st.fields with
    | [] => ({ st with failed := true }, old)
    | field :: rest =>
      let cs := field.toList
      let body := if cs.head? = some '-' ∨ cs.head? = some '+' then cs.tail else cs
      let digits := body.takeWhile Char.isDigit
      let unread := body.dropWhile Char.isDigit
      if digits = [] then ({ st with failed := true }, 0)
      else
        let value : Int :=
          if cs.head? = some '-' then -(digitsValue digits : Int) else (digitsValue digits : Int)
        let st2 : IStream :=
          { fields := if unread = [] then rest else String.mk unread :: rest, failed := false }
        if value > 2147483647 then ({ st2 with failed := true }, 2147483647)
        else if value < -2147483648 then ({ st2 with failed := true }, -2147483648)
        else (st2, value)

/-- Body of the first loop of `loadFromFile` at index `i`, on the
value-initialised element `loaded_processes[i]`. -/
def loadProcess (st : IStream) (i : Nat) : IStream × Process :=
  let e : Process := { pid := 0, arrival_time := 0, burst_time := 0, priority := 0 }
  let r1 := extractInt st e.arrival_time
  let r2 := extractInt r1.1 e.burst_time
  let r3 := extractInt r2.1 e.priority
  (r3.1, { e with pid := (i : Int) + 1, arrival_time := r1.2, burst_time := r2.2,
                  priority := r3.2 })

/-- The first loop of `loadFromFile`, over the indices still to read. -/
def loadProcesses : List Nat → IStream → IStream × List Process
  | [], st => (st, [])
  | i :: rest, st =>
    let r1 := loadProcess st i
    let r2 := loadProcesses rest r1.1
    (r2.1, r1.2 :: r2.2)

/-- The second loop of `loadFromFile`: `count` extractions into elements of the
value-initialised `loaded_sequence`. -/
def loadSequence : Nat → IStream → IStream × List Int
  | 0, st => (st, [])
  | count + 1, st =>
    let r1 := extractInt st 0
    let r2 := loadSequence count r1.1
    (r2.1, r1.2 :: r2.2)

/-- The member function `loadFromFile`. `file` is `none` when the file cannot
be opened and otherwise holds its fields. The result is the returned flag and
the engine state; it is `none` when the call does not return: on an empty
file the uninitialised `n` is read, and a negative `n` makes the vector
constructor throw. -/
def loadFromFile (file : Option (List String)) (s : MLQVisualizer) :
    Option (Bool × MLQVisualizer) :=
  match file with
  | none => some (false, s)
  | some [] => none
  | some (field :: rest) =>
    let r1 := extractInt { fields := field :: rest, failed := false } 0
    let n := r1.2
    let r2 := extractInt r1.1 s.time_quantum
    let s1 := { s with time_quantum := r2.2 }
    if n < 0 then none
    else
      let r3 := loadProcesses (List.range n.toNat) r2.1
      let r4 := loadSequence 4 r3.1
      some (true, initializeProcesses s1 r3.2 r4.2 s1.time_quantum)

/-- A persisted input whose first `burst_time` field is not numeric. -/
def malformedFile : List String :=
  ["2", "2", "0", "x", "1", "1", "3", "0", "0", "1", "2", "3"]

/-- The band code under which the band loop of `executeScheduling` dispatches:
the code of the first band, among those still to visit, that yields a process. -/
def scanCode (s : MLQVisualizer) : List Nat → Option Int
  | [] => none
  | q :: rest =>
    match selectFromQueue s q with
    | some _ => some (seqAt s.sequence q)
    | none => scanCode s rest

/-- One process that arrives at time 2: the engine idles until then. -/
def lateInput : List Process :=
  [ { pid := 1, arrival_time := 2, burst_time := 1, priority := 0 } ]

/-- The work left in a state: the sum of `remaining_time` over the processes. -/
def remainingWork (s : MLQVisualizer) : Int :=
  (s.processes.map (fun p => p.remaining_time)).sum

/-- The least value of a C++ `int` (32 bits, two's complement). -/
def INT_MIN : Int := -2147483648

/-- The greatest value of a C++ `int`. -/
def INT_MAX : Int := 2147483647

/-- The value a 32-bit two's complement `int` holds after an arithmetic result `x`. -/
def wrap32 (x : Int) : Int := (x + 2147483648) % 4294967296 - 2147483648

/-- What `executeProcess` writes into the process it runs, with every
arithmetic result stored in a 32-bit `int`. -/
def runUnit32 (current_time : Int) (algorithm : Int) (process : Process) : Process :=
  let p1 := if process.started then process
            else { process with started := true, start_time := current_time }
  let p2 := { p1 with is_executing := true, last_execution_time := current_time }
  let p3 := { p2 with remaining_time := wrap32 (p2.remaining_time - 1) }
  let p4 := if algorithm = 3 ∧ p3.time_slice_remaining > 0 then
              { p3 with time_slice_remaining := wrap32 (p3.time_slice_remaining - 1) }
            else p3
  if p4.remaining_time ≤ 0 then
    let completion_time := wrap32 (current_time + 1)
    let turnaround_time := wrap32 (completion_time - p4.arrival_time)
    { p4 with
      finished := true
      completion_time := completion_time
      turnaround_time := turnaround_time
      waiting_time := wrap32 (turnaround_time - p4.burst_time) }
  else p4

/-- The member function `executeProcess` in 32-bit arithmetic. -/
def executeProcess32 (s : MLQVisualizer) (process : Nat) (algorithm : Int) : MLQVisualizer :=
  let p := runUnit32 s.current_time algorithm (deref s.processes process)
  let s1 := { s with processes := s.processes.set process p }
  if p.remaining_time ≤ 0 then
    { s1 with current_executing_process := none, current_executing_queue := -1 }
  else if algorithm = 3 ∧ p.time_slice_remaining ≤ 0 then
    { s1 with current_executing_process := none, current_executing_queue := -1 }
  else s1

/-- The body of the band loop of `executeScheduling` in 32-bit arithmetic; see `dispatch`. -/
def dispatch32 (s : MLQVisualizer) (q : Nat) (selected : Nat) : MLQVisualizer :=
  let s1 := { s with current_executing_process := some selected,
                     current_executing_queue := (q : Int) }
  let s2 := if seqAt s1.sequence q = 3 then
              { s1 with processes := s1.processes.modify (setSlice s1.time_quantum) selected }
            else s1
  executeProcess32 s2 selected (seqAt s2.sequence q)

/-- The band loop of `executeScheduling` in 32-bit arithmetic; see `scanQueues`. -/
def scanQueues32 (s : MLQVisualizer) : List Nat → MLQVisualizer
  | [] => s
  | q :: rest =>
    match selectFromQueue s q with
    | some selected => dispatch32 s q selected
    | none => scanQueues32 s rest

/-- The member function `executeScheduling` in 32-bit arithmetic. -/
def executeScheduling32 (s : MLQVisualizer) : MLQVisualizer :=
  let s1 := clearExecuting s
  match continuing s1 with
  | some (cur, current_algorithm) => executeProcess32 s1 cur current_algorithm
  | none => scanQueues32 (clearHolder s1) [0, 1, 2, 3]

/-- The member function `updateSimulation` in 32-bit arithmetic. -/
def updateSimulation32 (elapsed : Bool) (s : MLQVisualizer) : MLQVisualizer :=
  if !s.simulation_running || s.simulation_paused || s.simulation_completed then s
  else if elapsed then
    if allFinished s then { s with simulation_completed := true }
    else
      let s1 := executeScheduling32 s
      { s1 with current_time := wrap32 (s1.current_time + 1) }
  else s

/-- One tick in 32-bit arithmetic. -/
def tick32 (s : MLQVisualizer) : MLQVisualizer := updateSimulation32 true s

/-- Run `k` ticks in 32-bit arithmetic. -/
def ticks32 : Nat → MLQVisualizer → MLQVisualizer
  | 0, s => s
  | k + 1, s => ticks32 k (tick32 s)

/-- One process with the least `int` as arrival time and burst 1. -/
def overflowInput : List Process :=
  [ { pid := 1, arrival_time := -2147483648, burst_time := 1, priority := 0 } ]


/-! ## Lemmas on `min_element`, the comparators and the bands -/

theorem foldl_min_split {α K : Type} [LinearOrder K] (key : α → K) (comp : α → α → Bool)
    (hcomp : ∀ a b, comp a b = true ↔ key a < key b) (first : α) (rest : List α) :
    ∃ m pre post,
      rest.foldl (fun smallest it => if comp it smallest then it else smallest) first = m ∧
      first :: rest = pre ++ m :: post ∧
      (∀ x ∈ pre, key m < key x) ∧ (∀ x ∈ post, key m ≤ key x) := by
  induction rest using List.reverseRecOn with
  | nil => exact ⟨first, [], [], rfl, rfl, by simp, by simp⟩
  | append_singleton l a ih =>
    obtain ⟨m, pre, post, hm, heq, hpre, hpost⟩ := ih
    rw [List.foldl_append, hm]
    simp only [List.foldl_cons, List.foldl_nil]
    by_cases h : comp a m = true
    · have hlt : key a < key m := (hcomp a m).1 h
      refine ⟨a, pre ++ m :: post, [], by simp [h], ?_, ?_, by simp⟩
      · rw [← List.cons_append, heq]
      · intro x hx
        rcases List.mem_append.1 hx with hx | hx
        · exact lt_trans hlt (hpre x hx)
        · rcases List.mem_cons.1 hx with rfl | hx
          · exact hlt
          · exact lt_of_lt_of_le hlt (hpost x hx)
    · have hle : key m ≤ key a := not_lt.1 (fun hlt => h ((hcomp a m).2 hlt))
      refine ⟨m, pre, post ++ [a], by simp [h], ?_, hpre, ?_⟩
      · rw [← List.cons_append, heq]; simp
      · intro x hx
        rcases List.mem_append.1 hx with hx | hx
        · exact hpost x hx
        · rw [List.mem_singleton.1 hx]; exact hle

theorem min_element_split {α K : Type} [LinearOrder K] (key : α → K) (comp : α → α → Bool)
    (hcomp : ∀ a b, comp a b = true ↔ key a < key b) (l : List α) (hne : l ≠ []) :
    ∃ m pre post, min_element comp l = some m ∧ l = pre ++ m :: post ∧
      (∀ x ∈ pre, key m < key x) ∧ (∀ x ∈ post, key m ≤ key x) := by
  cases l with
  | nil => exact absurd rfl hne
  | cons first rest =>
    obtain ⟨m, pre, post, hm, heq, hpre, hpost⟩ := foldl_min_split key comp hcomp first rest
    exact ⟨m, pre, post, by simp [min_element, hm], heq, hpre, hpost⟩

theorem compFCFS_iff (a b : Process) :
    compFCFS a b = true ↔
      toLex (a.arrival_time, a.pid) < toLex (b.arrival_time, b.pid) := by
  rw [Prod.Lex.lt_iff]
  unfold compFCFS
  split_ifs with h <;> simp [h]

theorem compPriority_iff (a b : Process) :
    compPriority a b = true ↔
      toLex (a.priority, a.arrival_time) < toLex (b.priority, b.arrival_time) := by
  rw [Prod.Lex.lt_iff]
  unfold compPriority
  split_ifs with h <;> simp [h]

theorem compSJF_iff (a b : Process) :
    compSJF a b = true ↔
      toLex (a.remaining_time, a.arrival_time) < toLex (b.remaining_time, b.arrival_time) := by
  rw [Prod.Lex.lt_iff]
  unfold compSJF
  split_ifs with h <;> simp [h]

theorem compRR_iff (a b : Process) :
    compRR a b = true ↔
      toLex (a.last_execution_time, a.arrival_time) <
        toLex (b.last_execution_time, b.arrival_time) := by
  rw [Prod.Lex.lt_iff]
  unfold compRR
  split_ifs with h <;> simp [h]

theorem distribute_foldl_queues (ps : List Process) (n : Nat) :
    ((List.range n).foldl distributeStep (ps, List.replicate 4 [])).2 =
      [bandOf n 0, bandOf n 1, bandOf n 2, bandOf n 3] := by
  induction n with
  | zero => simp [bandOf]
  | succ n ih =>
    rw [List.range_succ, List.foldl_append]
    simp only [List.foldl_cons, List.foldl_nil, distributeStep]
    rw [ih]
    have h : n % 4 = 0 ∨ n % 4 = 1 ∨ n % 4 = 2 ∨ n % 4 = 3 := by omega
    rcases h with h | h | h | h <;>
      simp [h, bandOf, List.range_succ, List.filter_append, List.modify, List.modifyTailIdx,
        List.modifyHead]

theorem distribute_queues (ps : List Process) :
    (distribute ps).2 =
      [bandOf ps.length 0, bandOf ps.length 1, bandOf ps.length 2, bandOf ps.length 3] :=
  distribute_foldl_queues ps ps.length

theorem getD_bands (n q : Nat) :
    [bandOf n 0, bandOf n 1, bandOf n 2, bandOf n 3].getD q [] =
      if q < 4 then bandOf n q else [] := by
  rcases q with _ | _ | _ | _ | q <;> simp

theorem mem_bandOf {n q i : Nat} : i ∈ bandOf n q ↔ i < n ∧ i % 4 = q := by
  simp [bandOf]

theorem bandOf_pairwise (n q : Nat) : (bandOf n q).Pairwise (· < ·) :=
  List.Pairwise.sublist (List.filter_sublist _) (List.pairwise_lt_range n)

theorem mem_readyProcesses {s : MLQVisualizer} {q i : Nat} :
    i ∈ readyProcesses s q ↔ i ∈ s.queues.getD q [] ∧ isReady s i = true := by
  simp [readyProcesses, List.mem_filter]

theorem readyProcesses_ne_nil {s : MLQVisualizer} {q : Nat}
    (hne : ∃ i ∈ s.queues.getD q [], isReady s i = true) : readyProcesses s q ≠ [] := by
  obtain ⟨i, hi, hr⟩ := hne
  exact List.ne_nil_of_mem (mem_readyProcesses.2 ⟨hi, hr⟩)

/-- Shape of the result of `selectFromQueue` for a discipline whose comparator
is the strict order of a key: the first ready item of minimum key. -/
theorem selectFromQueue_split {K : Type} [LinearOrder K] (s : MLQVisualizer) (q : Nat)
    (key : Process → K) (comp : Process → Process → Bool)
    (hcomp : ∀ a b, comp a b = true ↔ key a < key b)
    (hsel : selectProcess s.processes (readyProcesses s q) (seqAt s.sequence q) =
      min_element (fun a b => comp (deref s.processes a) (deref s.processes b))
        (readyProcesses s q))
    (hne : ∃ i ∈ s.queues.getD q [], isReady s i = true) :
    ∃ r pre post, selectFromQueue s q = some r ∧ readyProcesses s q = pre ++ r :: post ∧
      (∀ x ∈ pre, key (deref s.processes r) < key (deref s.processes x)) ∧
      (∀ x ∈ post, key (deref s.processes r) ≤ key (deref s.processes x)) := by
  have hne2 := readyProcesses_ne_nil hne
  obtain ⟨r, pre, post, hm, heq, hpre, hpost⟩ :=
    min_element_split (fun i => key (deref s.processes i))
      (fun a b => comp (deref s.processes a) (deref s.processes b))
      (fun a b => hcomp _ _) (readyProcesses s q) hne2
  refine ⟨r, pre, post, ?_, heq, hpre, hpost⟩
  unfold selectFromQueue
  simp only [hne2, if_false]
  rw [hsel, hm]

/-- In a ready list that splits as `pre ++ r :: post`, every ready item has a
key at least that of `r`. -/
theorem key_le_of_split {K : Type} [LinearOrder K] (key : Process → K)
    {s : MLQVisualizer} {q r : Nat} {pre post : List Nat}
    (heq : readyProcesses s q = pre ++ r :: post)
    (hpre : ∀ x ∈ pre, key (deref s.processes r) < key (deref s.processes x))
    (hpost : ∀ x ∈ post, key (deref s.processes r) ≤ key (deref s.processes x))
    {x : Nat} (hx : x ∈ s.queues.getD q []) (hr : isReady s x = true) :
    key (deref s.processes r) ≤ key (deref s.processes x) := by
  have hmem : x ∈ pre ++ r :: post := heq ▸ mem_readyProcesses.2 ⟨hx, hr⟩
  rcases List.mem_append.1 hmem with h | h
  · exact le_of_lt (hpre x h)
  · rcases List.mem_cons.1 h with rfl | h
    · exact le_refl _
    · exact hpost x h

/-- With the bands as `initializeProcesses` builds them, a ready item whose key
equals that of the selected item `r` has an index at least that of `r`. -/
theorem index_le_of_split {K : Type} [LinearOrder K] (key : Process → K)
    {s : MLQVisualizer} {q r : Nat} {pre post : List Nat}
    (hwf : s.queues = (distribute s.processes).2)
    (heq : readyProcesses s q = pre ++ r :: post)
    (hpre : ∀ x ∈ pre, key (deref s.processes r) < key (deref s.processes x))
    {x : Nat} (hx : x ∈ s.queues.getD q []) (hr : isReady s x = true)
    (hkey : key (deref s.processes x) = key (deref s.processes r)) : r ≤ x := by
  have hmem : x ∈ pre ++ r :: post := heq ▸ mem_readyProcesses.2 ⟨hx, hr⟩
  have hsorted : (pre ++ r :: post).Pairwise (· < ·) := by
    rw [← heq]
    unfold readyProcesses
    refine List.Pairwise.sublist (List.filter_sublist _) ?_
    rw [hwf, distribute_queues, getD_bands]
    split_ifs
    · exact bandOf_pairwise _ _
    · exact List.Pairwise.nil
  rcases List.mem_append.1 hmem with h | h
  · exact absurd hkey (ne_of_gt (hpre x h))
  · rcases List.mem_cons.1 h with rfl | h
    · exact le_refl _
    · have := (List.pairwise_cons.1 (List.pairwise_append.1 hsorted).2.1).1 x h
      exact le_of_lt this

theorem mem_queue_lt_length {s : MLQVisualizer} {q i : Nat}
    (hwf : s.queues = (distribute s.processes).2) (hi : i ∈ s.queues.getD q []) :
    i < s.processes.length ∧ i % 4 = q := by
  rw [hwf, distribute_queues, getD_bands] at hi
  split_ifs at hi
  · exact mem_bandOf.1 hi
  · simp at hi

theorem foldl_min_mem {α : Type} (comp : α → α → Bool) (rest : List α) (first : α) :
    rest.foldl (fun smallest it => if comp it smallest then it else smallest) first ∈
      first :: rest := by
  induction rest generalizing first with
  | nil => simp
  | cons a l ih =>
    simp only [List.foldl_cons]
    have h := ih (if comp a first then a else first)
    rcases List.mem_cons.1 h with h | h
    · rw [h]; split_ifs <;> simp
    · exact List.mem_cons_of_mem _ (List.mem_cons_of_mem _ h)

theorem min_element_mem {α : Type} (comp : α → α → Bool) {l : List α} {m : α}
    (h : min_element comp l = some m) : m ∈ l := by
  cases l with
  | nil => simp [min_element] at h
  | cons first rest =>
    simp only [min_element, Option.some.injEq] at h
    rw [← h]; exact foldl_min_mem comp rest first

theorem min_element_isSome {α : Type} (comp : α → α → Bool) {l : List α} (hne : l ≠ []) :
    ∃ m, min_element comp l = some m := by
  cases l with
  | nil => exact absurd rfl hne
  | cons first rest => exact ⟨_, rfl⟩

theorem selectProcess_mem {ps : List Process} {ready : List Nat} {a : Int} {r : Nat}
    (h : selectProcess ps ready a = some r) : r ∈ ready := by
  unfold selectProcess at h
  split_ifs at h
  · exact min_element_mem _ h
  · exact min_element_mem _ h
  · exact min_element_mem _ h
  · exact min_element_mem _ h

theorem selectProcess_isSome {ps : List Process} {ready : List Nat} {a : Int}
    (ha : 0 ≤ a ∧ a ≤ 3) (hne : ready ≠ []) : ∃ r, selectProcess ps ready a = some r := by
  unfold selectProcess
  split_ifs
  · exact min_element_isSome _ hne
  · exact min_element_isSome _ hne
  · exact min_element_isSome _ hne
  · exact min_element_isSome _ hne
  · omega

theorem selectFromQueue_mem {s : MLQVisualizer} {q r : Nat}
    (h : selectFromQueue s q = some r) : r ∈ readyProcesses s q := by
  unfold selectFromQueue at h
  simp only at h
  split_ifs at h
  exact selectProcess_mem h

theorem selectFromQueue_isSome {s : MLQVisualizer} {q : Nat}
    (ha : 0 ≤ seqAt s.sequence q ∧ seqAt s.sequence q ≤ 3)
    (hne : readyProcesses s q ≠ []) : ∃ r, selectFromQueue s q = some r := by
  unfold selectFromQueue
  simp only [hne, if_false]
  exact selectProcess_isSome ha hne

theorem isReady_iff {s : MLQVisualizer} {i : Nat} :
    isReady s i = true ↔
      (deref s.processes i).arrival_time ≤ s.current_time ∧
        (deref s.processes i).finished = false := by
  simp [isReady]

theorem deref_set_self {ps : List Process} {r : Nat} (hr : r < ps.length) (p : Process) :
    deref (ps.set r p) r = p := by
  simp [deref, List.getElem?_set, hr]

theorem deref_set_ne {ps : List Process} {r j : Nat} (h : j ≠ r) (p : Process) :
    deref (ps.set r p) j = deref ps j := by
  simp [deref, List.getElem?_set_ne (Ne.symm h)]

theorem deref_modify_self {ps : List Process} {r : Nat} (hr : r < ps.length)
    (f : Process → Process) : deref (ps.modify f r) r = f (deref ps r) := by
  simp [deref, List.getElem?_modify, hr]

theorem deref_modify_ne {ps : List Process} {r j : Nat} (h : j ≠ r) (f : Process → Process) :
    deref (ps.modify f r) j = deref ps j := by
  simp [deref, List.getElem?_modify, Ne.symm h]

theorem deref_map {ps : List Process} (f : Process → Process) (hf : f default = default)
    (i : Nat) : deref (ps.map f) i = f (deref ps i) := by
  unfold deref
  simp only [List.getD_eq_getElem?_getD, List.getElem?_map]
  cases ps[i]? with
  | none => simp [hf]
  | some p => simp

theorem deref_clearExecuting (s : MLQVisualizer) (i : Nat) :
    deref (clearExecuting s).processes i = clearFlag (deref s.processes i) :=
  deref_map _ rfl i

theorem isReady_clearExecuting (s : MLQVisualizer) (i : Nat) :
    isReady (clearExecuting s) i = isReady s i := by
  simp only [isReady, deref_clearExecuting]
  rfl

theorem continuing_clearExecuting (s : MLQVisualizer) :
    continuing (clearExecuting s) = continuing s := by
  unfold continuing
  cases h : s.current_executing_process with
  | none => simp [clearExecuting, h]
  | some cur =>
    have h2 : (clearExecuting s).current_executing_process = some cur := h
    simp only [h2, deref_clearExecuting]
    rfl

theorem runUnit_is_executing (t a : Int) (p : Process) : (runUnit t a p).is_executing = true := by
  unfold runUnit
  simp only
  split_ifs <;> rfl

theorem executeProcess_processes (s : MLQVisualizer) (r : Nat) (a : Int) :
    (executeProcess s r a).processes =
      s.processes.set r (runUnit s.current_time a (deref s.processes r)) := by
  unfold executeProcess
  simp only
  split_ifs <;> rfl

theorem selectProcess_clearExecuting (s : MLQVisualizer) (ready : List Nat) (a : Int) :
    selectProcess (clearExecuting s).processes ready a = selectProcess s.processes ready a := by
  unfold selectProcess
  simp only [deref_clearExecuting]
  rfl

theorem readyProcesses_clearExecuting (s : MLQVisualizer) (q : Nat) :
    readyProcesses (clearExecuting s) q = readyProcesses s q := by
  unfold readyProcesses
  have h : isReady (clearExecuting s) = isReady s := funext (isReady_clearExecuting s)
  rw [h]
  rfl

theorem selectFromQueue_clearExecuting (s : MLQVisualizer) (q : Nat) :
    selectFromQueue (clearExecuting s) q = selectFromQueue s q := by
  unfold selectFromQueue
  simp only [readyProcesses_clearExecuting, selectProcess_clearExecuting]
  rfl

theorem seqAt_valid {sequence : List Int} {q : Nat}
    (hcodes : sequence.length = 4 ∧ ∀ c ∈ sequence, 0 ≤ c ∧ c ≤ 3) (hq : q < 4) :
    0 ≤ seqAt sequence q ∧ seqAt sequence q ≤ 3 := by
  have hlt : q < sequence.length := by omega
  have hmem : sequence[q] ∈ sequence := List.getElem_mem hlt
  have : seqAt sequence q = sequence[q] := by
    simp [seqAt, List.getElem?_eq_getElem hlt]
  rw [this]
  exact hcodes.2 _ hmem

/-- The band loop stops at the first band, in scan order, that yields a process. -/
theorem scanQueues_first (s : MLQVisualizer) (qs : List Nat) (hsorted : qs.Pairwise (· < ·))
    (hex : ∃ k ∈ qs, selectFromQueue s k ≠ none) :
    ∃ q r, q ∈ qs ∧ selectFromQueue s q = some r ∧ scanQueues s qs = dispatch s q r ∧
      (∀ k ∈ qs, k < q → selectFromQueue s k = none) ∧
      (∀ k ∈ qs, selectFromQueue s k ≠ none → q ≤ k) := by
  induction qs with
  | nil => obtain ⟨k, hk, _⟩ := hex; simp at hk
  | cons a l ih =>
    have hs := List.pairwise_cons.1 hsorted
    cases hsel : selectFromQueue s a with
    | some r =>
      refine ⟨a, r, by simp, hsel, by simp [scanQueues, hsel], ?_, ?_⟩
      · intro k hk hlt
        rcases List.mem_cons.1 hk with rfl | hk
        · omega
        · have := hs.1 k hk; omega
      · intro k hk _
        rcases List.mem_cons.1 hk with rfl | hk
        · exact le_refl _
        · exact le_of_lt (hs.1 k hk)
    | none =>
      obtain ⟨k, hk, hkn⟩ := hex
      have hkl : k ∈ l := by
        rcases List.mem_cons.1 hk with rfl | hk
        · exact absurd hsel hkn
        · exact hk
      obtain ⟨q, r, hq, hqr, hscan, hbefore, hfirst⟩ := ih hs.2 ⟨k, hkl, hkn⟩
      refine ⟨q, r, List.mem_cons_of_mem _ hq, hqr, by simp [scanQueues, hsel, hscan], ?_, ?_⟩
      · intro k2 hk2 hlt
        rcases List.mem_cons.1 hk2 with rfl | hk2
        · exact hsel
        · exact hbefore k2 hk2 hlt
      · intro k2 hk2 hne
        rcases List.mem_cons.1 hk2 with rfl | hk2
        · exact absurd hsel hne
        · exact hfirst k2 hk2 hne

theorem dispatch_processes (s : MLQVisualizer) (q r : Nat) :
    ∃ ps, (∀ j, (deref ps j).is_executing = (deref s.processes j).is_executing) ∧
      ps.length = s.processes.length ∧
      (dispatch s q r).processes = ps.set r (runUnit s.current_time (seqAt s.sequence q) (deref ps r)) := by
  unfold dispatch
  simp only
  split_ifs with h
  · refine ⟨s.processes.modify (setSlice s.time_quantum) r, ?_, by simp, ?_⟩
    · intro j
      by_cases hj : j = r
      · subst hj
        by_cases hlt : j < s.processes.length
        · rw [deref_modify_self hlt]; rfl
        · rw [List.modify_eq_self (by omega)]
      · rw [deref_modify_ne hj]
    · rw [executeProcess_processes]
  · exact ⟨s.processes, fun _ => rfl, rfl, by rw [executeProcess_processes]⟩

/-- After `dispatch` on a state in which nothing is marked executing, exactly
the dispatched process is marked executing. -/
theorem dispatch_is_executing (s : MLQVisualizer) (q r : Nat) (hr : r < s.processes.length)
    (hclear : ∀ j, (deref s.processes j).is_executing = false) (j : Nat) :
    (deref (dispatch s q r).processes j).is_executing = true ↔ j = r := by
  obtain ⟨ps, hps, hlen, heq⟩ := dispatch_processes s q r
  rw [heq]
  by_cases hj : j = r
  · subst hj
    rw [deref_set_self (by omega)]
    simp [runUnit_is_executing]
  · rw [deref_set_ne hj, hps, hclear]
    simp [hj]

theorem resetProcess_runUnit (t a : Int) (p : Process) :
    resetProcess (runUnit t a p) = resetProcess p := by
  unfold runUnit
  simp only
  split_ifs <;> rfl

theorem resetProcess_idem (p : Process) : resetProcess (resetProcess p) = resetProcess p := rfl

theorem map_resetProcess_set (ps : List Process) (r : Nat) (p : Process)
    (h : resetProcess p = resetProcess (deref ps r)) :
    (ps.set r p).map resetProcess = ps.map resetProcess := by
  apply List.ext_getElem?
  intro n
  simp only [List.getElem?_map, List.getElem?_set]
  by_cases hn : r = n
  · subst hn
    by_cases hlt : r < ps.length
    · simp [hlt, h, deref, List.getElem?_eq_getElem hlt]
    · simp [hlt, List.getElem?_eq_none (Nat.le_of_not_lt hlt)]
  · simp [hn]

theorem map_resetProcess_modify (ps : List Process) (r : Nat) (f : Process → Process)
    (h : ∀ p, resetProcess (f p) = resetProcess p) :
    (ps.modify f r).map resetProcess = ps.map resetProcess := by
  apply List.ext_getElem?
  intro n
  simp only [List.getElem?_map, List.getElem?_modify]
  cases ps[n]? with
  | none => simp
  | some p => by_cases hn : r = n <;> simp [hn, h]

theorem resetSimulation_congr {s t : MLQVisualizer}
    (h1 : t.original_processes = s.original_processes) (h2 : t.queues = s.queues)
    (h3 : t.sequence = s.sequence) (h4 : t.time_quantum = s.time_quantum)
    (h5 : t.processes.map resetProcess = s.processes.map resetProcess) :
    resetSimulation t = resetSimulation s := by
  unfold resetSimulation
  rw [h1, h2, h3, h4, h5]

theorem resetSimulation_executeProcess (s : MLQVisualizer) (r : Nat) (a : Int) :
    resetSimulation (executeProcess s r a) = resetSimulation s := by
  have hp := executeProcess_processes s r a
  apply resetSimulation_congr
  · unfold executeProcess; simp only; split_ifs <;> rfl
  · unfold executeProcess; simp only; split_ifs <;> rfl
  · unfold executeProcess; simp only; split_ifs <;> rfl
  · unfold executeProcess; simp only; split_ifs <;> rfl
  · rw [hp]; exact map_resetProcess_set _ _ _ (resetProcess_runUnit _ _ _)

theorem resetSimulation_clearExecuting (s : MLQVisualizer) :
    resetSimulation (clearExecuting s) = resetSimulation s := by
  apply resetSimulation_congr <;> try rfl
  simp only [clearExecuting, List.map_map]
  rfl

theorem resetSimulation_dispatch (s : MLQVisualizer) (q r : Nat) :
    resetSimulation (dispatch s q r) = resetSimulation s := by
  unfold dispatch
  simp only
  rw [resetSimulation_executeProcess]
  split_ifs
  · apply resetSimulation_congr <;> try rfl
    exact map_resetProcess_modify _ _ _ (fun _ => rfl)
  · rfl

theorem resetSimulation_scanQueues (s : MLQVisualizer) (qs : List Nat) :
    resetSimulation (scanQueues s qs) = resetSimulation s := by
  induction qs with
  | nil => rfl
  | cons q rest ih =>
    unfold scanQueues
    cases selectFromQueue s q with
    | none => simpa using ih
    | some r => simpa using resetSimulation_dispatch s q r

theorem resetSimulation_executeScheduling (s : MLQVisualizer) :
    resetSimulation (executeScheduling s) = resetSimulation s := by
  unfold executeScheduling
  simp only
  cases continuing (clearExecuting s) with
  | none =>
    simp only [selectNext]
    rw [resetSimulation_scanQueues, ← resetSimulation_clearExecuting s]
    rfl
  | some c =>
    simp only
    rw [resetSimulation_executeProcess, resetSimulation_clearExecuting]

theorem resetSimulation_updateSimulation (elapsed : Bool) (s : MLQVisualizer) :
    resetSimulation (updateSimulation elapsed s) = resetSimulation s := by
  unfold updateSimulation
  split_ifs
  · rfl
  · rfl
  · show resetSimulation (executeScheduling s) = resetSimulation s
    exact resetSimulation_executeScheduling s
  · rfl

theorem resetSimulation_ticks (k : Nat) (s : MLQVisualizer) :
    resetSimulation (ticks k s) = resetSimulation s := by
  induction k generalizing s with
  | zero => rfl
  | succ k ih => rw [ticks, ih, tick, resetSimulation_updateSimulation]

theorem resetSimulation_pressSpace (s : MLQVisualizer) :
    resetSimulation (pressSpace s) = resetSimulation s := by
  unfold pressSpace
  split_ifs <;> rfl

theorem resetSimulation_idem (s : MLQVisualizer) :
    resetSimulation (resetSimulation s) = resetSimulation s := by
  apply resetSimulation_congr <;> try rfl
  simp only [resetSimulation, List.map_map]
  rfl

theorem tick_of_not_running (s : MLQVisualizer) (h : isRunning s = false) : tick s = s := by
  unfold tick updateSimulation
  unfold isRunning at h
  rw [if_pos]
  revert h
  cases s.simulation_running <;> cases s.simulation_paused <;>
    cases s.simulation_completed <;> simp

theorem tick_of_allFinished (s : MLQVisualizer) (h : allFinished s = true) :
    tick s = s ∨ tick s = { s with simulation_completed := true } := by
  unfold tick updateSimulation
  simp only [h, if_true]
  split_ifs
  · exact Or.inl rfl
  · exact Or.inr rfl

theorem ticks_of_not_running (n : Nat) (s : MLQVisualizer) (h : isRunning s = false) :
    ticks n s = s := by
  induction n with
  | zero => rfl
  | succ n ih => rw [ticks, tick_of_not_running s h, ih]

theorem tick_of_running_allFinished (s : MLQVisualizer) (hrun : isRunning s = true)
    (h : allFinished s = true) : tick s = { s with simulation_completed := true } := by
  unfold tick updateSimulation
  unfold isRunning at hrun
  rw [if_neg, if_pos rfl, if_pos h]
  revert hrun
  cases s.simulation_running <;> cases s.simulation_paused <;>
    cases s.simulation_completed <;> simp

theorem ticks_of_allFinished (n : Nat) (s : MLQVisualizer) (h : allFinished s = true) :
    ticks n s = s ∨ ticks n s = { s with simulation_completed := true } := by
  induction n with
  | zero => exact Or.inl rfl
  | succ n ih =>
    rw [ticks]
    rcases tick_of_allFinished s h with h1 | h1
    · rw [h1]; exact ih
    · rw [h1]
      refine Or.inr (ticks_of_not_running n _ ?_)
      simp [isRunning]

theorem set_modify_self (ps : List Process) (f : Process → Process) (r : Nat) (x : Process) :
    (ps.modify f r).set r x = ps.set r x := by
  apply List.ext_getElem?
  intro n
  simp only [List.getElem?_set, List.length_modify, List.getElem?_modify]
  by_cases hn : r = n
  · simp [hn]
  · simp [hn]

theorem dispatch_processes_eq (s : MLQVisualizer) (q r : Nat) (hr : r < s.processes.length) :
    (dispatch s q r).processes =
        s.processes.set r
          (runUnit s.current_time (seqAt s.sequence q) (deref s.processes r)) ∨
    (dispatch s q r).processes =
        s.processes.set r
          (runUnit s.current_time (seqAt s.sequence q)
            (setSlice s.time_quantum (deref s.processes r))) := by
  unfold dispatch
  simp only
  split_ifs with h
  · right
    rw [executeProcess_processes]
    simp only
    rw [set_modify_self, deref_modify_self hr]
  · left
    rw [executeProcess_processes]

theorem dispatch_processes_of_ge (s : MLQVisualizer) (q r : Nat)
    (hr : s.processes.length ≤ r) : (dispatch s q r).processes = s.processes := by
  unfold dispatch
  simp only
  split_ifs with h
  · rw [executeProcess_processes]
    simp only
    rw [set_modify_self, List.set_eq_of_length_le hr]
  · rw [executeProcess_processes, List.set_eq_of_length_le hr]

theorem scanQueues_cases (s : MLQVisualizer) (qs : List Nat) :
    scanQueues s qs = s ∨
      ∃ q r, q ∈ qs ∧ selectFromQueue s q = some r ∧ scanQueues s qs = dispatch s q r := by
  induction qs with
  | nil => exact Or.inl rfl
  | cons a l ih =>
    unfold scanQueues
    cases hsel : selectFromQueue s a with
    | some r => exact Or.inr ⟨a, r, by simp, hsel, rfl⟩
    | none =>
      rcases ih with h | ⟨q, r, hq, hqr, h⟩
      · exact Or.inl h
      · exact Or.inr ⟨q, r, List.mem_cons_of_mem _ hq, hqr, h⟩

theorem continuing_not_finished {s : MLQVisualizer} {cur : Nat} {a : Int}
    (h : continuing s = some (cur, a)) : (deref s.processes cur).finished = false := by
  unfold continuing at h
  cases hc : s.current_executing_process with
  | none => simp [hc] at h
  | some c =>
    simp only [hc] at h
    split_ifs at h with h1 h2 h3
    · simp only [Option.some.injEq, Prod.mk.injEq] at h
      rw [← h.1]; simpa using h1
    · simp only [Option.some.injEq, Prod.mk.injEq] at h
      rw [← h.1]; simpa using h1

/-- The processes after `executeScheduling`: either nothing ran, or one
unfinished process `r` ran for one unit, possibly after receiving a fresh time
slice. -/
theorem executeScheduling_processes (s : MLQVisualizer) :
    (executeScheduling s).processes = (clearExecuting s).processes ∨
    ∃ r a p1, r < s.processes.length ∧ (deref s.processes r).finished = false ∧
      (p1 = clearFlag (deref s.processes r) ∨
        p1 = setSlice s.time_quantum (clearFlag (deref s.processes r))) ∧
      (executeScheduling s).processes =
        (clearExecuting s).processes.set r (runUnit s.current_time a p1) := by
  have hlen : (clearExecuting s).processes.length = s.processes.length := by
    simp [clearExecuting]
  unfold executeScheduling
  simp only
  cases hc : continuing (clearExecuting s) with
  | some c =>
    obtain ⟨cur, a⟩ := c
    simp only
    rw [executeProcess_processes]
    by_cases hr : cur < s.processes.length
    · right
      refine ⟨cur, a, clearFlag (deref s.processes cur), hr, ?_, Or.inl rfl, ?_⟩
      · rw [continuing_clearExecuting] at hc
        exact continuing_not_finished hc
      · rw [deref_clearExecuting]; rfl
    · left
      rw [List.set_eq_of_length_le (by omega)]
  | none =>
    simp only [selectNext]
    rcases scanQueues_cases
        (clearHolder (clearExecuting s)) [0, 1, 2, 3] with
      h | ⟨q, r, _, hqr, h⟩
    · left; rw [h]; rfl
    · rw [h]
      by_cases hr : r < s.processes.length
      · right
        have hready := (mem_readyProcesses.1 (selectFromQueue_mem hqr)).2
        have hfin : (deref s.processes r).finished = false := by
          have h1 : (deref (clearExecuting s).processes r).finished = false :=
            (isReady_iff.1 hready).2
          rw [deref_clearExecuting] at h1
          exact h1
        rcases dispatch_processes_eq (clearHolder (clearExecuting s)) q r
            (by simpa [clearHolder] using (by omega : r < (clearExecuting s).processes.length))
          with h2 | h2
        · refine ⟨r, seqAt s.sequence q, clearFlag (deref s.processes r), hr, hfin,
            Or.inl rfl, ?_⟩
          rw [h2, ← deref_clearExecuting]; rfl
        · refine ⟨r, seqAt s.sequence q, setSlice s.time_quantum (clearFlag (deref s.processes r)),
            hr, hfin, Or.inr rfl, ?_⟩
          rw [h2, ← deref_clearExecuting]; rfl
      · left
        exact dispatch_processes_of_ge (clearHolder (clearExecuting s)) q r
          (by simpa [clearHolder] using (by omega : (clearExecuting s).processes.length ≤ r))

theorem sameConfig_refl (s : MLQVisualizer) : SameConfig s s :=
  ⟨rfl, rfl, rfl, rfl, rfl, rfl, rfl, rfl, rfl⟩

theorem sameConfig_executeProcess (s : MLQVisualizer) (r : Nat) (a : Int) :
    SameConfig s (executeProcess s r a) := by
  have hp := executeProcess_processes s r a
  refine ⟨?_, ?_, ?_, ?_, ?_, ?_, ?_, ?_, by rw [hp, List.length_set]⟩ <;>
    (unfold executeProcess; simp only; split_ifs <;> rfl)

theorem sameConfig_dispatch (s : MLQVisualizer) (q r : Nat) : SameConfig s (dispatch s q r) := by
  unfold dispatch
  simp only
  split_ifs
  · obtain ⟨h1, h2, h3, h4, h5, h6, h7, h8, h9⟩ := sameConfig_executeProcess
      { s with current_executing_process := some r, current_executing_queue := (q : Int),
               processes := s.processes.modify (setSlice s.time_quantum) r } r
      (seqAt s.sequence q)
    exact ⟨h1, h2, h3, h4, h5, h6, h7, h8, by rw [h9]; simp⟩
  · exact sameConfig_executeProcess
      { s with current_executing_process := some r, current_executing_queue := (q : Int) } r
      (seqAt s.sequence q)

theorem sameConfig_scanQueues (s : MLQVisualizer) (qs : List Nat) :
    SameConfig s (scanQueues s qs) := by
  rcases scanQueues_cases s qs with h | ⟨q, r, _, _, h⟩
  · rw [h]; exact sameConfig_refl s
  · rw [h]; exact sameConfig_dispatch s q r

theorem sameConfig_executeScheduling (s : MLQVisualizer) :
    SameConfig s (executeScheduling s) := by
  have hlen : (clearExecuting s).processes.length = s.processes.length := by
    simp [clearExecuting]
  unfold executeScheduling
  simp only
  cases continuing (clearExecuting s) with
  | some c =>
    obtain ⟨h1, h2, h3, h4, h5, h6, h7, h8, h9⟩ :=
      sameConfig_executeProcess (clearExecuting s) c.1 c.2
    exact ⟨h1, h2, h3, h4, h5, h6, h7, h8, by rw [← hlen]; exact h9⟩
  | none =>
    obtain ⟨h1, h2, h3, h4, h5, h6, h7, h8, h9⟩ :=
      sameConfig_scanQueues (clearHolder (clearExecuting s)) [0, 1, 2, 3]
    exact ⟨h1, h2, h3, h4, h5, h6, h7, h8, by rw [← hlen]; exact h9⟩

/-- Every process after `executeScheduling` comes from a process before it:
left alone, or run for one unit while unfinished. -/
theorem executeScheduling_mem (s : MLQVisualizer) {p2 : Process}
    (h : p2 ∈ (executeScheduling s).processes) :
    ∃ p ∈ s.processes, p2 = clearFlag p ∨
      (p.finished = false ∧ ∃ a,
        p2 = runUnit s.current_time a (clearFlag p) ∨
        p2 = runUnit s.current_time a (setSlice s.time_quantum (clearFlag p))) := by
  have hclear : ∀ x ∈ (clearExecuting s).processes, ∃ p ∈ s.processes, x = clearFlag p := by
    intro x hx
    simp only [clearExecuting, List.mem_map] at hx
    obtain ⟨p, hp, rfl⟩ := hx
    exact ⟨p, hp, rfl⟩
  rcases executeScheduling_processes s with h1 | ⟨r, a, p1, hr, hfin, hp1, h1⟩
  · rw [h1] at h
    obtain ⟨p, hp, rfl⟩ := hclear _ h
    exact ⟨p, hp, Or.inl rfl⟩
  · rw [h1] at h
    rcases List.mem_or_eq_of_mem_set h with h2 | h2
    · obtain ⟨p, hp, rfl⟩ := hclear _ h2
      exact ⟨p, hp, Or.inl rfl⟩
    · have hmem : deref s.processes r ∈ s.processes := by
        simp only [deref, List.getD_eq_getElem?_getD, List.getElem?_eq_getElem hr,
          Option.getD_some]
        exact List.getElem_mem hr
      refine ⟨deref s.processes r, hmem, Or.inr ⟨hfin, a, ?_⟩⟩
      rcases hp1 with rfl | rfl
      · exact Or.inl h2
      · exact Or.inr h2

theorem mem_modify {α : Type} (f : α → α) (l : List α) (i : Nat) {x : α}
    (h : x ∈ l.modify f i) : x ∈ l ∨ ∃ y ∈ l, x = f y := by
  induction l generalizing i with
  | nil => simp at h
  | cons a l ih =>
    cases i with
    | zero =>
      simp only [List.modify_zero_cons, List.mem_cons] at h
      rcases h with h | h
      · exact Or.inr ⟨a, by simp, h⟩
      · exact Or.inl (List.mem_cons_of_mem _ h)
    | succ i =>
      simp only [List.modify_succ_cons, List.mem_cons] at h
      rcases h with h | h
      · exact Or.inl (by simp [h])
      · rcases ih i h with h2 | ⟨y, hy, h2⟩
        · exact Or.inl (List.mem_cons_of_mem _ h2)
        · exact Or.inr ⟨y, List.mem_cons_of_mem _ hy, h2⟩

theorem distribute_foldl_mem (l : List Nat) (ps : List Process) (qs : List (List Nat))
    {p : Process} (h : p ∈ (l.foldl distributeStep (ps, qs)).1) :
    ∃ p0 ∈ ps, ∃ qi : Int, p = { p0 with queue_index := qi } := by
  induction l generalizing ps qs with
  | nil => exact ⟨p, h, p.queue_index, rfl⟩
  | cons i l ih =>
    simp only [List.foldl_cons] at h
    obtain ⟨p1, hp1, qi, rfl⟩ := ih _ _ h
    simp only [distributeStep] at hp1
    rcases mem_modify _ _ _ hp1 with h2 | ⟨y, hy, rfl⟩
    · exact ⟨p1, h2, qi, rfl⟩
    · exact ⟨y, hy, qi, rfl⟩

/-- Every process of the initial state is the reset of an input process, up to
its band index. -/
theorem initializeProcesses_mem (s0 : MLQVisualizer) (input : List Process) (seq : List Int)
    (quantum : Int) {p : Process}
    (h : p ∈ (initializeProcesses s0 input seq quantum).processes) :
    ∃ p0 ∈ input, ∃ qi : Int, p = resetProcess { initProcess p0 with queue_index := qi } := by
  simp only [initializeProcesses, resetSimulation, List.mem_map] at h
  obtain ⟨p1, hp1, rfl⟩ := h
  obtain ⟨p2, hp2, qi, rfl⟩ := distribute_foldl_mem _ _ _ hp1
  obtain ⟨p0, hp0, rfl⟩ := List.mem_map.1 hp2
  exact ⟨p0, hp0, qi, rfl⟩

theorem runUnit_remaining_time (t a : Int) (p : Process) :
    (runUnit t a p).remaining_time = p.remaining_time - 1 := by
  unfold runUnit; simp only; split_ifs <;> rfl

theorem runUnit_burst_time (t a : Int) (p : Process) :
    (runUnit t a p).burst_time = p.burst_time := by
  unfold runUnit; simp only; split_ifs <;> rfl

theorem runUnit_arrival_time (t a : Int) (p : Process) :
    (runUnit t a p).arrival_time = p.arrival_time := by
  unfold runUnit; simp only; split_ifs <;> rfl

theorem runUnit_pid (t a : Int) (p : Process) : (runUnit t a p).pid = p.pid := by
  unfold runUnit; simp only; split_ifs <;> rfl

theorem runUnit_priority (t a : Int) (p : Process) :
    (runUnit t a p).priority = p.priority := by
  unfold runUnit; simp only; split_ifs <;> rfl

theorem runUnit_queue_index (t a : Int) (p : Process) :
    (runUnit t a p).queue_index = p.queue_index := by
  unfold runUnit; simp only; split_ifs <;> rfl

theorem runUnit_started (t a : Int) (p : Process) : (runUnit t a p).started = true := by
  unfold runUnit; simp only; split_ifs <;> first | rfl | assumption

theorem runUnit_start_time (t a : Int) (p : Process) :
    (runUnit t a p).start_time = if p.started = true then p.start_time else t := by
  unfold runUnit; simp only; split_ifs <;> rfl

theorem runUnit_last_execution_time (t a : Int) (p : Process) :
    (runUnit t a p).last_execution_time = t := by
  unfold runUnit; simp only; split_ifs <;> rfl

theorem runUnit_finished (t a : Int) (p : Process) :
    (runUnit t a p).finished = if p.remaining_time - 1 ≤ 0 then true else p.finished := by
  unfold runUnit; simp only; split_ifs <;> rfl

theorem runUnit_completion_time (t a : Int) (p : Process) :
    (runUnit t a p).completion_time =
      if p.remaining_time - 1 ≤ 0 then t + 1 else p.completion_time := by
  unfold runUnit; simp only; split_ifs <;> rfl

theorem runUnit_turnaround_time (t a : Int) (p : Process) :
    (runUnit t a p).turnaround_time =
      if p.remaining_time - 1 ≤ 0 then t + 1 - p.arrival_time else p.turnaround_time := by
  unfold runUnit; simp only; split_ifs <;> rfl

theorem runUnit_waiting_time (t a : Int) (p : Process) :
    (runUnit t a p).waiting_time =
      if p.remaining_time - 1 ≤ 0 then t + 1 - p.arrival_time - p.burst_time
      else p.waiting_time := by
  unfold runUnit; simp only; split_ifs <;> rfl

theorem runUnit_time_slice_remaining (t a : Int) (p : Process) :
    (runUnit t a p).time_slice_remaining =
      if a = 3 ∧ p.time_slice_remaining > 0 then p.time_slice_remaining - 1
      else p.time_slice_remaining := by
  unfold runUnit; simp only; split_ifs <;> rfl

/-- Induction principle for per-process invariants of reachable states. -/
theorem reachable_invariant (P : Int → Process → Prop) (input : List Process)
    (seq : List Int) (quantum : Int)
    (hinit : ∀ p0 ∈ input, ∀ qi : Int,
      P 0 (resetProcess { initProcess p0 with queue_index := qi }))
    (hclear : ∀ now p, P now p → P (now + 1) (clearFlag p))
    (hrun : ∀ now a p, P now p → p.finished = false →
      P (now + 1) (runUnit now a (clearFlag p)) ∧
      P (now + 1) (runUnit now a (setSlice quantum (clearFlag p))))
    (hreset : ∀ now p, P now p → P 0 (resetProcess p))
    {s : MLQVisualizer} (hreach : Reachable input seq quantum s) :
    s.time_quantum = quantum ∧ ∀ p ∈ s.processes, P s.current_time p := by
  induction hreach with
  | init s0 =>
    refine ⟨rfl, fun p hp => ?_⟩
    obtain ⟨p0, hp0, qi, rfl⟩ := initializeProcesses_mem s0 input seq quantum hp
    exact hinit p0 hp0 qi
  | @update elapsed s _ ih =>
    unfold updateSimulation
    split_ifs
    · exact ih
    · exact ih
    · have hcfg := sameConfig_executeScheduling s
      refine ⟨?_, fun p hp => ?_⟩
      · show (executeScheduling s).time_quantum = quantum
        rw [hcfg.2.1]; exact ih.1
      · show P ((executeScheduling s).current_time + 1) p
        rw [hcfg.1]
        obtain ⟨p0, hp0, h⟩ := executeScheduling_mem s hp
        rcases h with rfl | ⟨hfin, a, rfl | rfl⟩
        · exact hclear _ _ (ih.2 p0 hp0)
        · exact (hrun _ a _ (ih.2 p0 hp0) hfin).1
        · rw [ih.1]; exact (hrun _ a _ (ih.2 p0 hp0) hfin).2
    · exact ih
  | @reset s _ ih =>
    refine ⟨ih.1, fun p hp => ?_⟩
    simp only [resetSimulation, List.mem_map] at hp
    obtain ⟨p0, hp0, rfl⟩ := hp
    exact hreset _ _ (ih.2 p0 hp0)
  | @space s _ ih =>
    unfold pressSpace
    split_ifs <;> exact ih

theorem timingInv_clearFlag (now : Int) (p : Process) (h : TimingInv now p) :
    TimingInv (now + 1) (clearFlag p) := by
  obtain ⟨h1, h2, h3⟩ := h
  refine ⟨h1, fun hs hf => ?_, h3⟩
  have := h2 hs hf
  show p.start_time + (p.burst_time - p.remaining_time) ≤ now + 1
  omega

theorem timingInv_runUnit (now a : Int) (p : Process) (h : TimingInv now p)
    (hfin : p.finished = false) : TimingInv (now + 1) (runUnit now a p) := by
  obtain ⟨h1, h2, _⟩ := h
  unfold TimingInv
  simp only [runUnit_started, runUnit_finished, runUnit_start_time, runUnit_burst_time,
    runUnit_remaining_time, runUnit_completion_time, runUnit_turnaround_time,
    runUnit_waiting_time, runUnit_arrival_time]
  refine ⟨fun h => absurd h (by simp), fun _ hf => ?_, fun hf => ?_⟩
  · cases hs : p.started
    · have := (h1 hs).1
      simp only [Bool.false_eq_true, if_false]
      omega
    · have := h2 hs hfin
      simp only [if_true]
      omega
  · have hle : p.remaining_time - 1 ≤ 0 := by
      by_contra hc
      rw [if_neg hc, hfin] at hf
      exact Bool.noConfusion hf
    simp only [hle, if_true]
    refine ⟨?_, by trivial, by trivial⟩
    cases hs : p.started
    · have := (h1 hs).1
      simp only [Bool.false_eq_true, if_false]
      omega
    · have := h2 hs hfin
      simp only [if_true]
      omega

theorem timingInv_resetProcess (p : Process) : TimingInv 0 (resetProcess p) :=
  ⟨fun _ => ⟨rfl, rfl⟩, fun h => absurd h (by simp [resetProcess]),
    fun h => absurd h (by simp [resetProcess])⟩

theorem reachable_timingInv {input : List Process} {seq : List Int} {quantum : Int}
    {s : MLQVisualizer} (hreach : Reachable input seq quantum s) :
    ∀ p ∈ s.processes, TimingInv s.current_time p :=
  (reachable_invariant TimingInv input seq quantum
    (fun _ _ _ => timingInv_resetProcess _)
    timingInv_clearFlag
    (fun now a p h hfin =>
      ⟨timingInv_runUnit now a (clearFlag p) (show TimingInv now (clearFlag p) from h) hfin,
        timingInv_runUnit now a (setSlice quantum (clearFlag p))
          (show TimingInv now (setSlice quantum (clearFlag p)) from h) hfin⟩)
    (fun _ _ _ => timingInv_resetProcess _) hreach).2

theorem reachable_ticks {input : List Process} {seq : List Int} {quantum : Int}
    (k : Nat) {s : MLQVisualizer} (hreach : Reachable input seq quantum s) :
    Reachable input seq quantum (ticks k s) := by
  induction k generalizing s with
  | zero => exact hreach
  | succ k ih => exact ih (Reachable.update true hreach)

theorem remainingInv_runUnit (now a : Int) (p : Process) (h : RemainingInv p)
    (hfin : p.finished = false) : RemainingInv (runUnit now a p) := by
  obtain ⟨h1, h2, h3, h4⟩ := h
  unfold RemainingInv
  simp only [runUnit_finished, runUnit_burst_time, runUnit_remaining_time]
  have hne : p.remaining_time ≠ 0 := fun h0 => by
    have := h4.2 h0
    rw [hfin] at this
    exact Bool.noConfusion this
  refine ⟨h1, by omega, by omega, ?_⟩
  split_ifs with hle
  · simp; omega
  · simp [hfin]; omega

theorem reachable_remainingInv {input : List Process} {seq : List Int} {quantum : Int}
    (hburst : ∀ p ∈ input, 0 < p.burst_time)
    {s : MLQVisualizer} (hreach : Reachable input seq quantum s) :
    ∀ p ∈ s.processes, RemainingInv p :=
  (reachable_invariant (fun _ p => RemainingInv p) input seq quantum
    (fun p0 hp0 _ => by
      have := hburst p0 hp0
      refine ⟨this, le_of_lt this, le_refl _, ?_⟩
      show false = true ↔ p0.burst_time = 0
      constructor
      · intro h; exact Bool.noConfusion h
      · intro h; omega)
    (fun _ _ h => h)
    (fun now a p h hfin =>
      ⟨remainingInv_runUnit now a (clearFlag p) (show RemainingInv (clearFlag p) from h) hfin,
        remainingInv_runUnit now a (setSlice quantum (clearFlag p))
          (show RemainingInv (setSlice quantum (clearFlag p)) from h) hfin⟩)
    (fun _ p h => by
      obtain ⟨h1, _, _, _⟩ := h
      refine ⟨h1, le_of_lt h1, le_refl _, ?_⟩
      show false = true ↔ p.burst_time = 0
      constructor
      · intro h; exact Bool.noConfusion h
      · intro h; omega) hreach).2

theorem executeProcess_eq (s : MLQVisualizer) (r : Nat) (a : Int) :
    executeProcess s r a =
      { s with
        processes := s.processes.set r (runUnit s.current_time a (deref s.processes r))
        current_executing_process :=
          if (runUnit s.current_time a (deref s.processes r)).remaining_time ≤ 0 ∨
              (a = 3 ∧ (runUnit s.current_time a (deref s.processes r)).time_slice_remaining ≤ 0)
          then none else s.current_executing_process
        current_executing_queue :=
          if (runUnit s.current_time a (deref s.processes r)).remaining_time ≤ 0 ∨
              (a = 3 ∧ (runUnit s.current_time a (deref s.processes r)).time_slice_remaining ≤ 0)
          then -1 else s.current_executing_queue } := by
  unfold executeProcess
  simp only
  by_cases h1 : (runUnit s.current_time a (deref s.processes r)).remaining_time ≤ 0
  · rw [if_pos h1, if_pos (Or.inl h1), if_pos (Or.inl h1)]
  · by_cases h2 : a = 3 ∧ (runUnit s.current_time a (deref s.processes r)).time_slice_remaining ≤ 0
    · rw [if_neg h1, if_pos h2, if_pos (Or.inr h2), if_pos (Or.inr h2)]
    · rw [if_neg h1, if_neg h2, if_neg (not_or.2 ⟨h1, h2⟩), if_neg (not_or.2 ⟨h1, h2⟩)]

theorem continuing_eq_some {s : MLQVisualizer} {cur : Nat} {a : Int}
    (h : continuing s = some (cur, a)) :
    s.current_executing_process = some cur ∧ a = seqAt s.sequence s.current_executing_queue ∧
      (deref s.processes cur).finished = false ∧
      (a = 3 → 0 < (deref s.processes cur).time_slice_remaining) := by
  unfold continuing at h
  cases hc : s.current_executing_process with
  | none => simp [hc] at h
  | some c =>
    simp only [hc] at h
    split_ifs at h with h1 h2 h3
    · simp only [Option.some.injEq, Prod.mk.injEq] at h
      obtain ⟨rfl, rfl⟩ := h
      exact ⟨rfl, rfl, by simpa using h1, fun _ => h3⟩
    · simp only [Option.some.injEq, Prod.mk.injEq] at h
      obtain ⟨rfl, rfl⟩ := h
      exact ⟨rfl, rfl, by simpa using h1, fun h3 => absurd h3 h2⟩

theorem continuing_eq_none {s : MLQVisualizer} (h : continuing s = none) (r : Nat)
    (hr : s.current_executing_process = some r) :
    (deref s.processes r).finished = true ∨
      (seqAt s.sequence s.current_executing_queue = 3 ∧
        (deref s.processes r).time_slice_remaining ≤ 0) := by
  unfold continuing at h
  simp only [hr] at h
  split_ifs at h with h1 h2 h3
  · exact Or.inl h1
  · exact Or.inr ⟨h2, by omega⟩

theorem executeScheduling_cases (s : MLQVisualizer) :
    (∃ cur a, continuing s = some (cur, a) ∧
      executeScheduling s = executeProcess (clearExecuting s) cur a) ∨
    (continuing s = none ∧ (∀ q ∈ [0, 1, 2, 3], selectFromQueue s q = none) ∧
      executeScheduling s = clearHolder (clearExecuting s)) ∨
    (continuing s = none ∧ ∃ q r, q ∈ [0, 1, 2, 3] ∧ selectFromQueue s q = some r ∧
      (∀ k ∈ [0, 1, 2, 3], k < q → selectFromQueue s k = none) ∧
      executeScheduling s = dispatch (clearHolder (clearExecuting s)) q r) := by
  have hs1 : ∀ q, selectFromQueue (clearHolder (clearExecuting s)) q = selectFromQueue s q :=
    fun q => selectFromQueue_clearExecuting s q
  cases hc : continuing s with
  | some c =>
    left
    refine ⟨c.1, c.2, rfl, ?_⟩
    unfold executeScheduling
    simp only [continuing_clearExecuting, hc]
  | none =>
    right
    have hexec : executeScheduling s =
        scanQueues (clearHolder (clearExecuting s)) [0, 1, 2, 3] := by
      unfold executeScheduling
      simp only [continuing_clearExecuting, hc]
      rfl
    by_cases hex : ∃ k ∈ [0, 1, 2, 3], selectFromQueue s k ≠ none
    · right
      obtain ⟨k, hk, hkn⟩ := hex
      obtain ⟨q, r, hq, hqr, hscan, hbefore, _⟩ :=
        scanQueues_first (clearHolder (clearExecuting s)) [0, 1, 2, 3] (by decide)
          ⟨k, hk, by rw [hs1]; exact hkn⟩
      refine ⟨rfl, q, r, hq, by rw [← hs1]; exact hqr, ?_, by rw [hexec, hscan]⟩
      intro k2 hk2 hlt
      rw [← hs1]; exact hbefore k2 hk2 hlt
    · left
      have hall : ∀ q ∈ [0, 1, 2, 3], selectFromQueue s q = none := by
        intro q hq
        by_contra hne
        exact hex ⟨q, hq, hne⟩
      refine ⟨rfl, hall, ?_⟩
      rw [hexec]
      rcases scanQueues_cases (clearHolder (clearExecuting s)) [0, 1, 2, 3] with h | ⟨q, r, hq, hqr, _⟩
      · exact h
      · rw [hs1, hall q hq] at hqr
        exact Option.noConfusion hqr

theorem tick_of_running (s : MLQVisualizer) (hrun : isRunning s = true)
    (hnf : allFinished s = false) :
    tick s = { executeScheduling s with
               current_time := (executeScheduling s).current_time + 1 } := by
  unfold tick updateSimulation
  unfold isRunning at hrun
  rw [if_neg, if_pos rfl, if_neg (by simp [hnf])]
  revert hrun
  cases s.simulation_running <;> cases s.simulation_paused <;>
    cases s.simulation_completed <;> simp

theorem set_deref_self {ps : List Process} {r : Nat} (hr : r < ps.length) :
    ps.set r (deref ps r) = ps := by
  apply List.ext_getElem?
  intro n
  by_cases hn : r = n
  · subst hn
    simp [List.getElem?_set, hr, deref, List.getElem?_eq_getElem hr]
  · simp [List.getElem?_set, hn]

theorem modify_eq_set_deref {ps : List Process} {r : Nat} (f : Process → Process)
    (hr : r < ps.length) : ps.modify f r = ps.set r (f (deref ps r)) := by
  apply List.ext_getElem?
  intro n
  by_cases hn : r = n
  · subst hn
    simp [List.getElem?_set, List.getElem?_modify, hr, deref, List.getElem?_eq_getElem hr]
  · simp [List.getElem?_set, List.getElem?_modify, hn]

theorem dispatch_eq (s : MLQVisualizer) (q r : Nat) (hr : r < s.processes.length) :
    dispatch s q r =
      executeProcess
        { s with
          current_executing_process := some r
          current_executing_queue := (q : Int)
          processes := s.processes.set r
            (if seqAt s.sequence q = 3 then setSlice s.time_quantum (deref s.processes r)
             else deref s.processes r) } r (seqAt s.sequence q) := by
  unfold dispatch
  simp only
  split_ifs with h
  · rw [modify_eq_set_deref _ hr]
  · rw [set_deref_self hr]

/-- A tick of a RUNNING engine with unfinished work: it continues the holder,
idles, or dispatches the first band that yields a process. -/
theorem tick_cases (s : MLQVisualizer) (hwf : s.queues = (distribute s.processes).2)
    (hrun : isRunning s = true) (hnf : allFinished s = false) :
    (∃ cur a, continuing s = some (cur, a) ∧
      tick s = afterRun s s.current_executing_queue cur a (clearFlag (deref s.processes cur))) ∨
    (continuing s = none ∧ (∀ q ∈ [0, 1, 2, 3], selectFromQueue s q = none) ∧
      tick s = afterIdle s) ∨
    (continuing s = none ∧ ∃ q r, q ∈ [0, 1, 2, 3] ∧ selectFromQueue s q = some r ∧
      (∀ k ∈ [0, 1, 2, 3], k < q → selectFromQueue s k = none) ∧
      r < s.processes.length ∧ r % 4 = q ∧
      tick s = afterRun s (q : Int) r (seqAt s.sequence q)
        (if seqAt s.sequence q = 3 then setSlice s.time_quantum (clearFlag (deref s.processes r))
         else clearFlag (deref s.processes r))) := by
  rw [tick_of_running s hrun hnf]
  rcases executeScheduling_cases s with ⟨cur, a, hc, he⟩ | ⟨hc, hall, he⟩ | ⟨hc, q, r, hq, hqr, hbefore, he⟩
  · left
    refine ⟨cur, a, hc, ?_⟩
    obtain ⟨hcep, _, _, _⟩ := continuing_eq_some hc
    rw [he, executeProcess_eq]
    simp only [deref_clearExecuting]
    unfold afterRun
    have h1 : (clearExecuting s).current_executing_process = some cur := hcep
    rw [h1]
    by_cases hst : (runUnit s.current_time a (clearFlag (deref s.processes cur))).remaining_time ≤ 0 ∨
        (a = 3 ∧ (runUnit s.current_time a (clearFlag (deref s.processes cur))).time_slice_remaining ≤ 0)
    · simp only [clearExecuting, hst, if_true]
    · simp only [clearExecuting, hst, if_false]
  · right; left
    refine ⟨hc, hall, ?_⟩
    rw [he]
    rfl
  · right; right
    have hrq : r ∈ s.queues.getD q [] := (mem_readyProcesses.1 (selectFromQueue_mem hqr)).1
    obtain ⟨hrlen, hrmod⟩ := mem_queue_lt_length hwf hrq
    refine ⟨hc, q, r, hq, hqr, hbefore, hrlen, hrmod, ?_⟩
    have hlen : r < (clearHolder (clearExecuting s)).processes.length := by
      show r < (s.processes.map clearFlag).length
      rw [List.length_map]; exact hrlen
    rw [he, dispatch_eq _ q r hlen, executeProcess_eq]
    have hd : deref (clearHolder (clearExecuting s)).processes r = clearFlag (deref s.processes r) :=
      deref_clearExecuting s r
    have hlen2 : r < (s.processes.map clearFlag).length := hlen
    simp only [hd]
    unfold afterRun
    simp only [clearHolder, clearExecuting, List.set_set, deref_set_self hlen2]

@[simp] theorem clearFlag_pid (p : Process) : (clearFlag p).pid = p.pid := rfl

@[simp] theorem clearFlag_arrival_time (p : Process) : (clearFlag p).arrival_time = p.arrival_time := rfl

@[simp] theorem clearFlag_burst_time (p : Process) : (clearFlag p).burst_time = p.burst_time := rfl

@[simp] theorem clearFlag_priority (p : Process) : (clearFlag p).priority = p.priority := rfl

@[simp] theorem clearFlag_start_time (p : Process) : (clearFlag p).start_time = p.start_time := rfl

@[simp] theorem clearFlag_completion_time (p : Process) : (clearFlag p).completion_time = p.completion_time := rfl

@[simp] theorem clearFlag_remaining_time (p : Process) : (clearFlag p).remaining_time = p.remaining_time := rfl

@[simp] theorem clearFlag_turnaround_time (p : Process) : (clearFlag p).turnaround_time = p.turnaround_time := rfl

@[simp] theorem clearFlag_waiting_time (p : Process) : (clearFlag p).waiting_time = p.waiting_time := rfl

@[simp] theorem clearFlag_finished (p : Process) : (clearFlag p).finished = p.finished := rfl

@[simp] theorem clearFlag_started (p : Process) : (clearFlag p).started = p.started := rfl

@[simp] theorem clearFlag_queue_index (p : Process) : (clearFlag p).queue_index = p.queue_index := rfl

@[simp] theorem clearFlag_last_execution_time (p : Process) : (clearFlag p).last_execution_time = p.last_execution_time := rfl

@[simp] theorem clearFlag_time_slice_remaining (p : Process) : (clearFlag p).time_slice_remaining = p.time_slice_remaining := rfl

@[simp] theorem setSlice_pid (q : Int) (p : Process) : (setSlice q p).pid = p.pid := rfl

@[simp] theorem setSlice_arrival_time (q : Int) (p : Process) : (setSlice q p).arrival_time = p.arrival_time := rfl

@[simp] theorem setSlice_burst_time (q : Int) (p : Process) : (setSlice q p).burst_time = p.burst_time := rfl

@[simp] theorem setSlice_priority (q : Int) (p : Process) : (setSlice q p).priority = p.priority := rfl

@[simp] theorem setSlice_start_time (q : Int) (p : Process) : (setSlice q p).start_time = p.start_time := rfl

@[simp] theorem setSlice_completion_time (q : Int) (p : Process) : (setSlice q p).completion_time = p.completion_time := rfl

@[simp] theorem setSlice_remaining_time (q : Int) (p : Process) : (setSlice q p).remaining_time = p.remaining_time := rfl

@[simp] theorem setSlice_turnaround_time (q : Int) (p : Process) : (setSlice q p).turnaround_time = p.turnaround_time := rfl

@[simp] theorem setSlice_waiting_time (q : Int) (p : Process) : (setSlice q p).waiting_time = p.waiting_time := rfl

@[simp] theorem setSlice_finished (q : Int) (p : Process) : (setSlice q p).finished = p.finished := rfl

@[simp] theorem setSlice_started (q : Int) (p : Process) : (setSlice q p).started = p.started := rfl

@[simp] theorem setSlice_is_executing (q : Int) (p : Process) : (setSlice q p).is_executing = p.is_executing := rfl

@[simp] theorem setSlice_queue_index (q : Int) (p : Process) : (setSlice q p).queue_index = p.queue_index := rfl

@[simp] theorem setSlice_last_execution_time (q : Int) (p : Process) : (setSlice q p).last_execution_time = p.last_execution_time := rfl

@[simp] theorem setSlice_time_slice_remaining (q : Int) (p : Process) : (setSlice q p).time_slice_remaining = q := rfl

theorem deref_afterRun (s : MLQVisualizer) (q : Int) (r : Nat) (a : Int) (p1 : Process)
    (hr : r < s.processes.length) (i : Nat) :
    deref (afterRun s q r a p1).processes i =
      if i = r then runUnit s.current_time a p1 else clearFlag (deref s.processes i) := by
  have hlen : r < (s.processes.map clearFlag).length := by rw [List.length_map]; exact hr
  show deref ((s.processes.map clearFlag).set r (runUnit s.current_time a p1)) i = _
  by_cases hi : i = r
  · subst hi
    rw [deref_set_self hlen, if_pos rfl]
  · rw [deref_set_ne hi, if_neg hi]
    exact deref_map clearFlag rfl i

theorem deref_afterIdle (s : MLQVisualizer) (i : Nat) :
    deref (afterIdle s).processes i = clearFlag (deref s.processes i) :=
  deref_map clearFlag rfl i

theorem distribute_queues_of_length {ps ps2 : List Process} (h : ps2.length = ps.length) :
    (distribute ps2).2 = (distribute ps).2 := by
  rw [distribute_queues, distribute_queues, h]

theorem engineInv_congr {s t : MLQVisualizer} (h : EngineInv s)
    (h1 : t.queues = s.queues) (h2 : t.processes = s.processes)
    (h3 : t.current_executing_process = s.current_executing_process)
    (h4 : t.current_executing_queue = s.current_executing_queue)
    (h5 : t.current_time = s.current_time) (h6 : t.sequence = s.sequence)
    (h7 : t.time_quantum = s.time_quantum) : EngineInv t := by
  unfold EngineInv at *
  rw [h1, h2, h3, h4, h5, h6, h7]
  exact h

theorem engineInv_afterIdle {s : MLQVisualizer} (h : EngineInv s)
    (hc : continuing s = none) : EngineInv (afterIdle s) := by
  obtain ⟨hwf, hhold, _, _, hun, hrem, harr, hnr, hdone⟩ := h
  have hlen : (afterIdle s).processes.length = s.processes.length := by
    simp [afterIdle]
  refine ⟨?_, ?_, ?_, ?_, ?_, ?_, ?_, ?_, ?_⟩
  · show s.queues = _
    rw [hwf]; exact (distribute_queues_of_length hlen).symm
  · intro r hr
    exact Option.noConfusion hr
  · intro i hi
    rw [deref_afterIdle] at hi
    exact Bool.noConfusion hi
  · intro i j hi
    rw [deref_afterIdle] at hi
    exact Bool.noConfusion hi
  · intro i hi
    rw [deref_afterIdle] at hi ⊢
    exact hun i hi
  · intro i h1 h2
    rw [deref_afterIdle] at h1 h2 ⊢
    exact hrem i h1 h2
  · intro i h1
    rw [deref_afterIdle] at h1 ⊢
    exact harr i h1
  · intro i hi hseq h1 h2
    rw [deref_afterIdle] at h1 h2
    simp only [clearFlag_started, clearFlag_finished] at h1 h2
    rw [hlen] at hi
    obtain ⟨hcep, _⟩ := hnr i hi hseq h1 h2
    obtain ⟨_, _, _, hq, _, _⟩ := hhold i hcep
    rcases continuing_eq_none hc i hcep with hf | ⟨h3, _⟩
    · rw [h2] at hf; exact Bool.noConfusion hf
    · rw [hq] at h3; exact absurd h3 hseq
  · intro i hseq hb hf
    rw [deref_afterIdle] at hb hf ⊢
    exact hdone i hseq hb hf

theorem engineInv_afterRun {s : MLQVisualizer} (h : EngineInv s) (r : Nat) (a sl : Int)
    (hr : r < s.processes.length)
    (hsl : a = 3 → sl ≤ s.time_quantum)
    (hfin : (deref s.processes r).finished = false)
    (harrived : (deref s.processes r).arrival_time ≤ s.current_time)
    (ha : a = seqAt s.sequence ((r % 4 : Nat) : Int))
    (hothers : ∀ i, i < s.processes.length → i ≠ r → seqAt s.sequence ((i % 4 : Nat) : Int) ≠ 3 →
      (deref s.processes i).started = true → (deref s.processes i).finished = true)
    (hself : a ≠ 3 → (deref s.processes r).started = true →
      (deref s.processes r).start_time +
        ((deref s.processes r).burst_time - (deref s.processes r).remaining_time) =
          s.current_time) :
    EngineInv (afterRun s ((r % 4 : Nat) : Int) r a
      (setSlice sl (clearFlag (deref s.processes r)))) := by
  obtain ⟨hwf, _, _, _, hun, hrem, harr, _, hdone⟩ := h
  have hlen : (afterRun s ((r % 4 : Nat) : Int) r a
      (setSlice sl (clearFlag (deref s.processes r)))).processes.length = s.processes.length := by
    simp [afterRun]
  have hd := deref_afterRun s ((r % 4 : Nat) : Int) r a
    (setSlice sl (clearFlag (deref s.processes r))) hr
  refine ⟨?_, ?_, ?_, ?_, ?_, ?_, ?_, ?_, ?_⟩
  · show s.queues = _
    rw [hwf]; exact (distribute_queues_of_length hlen).symm
  · intro r2 hr2
    have hcep : (afterRun s ((r % 4 : Nat) : Int) r a
        (setSlice sl (clearFlag (deref s.processes r)))).current_executing_process =
        if (runUnit s.current_time a (setSlice sl (clearFlag (deref s.processes r)))).remaining_time ≤ 0 ∨
          (a = 3 ∧ (runUnit s.current_time a
            (setSlice sl (clearFlag (deref s.processes r)))).time_slice_remaining ≤ 0)
        then none else some r := rfl
    have hceq : (afterRun s ((r % 4 : Nat) : Int) r a
        (setSlice sl (clearFlag (deref s.processes r)))).current_executing_queue =
        if (runUnit s.current_time a (setSlice sl (clearFlag (deref s.processes r)))).remaining_time ≤ 0 ∨
          (a = 3 ∧ (runUnit s.current_time a
            (setSlice sl (clearFlag (deref s.processes r)))).time_slice_remaining ≤ 0)
        then -1 else ((r % 4 : Nat) : Int) := rfl
    rw [hcep] at hr2
    split_ifs at hr2 with hcond
    simp only [Option.some.injEq] at hr2
    subst hr2
    rw [hceq, if_neg hcond, hd, if_pos rfl]
    simp only [runUnit_remaining_time, runUnit_time_slice_remaining, setSlice_remaining_time,
      clearFlag_remaining_time, setSlice_time_slice_remaining, not_or, not_and, not_le] at hcond
    obtain ⟨hc1, hc2⟩ := hcond
    refine ⟨by rw [hlen]; exact hr, ?_, runUnit_started _ _ _, rfl, ?_, ?_⟩
    · rw [runUnit_finished]
      simp only [setSlice_remaining_time, clearFlag_remaining_time, setSlice_finished,
        clearFlag_finished]
      rw [if_neg (by omega)]; exact hfin
    · rw [runUnit_arrival_time]
      show (deref s.processes r).arrival_time ≤ s.current_time + 1
      omega
    · intro hrr
      have ha3 : a = 3 := by rw [ha]; exact hrr
      have hq := hsl ha3
      have hc3 := hc2 ha3
      rw [runUnit_time_slice_remaining]
      simp only [setSlice_time_slice_remaining] at hc3 ⊢
      show _ ∧ _ ≤ s.time_quantum - 1
      split_ifs at hc3 ⊢ with h5
      · omega
      · exfalso; apply h5; exact ⟨ha3, by omega⟩
  · intro i hi
    rw [hd] at hi ⊢
    split_ifs at hi ⊢ with hir
    · rw [runUnit_arrival_time, runUnit_last_execution_time]
      exact ⟨harrived, rfl⟩
    · exact Bool.noConfusion hi
  · intro i j hi hj
    rw [hd] at hi hj
    split_ifs at hi with hir
    · split_ifs at hj with hjr
      · rw [hir, hjr]
      · exact Bool.noConfusion hj
    · exact Bool.noConfusion hi
  · intro i hi
    rw [hd] at hi ⊢
    split_ifs at hi ⊢ with hir
    · rw [runUnit_started] at hi; exact Bool.noConfusion hi
    · exact hun i hi
  · intro i h1 h2
    rw [hd] at h1 h2 ⊢
    split_ifs at h1 h2 ⊢ with hir
    · rw [runUnit_finished] at h2
      rw [runUnit_remaining_time]
      simp only [setSlice_remaining_time, clearFlag_remaining_time] at h2 ⊢
      split_ifs at h2 with h3
      omega
    · exact hrem i h1 h2
  · intro i h1
    rw [hd] at h1 ⊢
    split_ifs at h1 ⊢ with hir
    · rw [runUnit_arrival_time, runUnit_start_time]
      simp only [setSlice_arrival_time, clearFlag_arrival_time, setSlice_started,
        clearFlag_started, setSlice_start_time, clearFlag_start_time]
      split_ifs with h4
      · exact harr r h4
      · exact harrived
    · exact harr i h1
  · intro i hi hseq h1 h2
    rw [hlen] at hi
    have hseq2 : seqAt s.sequence ((i % 4 : Nat) : Int) ≠ 3 := hseq
    rw [hd] at h1 h2 ⊢
    by_cases hir : i = r
    · subst hir
      have ha3 : a ≠ 3 := by rw [ha]; exact hseq2
      rw [if_pos rfl] at h1 h2 ⊢
      rw [runUnit_finished] at h2
      simp only [setSlice_remaining_time, clearFlag_remaining_time, setSlice_finished,
        clearFlag_finished] at h2
      split_ifs at h2 with h3
      refine ⟨?_, ?_⟩
      · show (if (runUnit s.current_time a (setSlice sl (clearFlag (deref s.processes i)))).remaining_time ≤ 0 ∨
          (a = 3 ∧ (runUnit s.current_time a
            (setSlice sl (clearFlag (deref s.processes i)))).time_slice_remaining ≤ 0)
          then none else some i) = some i
        rw [if_neg]
        simp only [runUnit_remaining_time, setSlice_remaining_time, clearFlag_remaining_time,
          not_or, not_and]
        exact ⟨h3, fun h => absurd h ha3⟩
      · rw [runUnit_start_time, runUnit_burst_time, runUnit_remaining_time]
        simp only [setSlice_remaining_time, clearFlag_remaining_time, setSlice_started,
          clearFlag_started, setSlice_start_time, clearFlag_start_time, setSlice_burst_time,
          clearFlag_burst_time]
        show _ = s.current_time + 1
        cases hst : (deref s.processes i).started
        · have := (hun i hst).1
          simp only [Bool.false_eq_true, if_false]
          omega
        · have := hself ha3 hst
          simp only [if_true]
          omega
    · rw [if_neg hir] at h1 h2
      simp only [clearFlag_started, clearFlag_finished] at h1 h2
      have := hothers i hi hir hseq2 h1
      rw [h2] at this
      exact Bool.noConfusion this
  · intro i hseq hb hf
    have hseq2 : seqAt s.sequence ((i % 4 : Nat) : Int) ≠ 3 := hseq
    rw [hd] at hb hf ⊢
    by_cases hir : i = r
    · subst hir
      have ha3 : a ≠ 3 := by rw [ha]; exact hseq2
      rw [if_pos rfl] at hb hf ⊢
      rw [runUnit_burst_time] at hb
      rw [runUnit_finished] at hf
      rw [runUnit_completion_time, runUnit_start_time, runUnit_burst_time]
      simp only [setSlice_remaining_time, clearFlag_remaining_time, setSlice_started,
        clearFlag_started, setSlice_start_time, clearFlag_start_time, setSlice_burst_time,
        clearFlag_burst_time, setSlice_finished, clearFlag_finished,
        setSlice_completion_time, clearFlag_completion_time] at hb hf ⊢
      have h3 : (deref s.processes i).remaining_time - 1 ≤ 0 := by
        by_contra hc
        rw [if_neg hc, hfin] at hf
        exact Bool.noConfusion hf
      rw [if_pos h3]
      cases hst : (deref s.processes i).started
      · have := (hun i hst).1
        simp only [Bool.false_eq_true, if_false]
        omega
      · have h5 := hself ha3 hst
        have h6 := hrem i hst hfin
        simp only [if_true]
        omega
    · rw [if_neg hir] at hb hf ⊢
      exact hdone i hseq2 hb hf

theorem distribute_foldl_length (l : List Nat) (ps : List Process) (qs : List (List Nat)) :
    (l.foldl distributeStep (ps, qs)).1.length = ps.length := by
  induction l generalizing ps qs with
  | nil => rfl
  | cons i l ih =>
    simp only [List.foldl_cons]
    rw [ih]
    simp [distributeStep]

theorem distribute_fst_length (ps : List Process) : (distribute ps).1.length = ps.length :=
  distribute_foldl_length _ _ _

theorem deref_resetSimulation (s : MLQVisualizer) (i : Nat) :
    deref (resetSimulation s).processes i = resetProcess (deref s.processes i) ∨
      deref (resetSimulation s).processes i = default := by
  unfold deref
  simp only [resetSimulation, List.getD_eq_getElem?_getD, List.getElem?_map]
  cases s.processes[i]? with
  | none => right; rfl
  | some p => left; rfl

theorem engineInv_resetSimulation (s : MLQVisualizer)
    (hwf : s.queues = (distribute s.processes).2) : EngineInv (resetSimulation s) := by
  have hlen : (resetSimulation s).processes.length = s.processes.length := by
    simp [resetSimulation]
  have hst : ∀ i, (deref (resetSimulation s).processes i).started = false ∧
      (deref (resetSimulation s).processes i).is_executing = false ∧
      (deref (resetSimulation s).processes i).finished = false ∧
      (deref (resetSimulation s).processes i).remaining_time =
        (deref (resetSimulation s).processes i).burst_time := by
    intro i
    rcases deref_resetSimulation s i with h | h <;> rw [h] <;> exact ⟨rfl, rfl, rfl, rfl⟩
  refine ⟨?_, ?_, ?_, ?_, ?_, ?_, ?_, ?_, ?_⟩
  · show s.queues = _
    rw [hwf]; exact (distribute_queues_of_length hlen).symm
  · intro r hr; exact Option.noConfusion hr
  · intro i hi; rw [(hst i).2.1] at hi; exact Bool.noConfusion hi
  · intro i j hi; rw [(hst i).2.1] at hi; exact Bool.noConfusion hi
  · intro i _; exact ⟨(hst i).2.2.2, (hst i).2.2.1⟩
  · intro i hi; rw [(hst i).1] at hi; exact Bool.noConfusion hi
  · intro i hi; rw [(hst i).1] at hi; exact Bool.noConfusion hi
  · intro i _ _ hi; rw [(hst i).1] at hi; exact Bool.noConfusion hi
  · intro i _ _ hi; rw [(hst i).2.2.1] at hi; exact Bool.noConfusion hi

theorem engineInv_initializeProcesses (s0 : MLQVisualizer) (input : List Process)
    (seq : List Int) (quantum : Int) : EngineInv (initializeProcesses s0 input seq quantum) := by
  unfold initializeProcesses
  apply engineInv_resetSimulation
  show (distribute (input.map initProcess)).2 = (distribute (distribute (input.map initProcess)).1).2
  exact (distribute_queues_of_length (distribute_fst_length _)).symm

theorem allFinished_eq_false {s : MLQVisualizer} (h : ¬ allFinished s = true) :
    allFinished s = false := by
  cases hh : allFinished s
  · rfl
  · exact absurd hh h

theorem engineInv_tick {s : MLQVisualizer} (h : EngineInv s) : EngineInv (tick s) := by
  by_cases hrun : isRunning s = true
  swap
  · rw [tick_of_not_running s (by simpa using hrun)]
    exact h
  by_cases hnf : allFinished s = true
  · rw [tick_of_running_allFinished s hrun hnf]
    exact engineInv_congr h rfl rfl rfl rfl rfl rfl rfl
  have hinv := h
  obtain ⟨hwf, hhold, _, _, _, _, _, hnr, _⟩ := h
  rcases tick_cases s hwf hrun (allFinished_eq_false hnf) with
    ⟨cur, a, hc, ht⟩ | ⟨hc, _, ht⟩ | ⟨hc, q, r, _, hqr, _, hrlen, hrmod, ht⟩
  · obtain ⟨hcep, ha, hfin, hslice⟩ := continuing_eq_some hc
    obtain ⟨hlen, _, hstarted, hq, harr, hrr⟩ := hhold cur hcep
    rw [ht, hq]
    have hp : clearFlag (deref s.processes cur) =
        setSlice (deref s.processes cur).time_slice_remaining
          (clearFlag (deref s.processes cur)) := rfl
    rw [hp]
    rw [hq] at ha
    refine engineInv_afterRun hinv cur a _ hlen ?_ hfin harr ha ?_ ?_
    · intro ha3
      have := (hrr (by rw [hq, ← ha]; exact ha3)).2
      omega
    · intro i hi hne hseq h1
      by_contra hf
      have hf2 : (deref s.processes i).finished = false := by
        cases hh : (deref s.processes i).finished
        · rfl
        · exact absurd hh hf
      obtain ⟨hcep2, _⟩ := hnr i hi hseq h1 hf2
      rw [hcep] at hcep2
      exact hne (Option.some.inj hcep2).symm
    · intro ha3 hst
      exact (hnr cur hlen (by rw [← ha]; exact ha3) hst hfin).2
  · rw [ht]
    exact engineInv_afterIdle hinv hc
  · have hready := isReady_iff.1 (mem_readyProcesses.1 (selectFromQueue_mem hqr)).2
    have hnone : ∀ i, i < s.processes.length → seqAt s.sequence ((i % 4 : Nat) : Int) ≠ 3 →
        (deref s.processes i).started = true → (deref s.processes i).finished = true := by
      intro i hi hseq h1
      by_contra hf
      have hf2 : (deref s.processes i).finished = false := by
        cases hh : (deref s.processes i).finished
        · rfl
        · exact absurd hh hf
      obtain ⟨hcep2, _⟩ := hnr i hi hseq h1 hf2
      obtain ⟨_, _, _, hq2, _, _⟩ := hhold i hcep2
      rcases continuing_eq_none hc i hcep2 with h3 | ⟨h3, _⟩
      · exact hf h3
      · rw [hq2] at h3; exact hseq h3
    rw [ht]
    subst hrmod
    have hsel : ∀ (sl : Int), (seqAt s.sequence ((r % 4 : Nat) : Int) = 3 → sl ≤ s.time_quantum) →
        EngineInv (afterRun s ((r % 4 : Nat) : Int) r (seqAt s.sequence ((r % 4 : Nat) : Int))
          (setSlice sl (clearFlag (deref s.processes r)))) := by
      intro sl hsl
      refine engineInv_afterRun hinv r _ sl hrlen hsl hready.2 hready.1 rfl ?_ ?_
      · intro i hi _ hseq h1
        exact hnone i hi hseq h1
      · intro ha3 hst
        have := hnone r hrlen ha3 hst
        rw [hready.2] at this
        exact Bool.noConfusion this
    split_ifs with h3
    · exact hsel s.time_quantum (fun _ => le_refl _)
    · exact hsel (deref s.processes r).time_slice_remaining (fun h => absurd h h3)

theorem updateSimulation_false (s : MLQVisualizer) : updateSimulation false s = s := by
  unfold updateSimulation
  by_cases h : (!s.simulation_running || s.simulation_paused || s.simulation_completed) = true
  · rw [if_pos h]
  · rw [if_neg h, if_neg (by simp)]

theorem reachable_engineInv {input : List Process} {seq : List Int} {quantum : Int}
    {s : MLQVisualizer} (hreach : Reachable input seq quantum s) : EngineInv s := by
  induction hreach with
  | init s0 => exact engineInv_initializeProcesses s0 input seq quantum
  | @update elapsed s _ ih =>
    cases elapsed
    · rw [updateSimulation_false]; exact ih
    · exact engineInv_tick ih
  | @reset s _ ih => exact engineInv_resetSimulation s ih.1
  | @space s _ ih =>
    unfold pressSpace
    split_ifs
    · exact engineInv_congr ih rfl rfl rfl rfl rfl rfl rfl
    · exact engineInv_congr ih rfl rfl rfl rfl rfl rfl rfl
    · exact ih

theorem continuing_of_holder {s : MLQVisualizer} {r : Nat}
    (hcep : s.current_executing_process = some r)
    (hfin : (deref s.processes r).finished = false)
    (hslice : seqAt s.sequence s.current_executing_queue = 3 →
      0 < (deref s.processes r).time_slice_remaining) :
    continuing s = some (r, seqAt s.sequence s.current_executing_queue) := by
  unfold continuing
  simp only [hcep, hfin, Bool.false_eq_true, if_false]
  split_ifs with h1 h2
  · rfl
  · exact absurd (hslice h1) h2
  · rfl

theorem allFinished_false_of_unfinished {s : MLQVisualizer} {r : Nat}
    (hr : r < s.processes.length) (hfin : (deref s.processes r).finished = false) :
    allFinished s = false := by
  cases h : allFinished s
  · rfl
  · exfalso
    unfold allFinished at h
    rw [List.all_eq_true] at h
    have hmem : deref s.processes r ∈ s.processes := by
      simp only [deref, List.getD_eq_getElem?_getD, List.getElem?_eq_getElem hr,
        Option.getD_some]
      exact List.getElem_mem hr
    have := h _ hmem
    rw [hfin] at this
    exact Bool.noConfusion this

theorem mem_queue_of_lt {s : MLQVisualizer} (hwf : s.queues = (distribute s.processes).2)
    {r : Nat} (hr : r < s.processes.length) : r ∈ s.queues.getD (r % 4) [] := by
  rw [hwf, distribute_queues, getD_bands, if_pos (Nat.mod_lt _ (by decide))]
  exact mem_bandOf.2 ⟨hr, rfl⟩

theorem reachable_time_quantum {input : List Process} {seq : List Int} {quantum : Int}
    {s : MLQVisualizer} (hreach : Reachable input seq quantum s) : s.time_quantum = quantum :=
  (reachable_invariant (fun _ _ => True) input seq quantum (fun _ _ _ => trivial)
    (fun _ _ _ => trivial) (fun _ _ _ _ _ => ⟨trivial, trivial⟩) (fun _ _ _ => trivial) hreach).1

/-- The tick of a RUNNING engine whose holder has not finished and, in a Round
Robin band, still has slice left: the holder runs, without selection. -/
theorem tick_of_holder {s : MLQVisualizer} (hinv : EngineInv s) (hrun : isRunning s = true)
    {r : Nat} (hcep : s.current_executing_process = some r)
    (hslice : seqAt s.sequence s.current_executing_queue = 3 →
      0 < (deref s.processes r).time_slice_remaining) :
    tick s = afterRun s s.current_executing_queue r
      (seqAt s.sequence s.current_executing_queue) (clearFlag (deref s.processes r)) := by
  obtain ⟨hlen, hfin, _, _, _, _⟩ := hinv.2.1 r hcep
  have hc := continuing_of_holder hcep hfin hslice
  rcases tick_cases s hinv.1 hrun (allFinished_false_of_unfinished hlen hfin) with
    ⟨cur, a, hc2, ht⟩ | ⟨hc2, _, _⟩ | ⟨hc2, _⟩
  · rw [hc] at hc2
    simp only [Option.some.injEq, Prod.mk.injEq] at hc2
    obtain ⟨rfl, rfl⟩ := hc2
    exact ht
  · rw [hc] at hc2; exact Option.noConfusion hc2
  · rw [hc] at hc2; exact Option.noConfusion hc2

theorem isRunning_afterRun (s : MLQVisualizer) (q : Int) (r : Nat) (a : Int) (p1 : Process) :
    isRunning (afterRun s q r a p1) = isRunning s := rfl

theorem reachable_slice_bounds {input : List Process} {seq : List Int} {quantum : Int}
    (hq : 0 ≤ quantum) {s : MLQVisualizer} (hreach : Reachable input seq quantum s) :
    ∀ p ∈ s.processes, 0 ≤ p.time_slice_remaining ∧ p.time_slice_remaining ≤ quantum :=
  (reachable_invariant
    (fun _ p => 0 ≤ p.time_slice_remaining ∧ p.time_slice_remaining ≤ quantum)
    input seq quantum
    (fun _ _ _ => ⟨le_refl _, hq⟩)
    (fun _ _ h => h)
    (fun now a p h _ => by
      obtain ⟨h1, h2⟩ := h
      constructor
      · show 0 ≤ (runUnit now a (clearFlag p)).time_slice_remaining ∧
          (runUnit now a (clearFlag p)).time_slice_remaining ≤ quantum
        rw [runUnit_time_slice_remaining]
        simp only [clearFlag_time_slice_remaining]
        constructor <;> split_ifs <;> omega
      · show 0 ≤ (runUnit now a (setSlice quantum (clearFlag p))).time_slice_remaining ∧
          (runUnit now a (setSlice quantum (clearFlag p))).time_slice_remaining ≤ quantum
        rw [runUnit_time_slice_remaining]
        simp only [setSlice_time_slice_remaining]
        constructor <;> split_ifs <;> omega)
    (fun _ _ _ => ⟨le_refl _, hq⟩) hreach).2

/-- One tick of a RUNNING engine whose holder sits in a Round Robin band: the
holder runs, and it either gives up the processor or keeps it with one unit of
slice less. -/
theorem rr_holder_tick {s : MLQVisualizer} (hinv : EngineInv s) (hrun : isRunning s = true)
    {r : Nat} (hcep : s.current_executing_process = some r)
    (hrr : seqAt s.sequence s.current_executing_queue = 3) :
    (deref (tick s).processes r).is_executing = true ∧
    isRunning (tick s) = true ∧
    ((tick s).current_executing_process = none ∨
      ((tick s).current_executing_process = some r ∧
        seqAt (tick s).sequence (tick s).current_executing_queue = 3 ∧
        (deref (tick s).processes r).time_slice_remaining =
          (deref s.processes r).time_slice_remaining - 1)) := by
  obtain ⟨hlen, _, _, _, _, hsl⟩ := hinv.2.1 r hcep
  have hsl1 := (hsl hrr).1
  have ht := tick_of_holder hinv hrun hcep (fun _ => by omega)
  rw [ht]
  have hd := deref_afterRun s s.current_executing_queue r
    (seqAt s.sequence s.current_executing_queue) (clearFlag (deref s.processes r)) hlen r
  rw [if_pos rfl] at hd
  refine ⟨by rw [hd]; exact runUnit_is_executing _ _ _, hrun, ?_⟩
  have hts : (runUnit s.current_time (seqAt s.sequence s.current_executing_queue)
      (clearFlag (deref s.processes r))).time_slice_remaining =
      (deref s.processes r).time_slice_remaining - 1 := by
    rw [runUnit_time_slice_remaining]
    simp only [clearFlag_time_slice_remaining]
    rw [if_pos ⟨hrr, by omega⟩]
  by_cases hcond : (runUnit s.current_time (seqAt s.sequence s.current_executing_queue)
      (clearFlag (deref s.processes r))).remaining_time ≤ 0 ∨
      (seqAt s.sequence s.current_executing_queue = 3 ∧
        (runUnit s.current_time (seqAt s.sequence s.current_executing_queue)
          (clearFlag (deref s.processes r))).time_slice_remaining ≤ 0)
  · left
    show (if _ then none else some r) = none
    rw [if_pos hcond]
  · right
    refine ⟨?_, ?_, by rw [hd, hts]⟩
    · show (if _ then none else some r) = some r
      rw [if_neg hcond]
    · have hceq : (afterRun s s.current_executing_queue r
          (seqAt s.sequence s.current_executing_queue)
          (clearFlag (deref s.processes r))).current_executing_queue =
          s.current_executing_queue := by
        show (if _ then -1 else s.current_executing_queue) = s.current_executing_queue
        rw [if_neg hcond]
      rw [hceq]; exact hrr

/-- A holder of a Round Robin band with `k` units of slice left gives up the
processor within `k` ticks of a RUNNING engine, and holds it until then. -/
theorem rr_holder_released (k : Nat) : ∀ {s : MLQVisualizer}, EngineInv s →
    isRunning s = true → ∀ {r : Nat}, s.current_executing_process = some r →
    seqAt s.sequence s.current_executing_queue = 3 →
    (deref s.processes r).time_slice_remaining = (k : Int) →
    ∃ m : Nat, 1 ≤ m ∧ m ≤ k ∧ (ticks m s).current_executing_process = none ∧
      ∀ j, j < m → (ticks j s).current_executing_process = some r := by
  induction k with
  | zero =>
    intro s hinv _ r hcep hrr hk
    have := ((hinv.2.1 r hcep).2.2.2.2.2 hrr).1
    rw [hk] at this
    exact absurd this (by decide)
  | succ k ih =>
    intro s hinv hrun r hcep hrr hk
    obtain ⟨_, hrun2, hnext⟩ := rr_holder_tick hinv hrun hcep hrr
    rcases hnext with hnone | ⟨hsome, hrr2, hts⟩
    · refine ⟨1, le_refl _, by omega, hnone, ?_⟩
      intro j hj
      have : j = 0 := by omega
      subst this
      exact hcep
    · have hk2 : (deref (tick s).processes r).time_slice_remaining = (k : Int) := by
        rw [hts, hk]; push_cast; omega
      obtain ⟨m, hm1, hm2, hm3, hm4⟩ := ih (engineInv_tick hinv) hrun2 hsome hrr2 hk2
      refine ⟨m + 1, by omega, by omega, hm3, ?_⟩
      intro j hj
      cases j with
      | zero => exact hcep
      | succ j => exact hm4 j (by omega)

/-- The tick of a RUNNING engine that re-runs selection and finds `r` in the
first yielding band `q`. -/
theorem tick_of_selection {s : MLQVisualizer} (hwf : s.queues = (distribute s.processes).2)
    (hrun : isRunning s = true) (hnf : allFinished s = false) (hc : continuing s = none)
    {q r : Nat} (hq : q < 4) (hqr : selectFromQueue s q = some r)
    (hbefore : ∀ k, k < q → selectFromQueue s k = none) :
    r < s.processes.length ∧
    tick s = afterRun s (q : Int) r (seqAt s.sequence q)
      (if seqAt s.sequence q = 3 then setSlice s.time_quantum (clearFlag (deref s.processes r))
       else clearFlag (deref s.processes r)) := by
  have hqmem : q ∈ [0, 1, 2, 3] := by
    have : q = 0 ∨ q = 1 ∨ q = 2 ∨ q = 3 := by omega
    rcases this with h | h | h | h <;> simp [h]
  rcases tick_cases s hwf hrun hnf with
    ⟨cur, a, hc2, _⟩ | ⟨_, hall, _⟩ | ⟨_, q2, r2, hq2, hqr2, hbefore2, hrlen, _, ht⟩
  · rw [hc] at hc2; exact Option.noConfusion hc2
  · rw [hall q hqmem] at hqr; exact Option.noConfusion hqr
  · have hqq : q2 = q := by
      rcases Nat.lt_trichotomy q2 q with h | h | h
      · rw [hbefore q2 h] at hqr2; exact Option.noConfusion hqr2
      · exact h
      · rw [hbefore2 q hqmem h] at hqr; exact Option.noConfusion hqr
    subst hqq
    rw [hqr] at hqr2
    have hrr : r2 = r := (Option.some.inj hqr2).symm
    subst hrr
    exact ⟨hrlen, ht⟩

theorem seqAt_ne_three {sequence : List Int} (h : ∀ c ∈ sequence, c ≠ 3) (q : Int) :
    seqAt sequence q ≠ 3 := by
  unfold seqAt
  split_ifs
  · rw [List.getD_eq_getElem?_getD]
    cases hq : sequence[q.toNat]? with
    | none => simp
    | some c =>
      simp only [Option.getD_some]
      exact h c (List.getElem?_mem hq)
  · decide

theorem executeProcess_withQuantum (quantum : Int) (s : MLQVisualizer) (r : Nat) (a : Int) :
    executeProcess (withQuantum quantum s) r a = withQuantum quantum (executeProcess s r a) := by
  rw [executeProcess_eq, executeProcess_eq]
  rfl

theorem dispatch_withQuantum (quantum : Int) (s : MLQVisualizer) (q r : Nat)
    (h : seqAt s.sequence q ≠ 3) :
    dispatch (withQuantum quantum s) q r = withQuantum quantum (dispatch s q r) := by
  have e1 : dispatch (withQuantum quantum s) q r =
      executeProcess
        (withQuantum quantum
          { s with current_executing_process := some r, current_executing_queue := (q : Int) })
        r (seqAt s.sequence q) := by
    unfold dispatch
    have h2 : seqAt (withQuantum quantum s).sequence q ≠ 3 := h
    simp only [if_neg h2]
    rfl
  have e2 : dispatch s q r =
      executeProcess
        { s with current_executing_process := some r, current_executing_queue := (q : Int) }
        r (seqAt s.sequence q) := by
    unfold dispatch
    simp only [if_neg h]
  rw [e1, e2, executeProcess_withQuantum]

theorem scanQueues_withQuantum (quantum : Int) (s : MLQVisualizer)
    (h : ∀ c ∈ s.sequence, c ≠ 3) (qs : List Nat) :
    scanQueues (withQuantum quantum s) qs = withQuantum quantum (scanQueues s qs) := by
  induction qs with
  | nil => rfl
  | cons q rest ih =>
    unfold scanQueues
    have hsel : selectFromQueue (withQuantum quantum s) q = selectFromQueue s q := rfl
    rw [hsel]
    cases selectFromQueue s q with
    | none => exact ih
    | some r => exact dispatch_withQuantum quantum s q r (seqAt_ne_three h q)

theorem continuing_withQuantum (quantum : Int) (s : MLQVisualizer) :
    continuing (withQuantum quantum s) = continuing s := by
  unfold continuing
  rfl

theorem clearExecuting_withQuantum (quantum : Int) (s : MLQVisualizer) :
    clearExecuting (withQuantum quantum s) = withQuantum quantum (clearExecuting s) := rfl

theorem clearHolder_withQuantum (quantum : Int) (s : MLQVisualizer) :
    clearHolder (withQuantum quantum s) = withQuantum quantum (clearHolder s) := rfl

theorem executeScheduling_withQuantum (quantum : Int) (s : MLQVisualizer)
    (h : ∀ c ∈ s.sequence, c ≠ 3) :
    executeScheduling (withQuantum quantum s) = withQuantum quantum (executeScheduling s) := by
  unfold executeScheduling
  simp only
  rw [clearExecuting_withQuantum, continuing_withQuantum]
  cases continuing (clearExecuting s) with
  | some c => exact executeProcess_withQuantum quantum _ _ _
  | none =>
    simp only [selectNext]
    rw [clearHolder_withQuantum]
    exact scanQueues_withQuantum quantum (clearHolder (clearExecuting s)) h _

theorem allFinished_withQuantum (quantum : Int) (s : MLQVisualizer) :
    allFinished (withQuantum quantum s) = allFinished s := rfl

theorem tick_withQuantum (quantum : Int) (s : MLQVisualizer) (h : ∀ c ∈ s.sequence, c ≠ 3) :
    tick (withQuantum quantum s) = withQuantum quantum (tick s) := by
  unfold tick updateSimulation
  have h1 : (withQuantum quantum s).simulation_running = s.simulation_running := rfl
  have h2 : (withQuantum quantum s).simulation_paused = s.simulation_paused := rfl
  have h3 : (withQuantum quantum s).simulation_completed = s.simulation_completed := rfl
  rw [h1, h2, h3, allFinished_withQuantum, executeScheduling_withQuantum quantum s h]
  by_cases hg : (!s.simulation_running || s.simulation_paused || s.simulation_completed) = true
  · rw [if_pos hg, if_pos hg]
  · rw [if_neg hg, if_neg hg, if_pos rfl, if_pos rfl]
    by_cases hf : allFinished s = true
    · rw [if_pos hf, if_pos hf]; rfl
    · rw [if_neg hf, if_neg hf]; rfl

theorem tick_sequence (s : MLQVisualizer) : (tick s).sequence = s.sequence := by
  unfold tick updateSimulation
  by_cases hg : (!s.simulation_running || s.simulation_paused || s.simulation_completed) = true
  · rw [if_pos hg]
  · rw [if_neg hg, if_pos rfl]
    by_cases hf : allFinished s = true
    · rw [if_pos hf]
    · rw [if_neg hf]
      exact (sameConfig_executeScheduling s).2.2.1

theorem ticks_withQuantum (quantum : Int) (k : Nat) (s : MLQVisualizer)
    (h : ∀ c ∈ s.sequence, c ≠ 3) :
    ticks k (withQuantum quantum s) = withQuantum quantum (ticks k s) := by
  induction k generalizing s with
  | zero => rfl
  | succ k ih =>
    rw [ticks, ticks, tick_withQuantum quantum s h]
    exact ih (tick s) (by rw [tick_sequence]; exact h)

/-- Without a Round Robin band the quantum is never read: a run from any prior
state with any quantum is the run from the constructed state with quantum 0,
up to the stored quantum. -/
theorem run_without_round_robin (s0 : MLQVisualizer) (input : List Process) (seq : List Int)
    (quantum : Int) (k : Nat) (h : ∀ c ∈ seq, c ≠ 3) :
    ticks k (pressSpace (initializeProcesses s0 input seq quantum)) =
      withQuantum quantum (run input seq 0 k) := by
  have h0 : pressSpace (initializeProcesses s0 input seq quantum) =
      withQuantum quantum (pressSpace (initializeProcesses construct input seq 0)) := rfl
  rw [h0, ticks_withQuantum]
  · rfl
  · exact h

theorem withQuantum_processes (quantum : Int) (s : MLQVisualizer) :
    (withQuantum quantum s).processes = s.processes := rfl

theorem withQuantum_simulation_completed (quantum : Int) (s : MLQVisualizer) :
    (withQuantum quantum s).simulation_completed = s.simulation_completed := rfl

theorem initializeProcesses_prior_irrelevant (s0 : MLQVisualizer) (input : List Process)
    (seq : List Int) (quantum : Int) :
    initializeProcesses s0 input seq quantum = initializeProcesses construct input seq quantum :=
  rfl



theorem loadProcesses_pid (l : List Nat) (st : IStream) :
    (loadProcesses l st).2.map (fun p => p.pid) = l.map (fun i : Nat => (i : Int) + 1) := by
  induction l generalizing st with
  | nil => rfl
  | cons i rest ih =>
    simp only [loadProcesses, List.map_cons]
    rw [ih]
    rfl

theorem loadProcesses_range_pid (st : IStream) (n i : Nat) (hi : i < n) :
    ((loadProcesses (List.range n) st).2.map (fun p => p.pid))[i]? = some ((i : Int) + 1) := by
  rw [loadProcesses_pid, List.getElem?_map, List.getElem?_range hi]
  rfl

theorem reachable_resetSimulation {input : List Process} {seq : List Int} {quantum : Int}
    {s : MLQVisualizer} (hreach : Reachable input seq quantum s) :
    resetSimulation s = initializeProcesses construct input seq quantum := by
  induction hreach with
  | init s0 =>
    show resetSimulation (resetSimulation _) = resetSimulation _
    exact resetSimulation_idem _
  | @update elapsed s _ ih => rw [resetSimulation_updateSimulation]; exact ih
  | @reset s _ ih => rw [resetSimulation_idem]; exact ih
  | @space s _ ih => rw [resetSimulation_pressSpace]; exact ih

theorem distribute_foldl_getElem? (n : Nat) (ps : List Process) (qs : List (List Nat))
    (i : Nat) :
    ((List.range n).foldl distributeStep (ps, qs)).1[i]? =
      (ps[i]?).map (fun p =>
        if i < n then { p with queue_index := ((i % 4 : Nat) : Int) } else p) := by
  induction n with
  | zero => simp
  | succ n ih =>
    rw [List.range_succ, List.foldl_append]
    simp only [List.foldl_cons, List.foldl_nil, distributeStep]
    rw [List.getElem?_modify, ih]
    by_cases h : n = i
    · subst h
      cases ps[n]? with
      | none => simp
      | some p => simp
    · have : i < n + 1 ↔ i < n := by omega
      cases ps[i]? with
      | none => simp [h]
      | some p => simp [h, this]

theorem initializeProcesses_getElem? (s0 : MLQVisualizer) (input : List Process)
    (seq : List Int) (quantum : Int) (i : Nat) (p0 : Process) (h : input[i]? = some p0) :
    (initializeProcesses s0 input seq quantum).processes[i]? =
      some (resetProcess { initProcess p0 with queue_index := ((i % 4 : Nat) : Int) }) := by
  have hi : i < input.length := by
    by_contra hc
    rw [List.getElem?_eq_none (by omega)] at h
    exact Option.noConfusion h
  show ((distribute (input.map initProcess)).1.map resetProcess)[i]? = _
  rw [List.getElem?_map]
  unfold distribute
  rw [distribute_foldl_getElem?, List.getElem?_map, h]
  simp [hi]

/-- The static fields of a process of a reachable state are those of the input
process at the same index, and its band index is the index modulo 4. -/
theorem reachable_statics {input : List Process} {seq : List Int} {quantum : Int}
    {s : MLQVisualizer} (hreach : Reachable input seq quantum s) (i : Nat) (p0 : Process)
    (h : input[i]? = some p0) :
    (deref s.processes i).pid = p0.pid ∧
    (deref s.processes i).arrival_time = p0.arrival_time ∧
    (deref s.processes i).burst_time = p0.burst_time ∧
    (deref s.processes i).priority = p0.priority ∧
    (deref s.processes i).queue_index = ((i % 4 : Nat) : Int) := by
  have hr := reachable_resetSimulation hreach
  have hp : (s.processes.map resetProcess)[i]? =
      some (resetProcess { initProcess p0 with queue_index := ((i % 4 : Nat) : Int) }) := by
    have := initializeProcesses_getElem? construct input seq quantum i p0 h
    rw [← hr] at this
    exact this
  rw [List.getElem?_map] at hp
  cases hs : s.processes[i]? with
  | none => rw [hs] at hp; exact Option.noConfusion hp
  | some p =>
    rw [hs] at hp
    simp only [Option.map_some', Option.some.injEq] at hp
    have hd : deref s.processes i = p := by simp [deref, hs]
    rw [hd]
    exact ⟨congrArg (fun x => x.pid) hp, congrArg (fun x => x.arrival_time) hp,
      congrArg (fun x => x.burst_time) hp, congrArg (fun x => x.priority) hp,
      congrArg (fun x => x.queue_index) hp⟩

theorem reachable_length {input : List Process} {seq : List Int} {quantum : Int}
    {s : MLQVisualizer} (hreach : Reachable input seq quantum s) :
    s.processes.length = input.length := by
  have hr := congrArg (fun t => t.processes.length) (reachable_resetSimulation hreach)
  simp only [resetSimulation, initializeProcesses, List.length_map, distribute_fst_length] at hr
  exact hr

theorem scanCode_withQuantum (quantum : Int) (s : MLQVisualizer) (qs : List Nat) :
    scanCode (withQuantum quantum s) qs = scanCode s qs := by
  induction qs with
  | nil => rfl
  | cons q rest ih =>
    unfold scanCode
    have hsel : selectFromQueue (withQuantum quantum s) q = selectFromQueue s q := rfl
    rw [hsel, ih]
    rfl

theorem scanCode_clear (s : MLQVisualizer) (qs : List Nat) :
    scanCode (clearHolder (clearExecuting s)) qs = scanCode s qs := by
  induction qs with
  | nil => rfl
  | cons q rest ih =>
    unfold scanCode
    have hsel : selectFromQueue (clearHolder (clearExecuting s)) q = selectFromQueue s q :=
      selectFromQueue_clearExecuting s q
    rw [hsel, ih]
    rfl

theorem scanQueues_withQuantum_of (quantum : Int) (s : MLQVisualizer) (qs : List Nat)
    (h : scanCode s qs ≠ some 3) :
    scanQueues (withQuantum quantum s) qs = withQuantum quantum (scanQueues s qs) := by
  induction qs with
  | nil => rfl
  | cons q rest ih =>
    unfold scanQueues
    unfold scanCode at h
    have hsel : selectFromQueue (withQuantum quantum s) q = selectFromQueue s q := rfl
    rw [hsel]
    cases hq : selectFromQueue s q with
    | none =>
      rw [hq] at h
      exact ih h
    | some r =>
      rw [hq] at h
      exact dispatch_withQuantum quantum s q r (fun h3 => h (by rw [h3]))

/-- A tick that does not dispatch from a Round Robin band does not read the
quantum. -/
theorem tick_withQuantum_of (quantum : Int) (s : MLQVisualizer)
    (h : continuing s = none → scanCode s [0, 1, 2, 3] ≠ some 3) :
    tick (withQuantum quantum s) = withQuantum quantum (tick s) := by
  have hes : executeScheduling (withQuantum quantum s) =
      withQuantum quantum (executeScheduling s) := by
    unfold executeScheduling
    simp only
    rw [clearExecuting_withQuantum, continuing_withQuantum]
    cases hc : continuing (clearExecuting s) with
    | some c => exact executeProcess_withQuantum quantum _ _ _
    | none =>
      simp only [selectNext]
      rw [clearHolder_withQuantum]
      apply scanQueues_withQuantum_of
      rw [scanCode_clear]
      exact h (by rw [← continuing_clearExecuting]; exact hc)
  unfold tick updateSimulation
  have h1 : (withQuantum quantum s).simulation_running = s.simulation_running := rfl
  have h2 : (withQuantum quantum s).simulation_paused = s.simulation_paused := rfl
  have h3 : (withQuantum quantum s).simulation_completed = s.simulation_completed := rfl
  rw [h1, h2, h3, allFinished_withQuantum, hes]
  by_cases hg : (!s.simulation_running || s.simulation_paused || s.simulation_completed) = true
  · rw [if_pos hg, if_pos hg]
  · rw [if_neg hg, if_neg hg, if_pos rfl, if_pos rfl]
    by_cases hf : allFinished s = true
    · rw [if_pos hf, if_pos hf]; rfl
    · rw [if_neg hf, if_neg hf]; rfl

theorem ticks_withQuantum_of (quantum : Int) (k : Nat) (s : MLQVisualizer)
    (h : ∀ j, j < k → continuing (ticks j s) = none →
      scanCode (ticks j s) [0, 1, 2, 3] ≠ some 3) :
    ticks k (withQuantum quantum s) = withQuantum quantum (ticks k s) := by
  induction k generalizing s with
  | zero => rfl
  | succ k ih =>
    rw [ticks, ticks, tick_withQuantum_of quantum s (h 0 (by omega))]
    exact ih (tick s) (fun j hj => h (j + 1) (by omega))

/-- In a RUNNING engine in which `r` is the only unfinished process and has
arrived, a tick runs `r`, whatever the quantum and the band codes of the other
bands. -/
theorem tick_sole_unfinished {s : MLQVisualizer} (hinv : EngineInv s)
    (hrun : isRunning s = true) {r : Nat} (hr : r < s.processes.length)
    (hfin : (deref s.processes r).finished = false)
    (harr : (deref s.processes r).arrival_time ≤ s.current_time)
    (hcode : 0 ≤ seqAt s.sequence ((r % 4 : Nat) : Int) ∧
      seqAt s.sequence ((r % 4 : Nat) : Int) ≤ 3)
    (hothers : ∀ i, i < s.processes.length → i ≠ r → (deref s.processes i).finished = true) :
    ∃ (q a sl : Int), tick s =
      afterRun s q r a (setSlice sl (clearFlag (deref s.processes r))) := by
  have hunique : ∀ i, i < s.processes.length → (deref s.processes i).finished = false →
      i = r := by
    intro i hi hf
    by_contra hne
    have := hothers i hi hne
    rw [hf] at this
    exact Bool.noConfusion this
  rcases tick_cases s hinv.1 hrun (allFinished_false_of_unfinished hr hfin) with
    ⟨cur, a, hc, ht⟩ | ⟨_, hall, _⟩ | ⟨_, q, r2, _, hqr, _, hrlen, _, ht⟩
  · obtain ⟨hcep, _, hf, _⟩ := continuing_eq_some hc
    obtain ⟨hlen, _⟩ := hinv.2.1 cur hcep
    have := hunique cur hlen hf
    subst this
    exact ⟨s.current_executing_queue, a, (deref s.processes cur).time_slice_remaining, ht⟩
  · exfalso
    have hmem : r % 4 ∈ [0, 1, 2, 3] := by
      have h4 : r % 4 < 4 := Nat.mod_lt _ (by decide)
      have : r % 4 = 0 ∨ r % 4 = 1 ∨ r % 4 = 2 ∨ r % 4 = 3 := by omega
      rcases this with h | h | h | h <;> simp [h]
    have hne : readyProcesses s (r % 4) ≠ [] :=
      readyProcesses_ne_nil ⟨r, mem_queue_of_lt hinv.1 hr, isReady_iff.2 ⟨harr, hfin⟩⟩
    obtain ⟨x, hx⟩ := selectFromQueue_isSome hcode hne
    rw [hall _ hmem] at hx
    exact Option.noConfusion hx
  · have hready := isReady_iff.1 (mem_readyProcesses.1 (selectFromQueue_mem hqr)).2
    have := hunique r2 hrlen hready.2
    subst this
    by_cases h3 : seqAt s.sequence q = 3
    · rw [if_pos h3] at ht
      exact ⟨q, seqAt s.sequence q, s.time_quantum, ht⟩
    · rw [if_neg h3] at ht
      exact ⟨q, seqAt s.sequence q, (deref s.processes r2).time_slice_remaining, ht⟩

theorem clearFlag_clearFlag (p : Process) : clearFlag (clearFlag p) = clearFlag p := rfl

theorem allFinished_iff (s : MLQVisualizer) :
    allFinished s = true ↔
      ∀ i, i < s.processes.length → (deref s.processes i).finished = true := by
  unfold allFinished
  rw [List.all_eq_true]
  constructor
  · intro h i hi
    have hmem : deref s.processes i ∈ s.processes := by
      simp only [deref, List.getD_eq_getElem?_getD, List.getElem?_eq_getElem hi,
        Option.getD_some]
      exact List.getElem_mem hi
    exact h _ hmem
  · intro h p hp
    obtain ⟨i, hi, rfl⟩ := List.getElem_of_mem hp
    have := h i hi
    simpa [deref, List.getElem?_eq_getElem hi] using this

/-- A sole unfinished process that has arrived runs in every tick of a RUNNING
engine until it finishes: with `m + 1` units left it completes `m + 1` ticks
later, and the other processes keep everything but their executing flag. -/
theorem sole_unfinished_completes (m : Nat) : ∀ {s : MLQVisualizer}, EngineInv s →
    isRunning s = true → ∀ {r : Nat}, r < s.processes.length →
    (deref s.processes r).finished = false →
    (deref s.processes r).arrival_time ≤ s.current_time →
    (0 ≤ seqAt s.sequence ((r % 4 : Nat) : Int) ∧ seqAt s.sequence ((r % 4 : Nat) : Int) ≤ 3) →
    (∀ i, i < s.processes.length → i ≠ r → (deref s.processes i).finished = true) →
    (deref s.processes r).remaining_time = (m : Int) + 1 →
    (deref (ticks (m + 1) s).processes r).finished = true ∧
    (deref (ticks (m + 1) s).processes r).completion_time = s.current_time + (m : Int) + 1 ∧
    (deref (ticks (m + 1) s).processes r).waiting_time =
      s.current_time + (m : Int) + 1 - (deref s.processes r).arrival_time -
        (deref s.processes r).burst_time ∧
    (deref (ticks (m + 1) s).processes r).start_time =
      (if (deref s.processes r).started = true then (deref s.processes r).start_time
       else s.current_time) ∧
    (deref (ticks (m + 1) s).processes r).pid = (deref s.processes r).pid ∧
    (ticks (m + 1) s).current_time = s.current_time + (m : Int) + 1 ∧
    isRunning (ticks (m + 1) s) = true ∧
    (ticks (m + 1) s).processes.length = s.processes.length ∧
    (∀ i, i ≠ r → clearFlag (deref (ticks (m + 1) s).processes i) =
      clearFlag (deref s.processes i)) := by
  induction m with
  | zero =>
    intro s hinv hrun r hr hfin harr hcode hothers hrem
    obtain ⟨q, a, sl, ht⟩ := tick_sole_unfinished hinv hrun hr hfin harr hcode hothers
    have hd := deref_afterRun s q r a (setSlice sl (clearFlag (deref s.processes r))) hr
    have hr1 : deref (tick s).processes r =
        runUnit s.current_time a (setSlice sl (clearFlag (deref s.processes r))) := by
      rw [ht, hd, if_pos rfl]
    have hother1 : ∀ i, i ≠ r → deref (tick s).processes i = clearFlag (deref s.processes i) := by
      intro i hi
      rw [ht, hd, if_neg hi]
    have hlen1 : (tick s).processes.length = s.processes.length := by
      rw [ht]; simp [afterRun]
    have htime1 : (tick s).current_time = s.current_time + 1 := by rw [ht]; rfl
    have hrun1 : isRunning (tick s) = true := by rw [ht]; exact hrun
    have hle : (deref s.processes r).remaining_time - 1 ≤ 0 := by rw [hrem]; simp
    have hticks : ticks (0 + 1) s = tick s := rfl
    rw [hticks, hr1]
    refine ⟨?_, ?_, ?_, ?_, runUnit_pid _ _ _, ?_, hrun1, hlen1, ?_⟩
    · rw [runUnit_finished]
      simp only [setSlice_remaining_time, clearFlag_remaining_time]
      rw [if_pos hle]
    · rw [runUnit_completion_time]
      simp only [setSlice_remaining_time, clearFlag_remaining_time]
      rw [if_pos hle]; simp
    · rw [runUnit_waiting_time]
      simp only [setSlice_remaining_time, clearFlag_remaining_time, setSlice_arrival_time,
        clearFlag_arrival_time, setSlice_burst_time, clearFlag_burst_time]
      rw [if_pos hle]; simp
    · rw [runUnit_start_time]; rfl
    · rw [htime1]; simp
    · intro i hi
      rw [hother1 i hi]
      rfl
  | succ m ih =>
    intro s hinv hrun r hr hfin harr hcode hothers hrem
    obtain ⟨q, a, sl, ht⟩ := tick_sole_unfinished hinv hrun hr hfin harr hcode hothers
    have hd := deref_afterRun s q r a (setSlice sl (clearFlag (deref s.processes r))) hr
    have hr1 : deref (tick s).processes r =
        runUnit s.current_time a (setSlice sl (clearFlag (deref s.processes r))) := by
      rw [ht, hd, if_pos rfl]
    have hother1 : ∀ i, i ≠ r → deref (tick s).processes i = clearFlag (deref s.processes i) := by
      intro i hi
      rw [ht, hd, if_neg hi]
    have hlen1 : (tick s).processes.length = s.processes.length := by
      rw [ht]; simp [afterRun]
    have htime1 : (tick s).current_time = s.current_time + 1 := by rw [ht]; rfl
    have hseq1 : (tick s).sequence = s.sequence := by rw [ht]; rfl
    have hrun1 : isRunning (tick s) = true := by rw [ht]; exact hrun
    have hnle : ¬ (deref s.processes r).remaining_time - 1 ≤ 0 := by
      rw [hrem]; push_cast; omega
    have hfin1 : (deref (tick s).processes r).finished = false := by
      rw [hr1, runUnit_finished]
      simp only [setSlice_remaining_time, clearFlag_remaining_time, setSlice_finished,
        clearFlag_finished]
      rw [if_neg hnle]; exact hfin
    have harr1 : (deref (tick s).processes r).arrival_time ≤ (tick s).current_time := by
      rw [hr1, runUnit_arrival_time, htime1]
      show (deref s.processes r).arrival_time ≤ s.current_time + 1
      omega
    have hrem1 : (deref (tick s).processes r).remaining_time = (m : Int) + 1 := by
      rw [hr1, runUnit_remaining_time]
      show (deref s.processes r).remaining_time - 1 = _
      rw [hrem]; push_cast; omega
    have hothers1 : ∀ i, i < (tick s).processes.length → i ≠ r →
        (deref (tick s).processes i).finished = true := by
      intro i hi hne
      rw [hother1 i hne]
      exact hothers i (by rw [← hlen1]; exact hi) hne
    obtain ⟨g1, g2, g3, g4, g5, g6, g7, g8, g9⟩ :=
      ih (engineInv_tick hinv) hrun1 (by rw [hlen1]; exact hr) hfin1 harr1
        (by rw [hseq1]; exact hcode) hothers1 hrem1
    have hticks : ticks (m + 1 + 1) s = ticks (m + 1) (tick s) := rfl
    rw [hticks]
    refine ⟨g1, ?_, ?_, ?_, ?_, ?_, g7, by rw [g8, hlen1], ?_⟩
    · rw [g2, htime1]; push_cast; omega
    · have ha : (deref (tick s).processes r).arrival_time =
          (deref s.processes r).arrival_time := by
        rw [hr1, runUnit_arrival_time]; rfl
      have hb : (deref (tick s).processes r).burst_time =
          (deref s.processes r).burst_time := by
        rw [hr1, runUnit_burst_time]; rfl
      rw [g3, htime1, ha, hb]; push_cast; omega
    · rw [g4, hr1, runUnit_started, if_pos rfl, runUnit_start_time]
      rfl
    · rw [g5, hr1, runUnit_pid]; rfl
    · rw [g6, htime1]; push_cast; omega
    · intro i hi
      rw [g9 i hi, hother1 i hi]
      rfl

theorem ticks_add (a b : Nat) (s : MLQVisualizer) : ticks (a + b) s = ticks b (ticks a s) := by
  induction a generalizing s with
  | zero => simp [ticks]
  | succ a ih =>
    have h : a + 1 + b = (a + b) + 1 := by omega
    rw [h, ticks, ticks, ih]

theorem ticks_succ_last (k : Nat) (s : MLQVisualizer) : ticks (k + 1) s = tick (ticks k s) := by
  rw [ticks_add k 1]
  rfl

theorem withQuantum_sequence (quantum : Int) (s : MLQVisualizer) :
    (withQuantum quantum s).sequence = s.sequence := rfl

theorem withQuantum_current_time (quantum : Int) (s : MLQVisualizer) :
    (withQuantum quantum s).current_time = s.current_time := rfl

theorem isRunning_withQuantum (quantum : Int) (s : MLQVisualizer) :
    isRunning (withQuantum quantum s) = isRunning s := rfl

theorem list_of_length_two (l : List Process) (h : l.length = 2) :
    l = [deref l 0, deref l 1] := by
  cases l with
  | nil => simp at h
  | cons a t =>
    cases t with
    | nil => simp at h
    | cons b u =>
      cases u with
      | nil => simp [deref]
      | cons c v => simp at h

/-- Two processes of which the first is finished and the second has arrived
with `m + 1` units left: the second runs `m + 1` ticks in a row, and the tick
after that records completion. -/
theorem last_of_two_completes (m : Nat) {s : MLQVisualizer} (hinv : EngineInv s)
    (hrun : isRunning s = true) (A B : Process) (hp : s.processes = [A, B])
    (hA : A.finished = true) (hB : B.finished = false)
    (harr : B.arrival_time ≤ s.current_time)
    (hcode : 0 ≤ seqAt s.sequence 1 ∧ seqAt s.sequence 1 ≤ 3)
    (hrem : B.remaining_time = (m : Int) + 1) :
    allFinished (ticks (m + 1) s) = true ∧
    (tick (ticks (m + 1) s)).simulation_completed = true ∧
    (tick (ticks (m + 1) s)).processes.map
        (fun p => (p.pid, p.start_time, p.completion_time, p.waiting_time)) =
      [(A.pid, A.start_time, A.completion_time, A.waiting_time),
       (B.pid, (if B.started = true then B.start_time else s.current_time),
        s.current_time + (m : Int) + 1,
        s.current_time + (m : Int) + 1 - B.arrival_time - B.burst_time)] := by
  have hd0 : deref s.processes 0 = A := by rw [hp]; rfl
  have hd1 : deref s.processes 1 = B := by rw [hp]; rfl
  have hlen : s.processes.length = 2 := by rw [hp]; rfl
  have hres := sole_unfinished_completes m hinv hrun (r := 1) (by rw [hlen]; decide)
    (by rw [hd1]; exact hB) (by rw [hd1]; exact harr) hcode
    (by
      intro i hi hne
      have : i = 0 := by omega
      subst this
      rw [hd0]; exact hA)
    (by rw [hd1]; exact hrem)
  obtain ⟨g1, g2, g3, g4, g5, _, g7, g8, g9⟩ := hres
  rw [hd1] at g3 g4 g5
  rw [hlen] at g8
  have g0 := g9 0 (by decide)
  rw [hd0] at g0
  have hall : allFinished (ticks (m + 1) s) = true := by
    rw [allFinished_iff]
    intro i hi
    rw [g8] at hi
    have : i = 0 ∨ i = 1 := by omega
    rcases this with rfl | rfl
    · rw [← clearFlag_finished, g0, clearFlag_finished]; exact hA
    · exact g1
  rw [tick_of_running_allFinished _ g7 hall]
  refine ⟨hall, rfl, ?_⟩
  show (ticks (m + 1) s).processes.map _ = _
  rw [list_of_length_two _ g8]
  simp only [List.map_cons, List.map_nil]
  have e1 := congrArg (fun p => p.pid) g0
  have e2 := congrArg (fun p => p.start_time) g0
  have e3 := congrArg (fun p => p.completion_time) g0
  have e4 := congrArg (fun p => p.waiting_time) g0
  simp only [clearFlag_pid, clearFlag_start_time, clearFlag_completion_time,
    clearFlag_waiting_time] at e1 e2 e3 e4
  rw [e1, e2, e3, e4, g5, g4, g2, g3]

/-- Scenario B from the facts of its first four ticks, which do not read the
quantum: P2 is then the only unfinished process and runs its two units. -/
theorem scenario_priority_core (s0 : MLQVisualizer) (c1 c2 c3 quantum : Int)
    (hc1 : 0 ≤ c1 ∧ c1 ≤ 3)
    (hcommute : ∀ j, j < 4 → continuing (run priorityPair [1, c1, c2, c3] 0 j) = none →
      scanCode (run priorityPair [1, c1, c2, c3] 0 j) [0, 1, 2, 3] ≠ some 3)
    (hfirst : (run priorityPair [1, c1, c2, c3] 0 1).processes.map
      (fun p => (p.pid, p.is_executing)) = [(1, true), (2, false)])
    (hfour : (run priorityPair [1, c1, c2, c3] 0 4).processes =
        [{ pid := 1, arrival_time := 0, burst_time := 4, priority := 2, start_time := 0,
           completion_time := 4, remaining_time := 0, turnaround_time := 4, waiting_time := 0,
           finished := true, started := true, is_executing := true, queue_index := 0,
           last_execution_time := 3, time_slice_remaining := 0 },
         { pid := 2, arrival_time := 0, burst_time := 2, priority := 1, remaining_time := 2,
           queue_index := 1 }] ∧
      isRunning (run priorityPair [1, c1, c2, c3] 0 4) = true ∧
      (run priorityPair [1, c1, c2, c3] 0 4).current_time = 4 ∧
      (run priorityPair [1, c1, c2, c3] 0 4).sequence = [1, c1, c2, c3]) :
    (ticks 1 (pressSpace (initializeProcesses s0 priorityPair [1, c1, c2, c3] quantum))).processes.map
        (fun p => (p.pid, p.is_executing)) = [(1, true), (2, false)] ∧
    allFinished (ticks 6 (pressSpace
      (initializeProcesses s0 priorityPair [1, c1, c2, c3] quantum))) = true ∧
    (ticks 7 (pressSpace
      (initializeProcesses s0 priorityPair [1, c1, c2, c3] quantum))).simulation_completed = true ∧
    (ticks 7 (pressSpace
      (initializeProcesses s0 priorityPair [1, c1, c2, c3] quantum))).processes.map
        (fun p => (p.pid, p.start_time, p.completion_time, p.waiting_time)) =
      [(1, 0, 4, 0), (2, 4, 6, 4)] := by
  have h0 : pressSpace (initializeProcesses s0 priorityPair [1, c1, c2, c3] quantum) =
      withQuantum quantum (run priorityPair [1, c1, c2, c3] 0 0) := rfl
  have hinv4 : EngineInv (ticks 4 (pressSpace
      (initializeProcesses s0 priorityPair [1, c1, c2, c3] quantum))) :=
    reachable_engineInv (reachable_ticks 4 (Reachable.space (Reachable.init s0)))
  have h1 := ticks_withQuantum_of quantum 1 (run priorityPair [1, c1, c2, c3] 0 0)
    (fun j hj => hcommute j (by omega))
  have h4 := ticks_withQuantum_of quantum 4 (run priorityPair [1, c1, c2, c3] 0 0)
    (fun j hj => hcommute j (by omega))
  rw [← h0] at h1 h4
  generalize pressSpace (initializeProcesses s0 priorityPair [1, c1, c2, c3] quantum) = X
    at h1 h4 hinv4 ⊢
  obtain ⟨hp4, hrun4, htime4, hseq4⟩ := hfour
  have e4 : ticks 4 (run priorityPair [1, c1, c2, c3] 0 0) =
      run priorityPair [1, c1, c2, c3] 0 4 := rfl
  have e1 : ticks 1 (run priorityPair [1, c1, c2, c3] 0 0) =
      run priorityPair [1, c1, c2, c3] 0 1 := rfl
  rw [e4] at h4
  rw [e1] at h1
  have hproc4 := congrArg MLQVisualizer.processes h4
  rw [withQuantum_processes, hp4] at hproc4
  have hres := last_of_two_completes 1 hinv4
    (by rw [h4, isRunning_withQuantum]; exact hrun4) _ _ hproc4 rfl rfl
    (by rw [h4, withQuantum_current_time, htime4]; decide)
    (by rw [h4, withQuantum_sequence, hseq4]; exact hc1) rfl
  have hcur : (ticks 4 X).current_time = 4 := by
    rw [h4, withQuantum_current_time, htime4]
  rw [hcur] at hres
  have e6 : ticks 6 X = ticks (1 + 1) (ticks 4 X) := ticks_add 4 2 X
  have e7 : ticks 7 X = tick (ticks (1 + 1) (ticks 4 X)) := by
    rw [← e6]; exact ticks_succ_last 6 X
  rw [e6, e7, h1, withQuantum_processes]
  refine ⟨hfirst, hres.1, hres.2.1, hres.2.2.trans ?_⟩
  decide

theorem mem_iff_deref {ps : List Process} {p : Process} :
    p ∈ ps ↔ ∃ i, i < ps.length ∧ deref ps i = p := by
  constructor
  · intro h
    obtain ⟨i, hi, rfl⟩ := List.getElem_of_mem h
    exact ⟨i, hi, by simp [deref, List.getD_eq_getElem?_getD, List.getElem?_eq_getElem hi]⟩
  · rintro ⟨i, hi, rfl⟩
    have : deref ps i = ps[i] := by
      simp [deref, List.getD_eq_getElem?_getD, List.getElem?_eq_getElem hi]
    rw [this]
    exact List.getElem_mem hi


theorem holder_none_of_continuing_none {s : MLQVisualizer} (hinv : EngineInv s)
    (hc : continuing s = none) : s.current_executing_process = none := by
  cases hcep : s.current_executing_process with
  | none => rfl
  | some r =>
    obtain ⟨_, hfin, _, _, _, hrr⟩ := hinv.2.1 r hcep
    have := continuing_of_holder hcep hfin (fun h => by have := (hrr h).1; omega)
    rw [hc] at this
    exact Option.noConfusion this

/-- A tick of a RUNNING engine with an unfinished process either runs one ready
process `r` for a unit, under the code of its band, or finds no band with a
selectable process and idles. -/
theorem tick_run_or_idle {s : MLQVisualizer} (hinv : EngineInv s) (hrun : isRunning s = true)
    (hnf : allFinished s = false) :
    (∃ (q : Int) (r : Nat) (p1 : Process), r < s.processes.length ∧ isReady s r = true ∧
      (∀ j, s.current_executing_process = some j → j = r) ∧
      tick s = afterRun s q r (seqAt s.sequence ((r % 4 : Nat) : Int)) p1 ∧
      (p1 = clearFlag (deref s.processes r) ∨
        (seqAt s.sequence ((r % 4 : Nat) : Int) = 3 ∧ s.current_executing_process = none ∧
          p1 = setSlice s.time_quantum (clearFlag (deref s.processes r))))) ∨
    (s.current_executing_process = none ∧ (∀ q, q < 4 → selectFromQueue s q = none) ∧
      tick s = afterIdle s) := by
  rcases tick_cases s hinv.1 hrun hnf with
    ⟨cur, a, hc, ht⟩ | ⟨hc, hnone, ht⟩ | ⟨hc, q, r, _, hqr, _, hrlen, hrmod, ht⟩
  · left
    obtain ⟨hcep, ha, hfin, _⟩ := continuing_eq_some hc
    obtain ⟨hlen, _, _, hq, harr, _⟩ := hinv.2.1 cur hcep
    refine ⟨s.current_executing_queue, cur, _, hlen, isReady_iff.2 ⟨harr, hfin⟩, ?_, ?_,
      Or.inl rfl⟩
    · intro j hj
      rw [hcep] at hj
      exact (Option.some.inj hj).symm
    · rw [ht, ha, hq]
  · right
    refine ⟨holder_none_of_continuing_none hinv hc, fun q hq => hnone q ?_, ht⟩
    have : q = 0 ∨ q = 1 ∨ q = 2 ∨ q = 3 := by omega
    rcases this with rfl | rfl | rfl | rfl <;> simp
  · left
    subst hrmod
    have hnone := holder_none_of_continuing_none hinv hc
    refine ⟨_, r, _, hrlen, (mem_readyProcesses.1 (selectFromQueue_mem hqr)).2, ?_, ht, ?_⟩
    · intro j hj
      rw [hnone] at hj
      exact Option.noConfusion hj
    by_cases h3 : seqAt s.sequence ((r % 4 : Nat) : Int) = 3
    · right
      exact ⟨h3, holder_none_of_continuing_none hinv hc, by rw [if_pos h3]⟩
    · left
      rw [if_neg h3]

theorem afterRun_current_time (s : MLQVisualizer) (q : Int) (r : Nat) (a : Int) (p1 : Process) :
    (afterRun s q r a p1).current_time = s.current_time + 1 := rfl

theorem afterIdle_current_time (s : MLQVisualizer) :
    (afterIdle s).current_time = s.current_time + 1 := rfl

theorem afterIdle_holder (s : MLQVisualizer) :
    (afterIdle s).current_executing_process = none := rfl

theorem readyProcesses_ne_nil_of_ready {s : MLQVisualizer}
    (hwf : s.queues = (distribute s.processes).2) {r : Nat} (hr : r < s.processes.length)
    (hready : isReady s r = true) : readyProcesses s (r % 4) ≠ [] :=
  readyProcesses_ne_nil ⟨r, mem_queue_of_lt hwf hr, hready⟩

theorem readyProcesses_eq_nil_of_none {s : MLQVisualizer} {q : Nat}
    (ha : 0 ≤ seqAt s.sequence q ∧ seqAt s.sequence q ≤ 3)
    (h : selectFromQueue s q = none) : readyProcesses s q = [] := by
  by_contra hne
  obtain ⟨r, hr⟩ := selectFromQueue_isSome ha hne
  rw [h] at hr
  exact Option.noConfusion hr

theorem sum_map_set (f : Process → Int) (l : List Process) (r : Nat) (x : Process)
    (hr : r < l.length) :
    ((l.set r x).map f).sum = (l.map f).sum - f (deref l r) + f x := by
  induction l generalizing r with
  | nil => simp at hr
  | cons a l ih =>
    cases r with
    | zero => simp [deref]; omega
    | succ r =>
      have h := ih r (by simpa using hr)
      simp only [List.set_cons_succ, List.map_cons, List.sum_cons, h]
      have hd : deref (a :: l) (r + 1) = deref l r := by simp [deref]
      rw [hd]
      omega

theorem remainingWork_afterIdle (s : MLQVisualizer) :
    remainingWork (afterIdle s) = remainingWork s := by
  unfold remainingWork afterIdle
  simp only [List.map_map]
  rfl

theorem remainingWork_afterRun (s : MLQVisualizer) (q : Int) (r : Nat) (a : Int)
    (p1 : Process) (hr : r < s.processes.length)
    (hp1 : p1.remaining_time = (deref s.processes r).remaining_time) :
    remainingWork (afterRun s q r a p1) = remainingWork s - 1 := by
  unfold remainingWork
  show (((s.processes.map clearFlag).set r (runUnit s.current_time a p1)).map
    (fun p => p.remaining_time)).sum = _
  rw [sum_map_set _ _ _ _ (by simpa using hr), runUnit_remaining_time, hp1,
    deref_map clearFlag rfl]
  simp only [List.map_map, clearFlag_remaining_time]
  have : ((fun p : Process => p.remaining_time) ∘ clearFlag) = fun p => p.remaining_time := rfl
  rw [this]
  omega

theorem exists_unfinished {s : MLQVisualizer} (hnf : allFinished s = false) :
    ∃ i, i < s.processes.length ∧ (deref s.processes i).finished = false := by
  by_contra hc
  have : allFinished s = true := by
    rw [allFinished_iff]
    intro i hi
    cases hf : (deref s.processes i).finished
    · exact absurd ⟨i, hi, hf⟩ hc
    · rfl
  rw [hnf] at this
  exact Bool.noConfusion this

theorem afterRun_length (s : MLQVisualizer) (q : Int) (r : Nat) (a : Int) (p1 : Process) :
    (afterRun s q r a p1).processes.length = s.processes.length := by
  simp [afterRun]

theorem afterIdle_length (s : MLQVisualizer) :
    (afterIdle s).processes.length = s.processes.length := by
  simp [afterIdle]

/-- One tick of work conservation. In a RUNNING state with valid band codes,
an unfinished process and every arrival time at most `A`, a tick either runs a
unit of work or idles at a time before `A`: the remaining work plus the time
left until `A` drops by at least one. If the tick finishes the last process,
that process completes at the new `current_time`. -/
theorem tick_progress {s : MLQVisualizer} (hinv : EngineInv s) (hrun : isRunning s = true)
    (hnf : allFinished s = false)
    (hcodes : s.sequence.length = 4 ∧ ∀ c ∈ s.sequence, 0 ≤ c ∧ c ≤ 3)
    (A : Int) (hA : ∀ i, i < s.processes.length → (deref s.processes i).arrival_time ≤ A) :
    remainingWork (tick s) + max 0 (A - (tick s).current_time) + 1 ≤
      remainingWork s + max 0 (A - s.current_time) ∧
    isRunning (tick s) = true ∧
    (tick s).current_time = s.current_time + 1 ∧
    (allFinished (tick s) = true →
      ∃ i, i < (tick s).processes.length ∧
        (deref (tick s).processes i).completion_time = (tick s).current_time) := by
  rcases tick_run_or_idle hinv hrun hnf with
    ⟨q, r, p1, hrlen, hready, _, ht, hp1⟩ | ⟨_, hnone, ht⟩
  · have hrem : p1.remaining_time = (deref s.processes r).remaining_time := by
      rcases hp1 with h | ⟨_, _, h⟩ <;> rw [h] <;> rfl
    have hfin : p1.finished = false := by
      have := (isReady_iff.1 hready).2
      rcases hp1 with h | ⟨_, _, h⟩ <;> rw [h] <;> exact this
    rw [ht, remainingWork_afterRun s q r _ p1 hrlen hrem, afterRun_current_time,
      isRunning_afterRun, afterRun_length]
    refine ⟨?_, hrun, rfl, fun hall => ⟨r, hrlen, ?_⟩⟩
    · have h1 : max 0 (A - (s.current_time + 1)) ≤ max 0 (A - s.current_time) :=
        max_le_max (le_refl _) (by omega)
      omega
    · have hr2 := (allFinished_iff _).1 hall r (by rw [afterRun_length]; exact hrlen)
      rw [deref_afterRun _ _ _ _ _ hrlen, if_pos rfl] at hr2 ⊢
      rw [runUnit_finished, hfin] at hr2
      rw [runUnit_completion_time]
      by_cases h0 : p1.remaining_time - 1 ≤ 0
      · rw [if_pos h0]
      · rw [if_neg h0] at hr2
        exact Bool.noConfusion hr2
  · obtain ⟨i, hi, hfi⟩ := exists_unfinished hnf
    have hnr : isReady s i = false := by
      have hnil := readyProcesses_eq_nil_of_none
        (seqAt_valid hcodes (Nat.mod_lt i (by decide))) (hnone (i % 4) (Nat.mod_lt i (by decide)))
      cases hr : isReady s i
      · rfl
      · exact absurd hnil (readyProcesses_ne_nil_of_ready hinv.1 hi hr)
    have hlate : s.current_time < (deref s.processes i).arrival_time := by
      by_contra hc
      have := isReady_iff.2 ⟨not_lt.1 hc, hfi⟩
      rw [hnr] at this
      exact Bool.noConfusion this
    have hAi := hA i hi
    rw [ht, remainingWork_afterIdle, afterIdle_current_time]
    refine ⟨?_, hrun, rfl, fun hall => ?_⟩
    · rw [max_eq_right (by omega), max_eq_right (by omega)]
      omega
    · have := (allFinished_iff _).1 hall i (by rw [afterIdle_length]; exact hi)
      rw [deref_afterIdle, clearFlag_finished, hfi] at this
      exact Bool.noConfusion this

theorem reachable_sequence {input : List Process} {seq : List Int} {quantum : Int}
    {s : MLQVisualizer} (hreach : Reachable input seq quantum s) : s.sequence = seq := by
  induction hreach with
  | init s0 => rfl
  | @update elapsed s _ ih =>
    cases elapsed
    · rw [updateSimulation_false]; exact ih
    · exact (tick_sequence s).trans ih
  | @reset s _ ih => exact ih
  | @space s _ ih =>
    unfold pressSpace
    split_ifs
    · exact ih
    · exact ih
    · exact ih

theorem reachable_arrival_le {input : List Process} {seq : List Int} {quantum : Int}
    {s : MLQVisualizer} (hreach : Reachable input seq quantum s) (A : Int)
    (hA : ∀ p ∈ input, p.arrival_time ≤ A) :
    ∀ i, i < s.processes.length → (deref s.processes i).arrival_time ≤ A := by
  intro i hi
  rw [reachable_length hreach] at hi
  have h := reachable_statics hreach i input[i] (List.getElem?_eq_getElem hi)
  rw [h.2.1]
  exact hA _ (List.getElem_mem hi)

theorem reachable_completion_le {input : List Process} {seq : List Int} {quantum : Int}
    {s : MLQVisualizer} (hreach : Reachable input seq quantum s) :
    ∀ p ∈ s.processes, p.finished = true → p.completion_time ≤ s.current_time := by
  refine (reachable_invariant (fun now p => p.finished = true → p.completion_time ≤ now)
    input seq quantum ?_ ?_ ?_ ?_ hreach).2
  · intro p0 _ qi h
    exact Bool.noConfusion h
  · intro now p h hf
    have := h hf
    show p.completion_time ≤ now + 1
    omega
  · intro now a p _ hfin
    have key : ∀ p1 : Process, p1.finished = false →
        (runUnit now a p1).finished = true → (runUnit now a p1).completion_time ≤ now + 1 := by
      intro p1 h1 h2
      rw [runUnit_finished] at h2
      rw [runUnit_completion_time]
      by_cases h0 : p1.remaining_time - 1 ≤ 0
      · rw [if_pos h0]
      · rw [if_neg h0, h1] at h2
        exact Bool.noConfusion h2
    exact ⟨key _ hfin, key _ hfin⟩
  · intro now p _ h
    exact Bool.noConfusion h

theorem remainingWork_pos {input : List Process} {seq : List Int} {quantum : Int}
    (hburst : ∀ p ∈ input, 0 < p.burst_time)
    {s : MLQVisualizer} (hreach : Reachable input seq quantum s)
    (hnf : allFinished s = false) : 1 ≤ remainingWork s := by
  obtain ⟨i, hi, hfi⟩ := exists_unfinished hnf
  have hmem : deref s.processes i ∈ s.processes := mem_iff_deref.2 ⟨i, hi, rfl⟩
  have hall := reachable_remainingInv hburst hreach
  obtain ⟨_, h0, _, hiff⟩ := hall _ hmem
  have h1 : 1 ≤ (deref s.processes i).remaining_time := by
    have : (deref s.processes i).remaining_time ≠ 0 := by
      intro h
      rw [hiff.2 h] at hfi
      exact Bool.noConfusion hfi
    omega
  have hle : (deref s.processes i).remaining_time ≤ remainingWork s := by
    unfold remainingWork
    apply List.single_le_sum
    · intro x hx
      obtain ⟨p, hp, rfl⟩ := List.mem_map.1 hx
      exact (hall p hp).2.1
    · exact List.mem_map.2 ⟨_, hmem, rfl⟩
  omega

theorem ticks_after_all_finished {s : MLQVisualizer} (hrun : isRunning s = true)
    (hall : allFinished s = true) (m : Nat) :
    ticks (m + 1) s = { s with simulation_completed := true } := by
  induction m with
  | zero => exact tick_of_running_allFinished s hrun hall
  | succ m ih =>
    rw [ticks_succ_last, ih]
    apply tick_of_not_running
    simp [isRunning]

/-- Work conservation over `k` ticks from a reachable RUNNING state with an
unfinished process: either no state so far has every process finished and the
remaining work plus the time left until `A` has dropped by `k`, or some `F ≤ k`
is the first tick count with every process finished. -/
theorem ticks_progress {input : List Process} {seq : List Int} {quantum : Int}
    {s : MLQVisualizer} (hreach : Reachable input seq quantum s)
    (hcodes : seq.length = 4 ∧ ∀ c ∈ seq, 0 ≤ c ∧ c ≤ 3)
    (hrun : isRunning s = true) (hnf : allFinished s = false)
    (A : Int) (hA : ∀ p ∈ input, p.arrival_time ≤ A) (k : Nat) :
    ((∀ j, j ≤ k → allFinished (ticks j s) = false) ∧ isRunning (ticks k s) = true ∧
      (ticks k s).current_time = s.current_time + (k : Int) ∧
      remainingWork (ticks k s) + max 0 (A - (ticks k s).current_time) + (k : Int) ≤
        remainingWork s + max 0 (A - s.current_time)) ∨
    (∃ F, 1 ≤ F ∧ F ≤ k ∧ (∀ j, j < F → allFinished (ticks j s) = false) ∧
      allFinished (ticks F s) = true ∧ isRunning (ticks F s) = true ∧
      (ticks F s).current_time = s.current_time + (F : Int) ∧
      ∃ i, i < (ticks F s).processes.length ∧
        (deref (ticks F s).processes i).completion_time = (ticks F s).current_time) := by
  induction k with
  | zero =>
    left
    refine ⟨fun j hj => ?_, hrun, by simp [ticks], by simp [ticks]⟩
    have : j = 0 := by omega
    subst this
    exact hnf
  | succ k ih =>
    rcases ih with ⟨hbefore, hrunk, htime, hphi⟩ | ⟨F, h1, hF, hrest⟩
    swap
    · exact Or.inr ⟨F, h1, by omega, hrest⟩
    have hreachk := reachable_ticks k hreach
    have hcodesk : (ticks k s).sequence.length = 4 ∧
        ∀ c ∈ (ticks k s).sequence, 0 ≤ c ∧ c ≤ 3 := by
      rw [reachable_sequence hreachk]; exact hcodes
    obtain ⟨g1, g2, g3, g4⟩ := tick_progress (reachable_engineInv hreachk) hrunk
      (hbefore k (le_refl _)) hcodesk A (reachable_arrival_le hreachk A hA)
    rw [← ticks_succ_last] at g1 g2 g3 g4
    by_cases hall : allFinished (ticks (k + 1) s) = true
    · right
      refine ⟨k + 1, by omega, le_refl _, fun j hj => hbefore j (by omega), hall, g2, ?_, g4 hall⟩
      rw [g3, htime]
      push_cast
      omega
    · left
      refine ⟨fun j hj => ?_, g2, ?_, ?_⟩
      · by_cases hjk : j ≤ k
        · exact hbefore j hjk
        · have : j = k + 1 := by omega
          subst this
          exact allFinished_eq_false hall
      · rw [g3, htime]
        push_cast
        omega
      · push_cast
        omega

theorem pressSpace_processes (s : MLQVisualizer) : (pressSpace s).processes = s.processes := by
  unfold pressSpace
  split_ifs <;> rfl

theorem initializeProcesses_remaining (s0 : MLQVisualizer) (input : List Process)
    (seq : List Int) (quantum : Int) :
    (initializeProcesses s0 input seq quantum).processes.map (fun p => p.remaining_time) =
      input.map (fun p => p.burst_time) := by
  apply List.ext_getElem?
  intro i
  rw [List.getElem?_map, List.getElem?_map]
  cases h : input[i]? with
  | some p0 =>
    rw [initializeProcesses_getElem? s0 input seq quantum i p0 h]
    rfl
  | none =>
    have hlen : (initializeProcesses s0 input seq quantum).processes.length = input.length :=
      reachable_length (Reachable.init s0)
    have hi : input.length ≤ i := by
      by_contra hc
      rw [List.getElem?_eq_getElem (by omega)] at h
      exact Option.noConfusion h
    rw [List.getElem?_eq_none (by omega)]
    rfl

/-- The engine right after `initializeProcesses` and the start key: RUNNING at
time 0, with the sum of the bursts as remaining work and, on a non-empty
input, a process not yet finished. -/
theorem started_engine (s0 : MLQVisualizer) (input : List Process)
    (seq : List Int) (quantum : Int) :
    isRunning (pressSpace (initializeProcesses s0 input seq quantum)) = true ∧
    (pressSpace (initializeProcesses s0 input seq quantum)).current_time = 0 ∧
    (pressSpace (initializeProcesses s0 input seq quantum)).simulation_completed = false ∧
    remainingWork (pressSpace (initializeProcesses s0 input seq quantum)) =
      (input.map (fun p => p.burst_time)).sum ∧
    (input ≠ [] → allFinished (pressSpace (initializeProcesses s0 input seq quantum)) = false) := by
  refine ⟨rfl, rfl, rfl, ?_, fun hne => ?_⟩
  · unfold remainingWork
    rw [pressSpace_processes, initializeProcesses_remaining]
  · have hreach : Reachable input seq quantum
        (pressSpace (initializeProcesses s0 input seq quantum)) :=
      Reachable.space (Reachable.init s0)
    have hlen := reachable_length hreach
    have hpos : 0 < input.length := List.length_pos.2 hne
    refine allFinished_false_of_unfinished (r := 0) (by omega) ?_
    rw [pressSpace_processes]
    unfold initializeProcesses
    rcases deref_resetSimulation _ 0 with h | h <;> rw [h] <;> rfl

theorem wrap32_eq {x : Int} (h : INT_MIN ≤ x ∧ x ≤ INT_MAX) : wrap32 x = x := by
  unfold INT_MIN INT_MAX at h
  unfold wrap32
  omega

/-- In range, the 32-bit unit of execution is the unit of execution of the
unbounded embedding. -/
theorem runUnit32_eq (t a : Int) (p : Process) (ht : 0 ≤ t ∧ t < INT_MAX)
    (harr : 0 ≤ p.arrival_time ∧ p.arrival_time ≤ t)
    (hburst : 0 < p.burst_time ∧ p.burst_time ≤ INT_MAX)
    (hrem : 0 ≤ p.remaining_time ∧ p.remaining_time ≤ INT_MAX)
    (hslice : a = 3 → p.time_slice_remaining ≤ INT_MAX) :
    runUnit32 t a p = runUnit t a p := by
  have e1 : wrap32 (p.remaining_time - 1) = p.remaining_time - 1 :=
    wrap32_eq (by unfold INT_MIN INT_MAX at *; omega)
  have e2 : wrap32 (t + 1) = t + 1 := wrap32_eq (by unfold INT_MIN INT_MAX at *; omega)
  have e3 : wrap32 (t + 1 - p.arrival_time) = t + 1 - p.arrival_time :=
    wrap32_eq (by unfold INT_MIN INT_MAX at *; omega)
  have e4 : wrap32 (t + 1 - p.arrival_time - p.burst_time) =
      t + 1 - p.arrival_time - p.burst_time :=
    wrap32_eq (by unfold INT_MIN INT_MAX at *; omega)
  have e5 : a = 3 ∧ p.time_slice_remaining > 0 →
      wrap32 (p.time_slice_remaining - 1) = p.time_slice_remaining - 1 := by
    intro h
    have := hslice h.1
    exact wrap32_eq (by unfold INT_MIN INT_MAX at *; omega)
  by_cases h3 : a = 3 ∧ p.time_slice_remaining > 0
  · have e5b := e5 h3
    cases hs : p.started <;> simp [runUnit32, runUnit, hs, h3, e1, e2, e3, e4, e5b]
  · cases hs : p.started <;> simp [runUnit32, runUnit, hs, h3, e1, e2, e3, e4]

theorem executeProcess32_eq (s : MLQVisualizer) (r : Nat) (a : Int)
    (h : runUnit32 s.current_time a (deref s.processes r) =
      runUnit s.current_time a (deref s.processes r)) :
    executeProcess32 s r a = executeProcess s r a := by
  unfold executeProcess32 executeProcess
  simp only
  rw [h]

theorem dispatch32_eq (s : MLQVisualizer) (q r : Nat) (hr : r < s.processes.length)
    (h1 : seqAt s.sequence q = 3 →
      runUnit32 s.current_time 3 (setSlice s.time_quantum (deref s.processes r)) =
        runUnit s.current_time 3 (setSlice s.time_quantum (deref s.processes r)))
    (h2 : seqAt s.sequence q ≠ 3 →
      runUnit32 s.current_time (seqAt s.sequence q) (deref s.processes r) =
        runUnit s.current_time (seqAt s.sequence q) (deref s.processes r)) :
    dispatch32 s q r = dispatch s q r := by
  unfold dispatch32 dispatch
  simp only
  by_cases h3 : seqAt s.sequence q = 3
  · rw [if_pos h3]
    apply executeProcess32_eq
    show runUnit32 s.current_time (seqAt s.sequence q)
        (deref (s.processes.modify (setSlice s.time_quantum) r) r) =
      runUnit s.current_time (seqAt s.sequence q)
        (deref (s.processes.modify (setSlice s.time_quantum) r) r)
    rw [deref_modify_self hr, h3]
    exact h1 h3
  · rw [if_neg h3]
    apply executeProcess32_eq
    exact h2 h3

theorem scanQueues32_eq (s : MLQVisualizer) (qs : List Nat)
    (h : ∀ q r, selectFromQueue s q = some r → dispatch32 s q r = dispatch s q r) :
    scanQueues32 s qs = scanQueues s qs := by
  induction qs with
  | nil => rfl
  | cons q rest ih =>
    unfold scanQueues32 scanQueues
    cases hq : selectFromQueue s q with
    | none => exact ih
    | some r => exact h q r hq

/-- In a state of the engine invariant whose times and bursts are in range,
`executeScheduling` computes the same state in 32-bit arithmetic. -/
theorem executeScheduling32_eq {s : MLQVisualizer} (hinv : EngineInv s)
    (ht : 0 ≤ s.current_time ∧ s.current_time < INT_MAX) (hq : s.time_quantum ≤ INT_MAX)
    (hrange : ∀ i, i < s.processes.length →
      0 ≤ (deref s.processes i).arrival_time ∧
      (0 < (deref s.processes i).burst_time ∧ (deref s.processes i).burst_time ≤ INT_MAX) ∧
      (0 ≤ (deref s.processes i).remaining_time ∧
        (deref s.processes i).remaining_time ≤ INT_MAX)) :
    executeScheduling32 s = executeScheduling s := by
  unfold executeScheduling32 executeScheduling
  simp only
  cases hc : continuing (clearExecuting s) with
  | some ca =>
    obtain ⟨cur, a⟩ := ca
    simp only
    rw [continuing_clearExecuting] at hc
    obtain ⟨hcep, ha, _, _⟩ := continuing_eq_some hc
    obtain ⟨hlen, _, _, _, harr, hrr⟩ := hinv.2.1 cur hcep
    obtain ⟨r1, r2, r3⟩ := hrange cur hlen
    apply executeProcess32_eq
    rw [deref_clearExecuting]
    refine runUnit32_eq _ _ _ ht ⟨r1, harr⟩ r2 r3 ?_
    intro h3
    have := (hrr (by rw [← ha]; exact h3)).2
    show (deref s.processes cur).time_slice_remaining ≤ INT_MAX
    omega
  | none =>
    simp only
    apply scanQueues32_eq
    intro q r hqr
    have hmem := mem_readyProcesses.1 (selectFromQueue_mem hqr)
    have hwf : (clearHolder (clearExecuting s)).queues =
        (distribute (clearHolder (clearExecuting s)).processes).2 := by
      show s.queues = (distribute (s.processes.map clearFlag)).2
      rw [hinv.1]
      exact (distribute_queues_of_length (by simp)).symm
    have hrlen := (mem_queue_lt_length hwf hmem.1).1
    have hrlen2 : r < s.processes.length := by
      have : (clearHolder (clearExecuting s)).processes.length = s.processes.length := by
        simp [clearHolder, clearExecuting]
      omega
    have hready := isReady_iff.1 hmem.2
    have hd : deref (clearHolder (clearExecuting s)).processes r =
        clearFlag (deref s.processes r) := deref_clearExecuting s r
    obtain ⟨r1, r2, r3⟩ := hrange r hrlen2
    have harr : (deref s.processes r).arrival_time ≤ s.current_time := by
      have := hready.1
      rw [hd] at this
      exact this
    apply dispatch32_eq _ _ _ hrlen
    · intro _
      rw [hd]
      exact runUnit32_eq _ _ _ ht ⟨r1, harr⟩ r2 r3 (fun _ => hq)
    · intro h3
      rw [hd]
      exact runUnit32_eq _ _ _ ht ⟨r1, harr⟩ r2 r3 (fun h => absurd h h3)

theorem tick32_eq {s : MLQVisualizer} (hinv : EngineInv s)
    (ht : 0 ≤ s.current_time ∧ s.current_time < INT_MAX) (hq : s.time_quantum ≤ INT_MAX)
    (hrange : ∀ i, i < s.processes.length →
      0 ≤ (deref s.processes i).arrival_time ∧
      (0 < (deref s.processes i).burst_time ∧ (deref s.processes i).burst_time ≤ INT_MAX) ∧
      (0 ≤ (deref s.processes i).remaining_time ∧
        (deref s.processes i).remaining_time ≤ INT_MAX)) :
    tick32 s = tick s := by
  unfold tick32 tick updateSimulation32 updateSimulation
  simp only
  rw [executeScheduling32_eq hinv ht hq hrange]
  have hsame := (sameConfig_executeScheduling s).1
  rw [wrap32_eq]
  rw [hsame]
  unfold INT_MIN INT_MAX at *
  omega

theorem tick_current_time (s : MLQVisualizer) :
    (tick s).current_time = s.current_time ∨ (tick s).current_time = s.current_time + 1 := by
  by_cases hrun : isRunning s = true
  swap
  · rw [tick_of_not_running s (by simpa using hrun)]
    exact Or.inl rfl
  by_cases hnf : allFinished s = true
  · rw [tick_of_running_allFinished s hrun hnf]
    exact Or.inl rfl
  · rw [tick_of_running s hrun (allFinished_eq_false hnf)]
    right
    show (executeScheduling s).current_time + 1 = _
    rw [(sameConfig_executeScheduling s).1]

/-- From a reachable state at a time `t ≥ 0`, on items with no negative arrival
time and positive bursts in range, `k` ticks agree in 32-bit arithmetic and in
the unbounded embedding as long as `t + k` does not exceed `INT_MAX`. -/
theorem ticks32_eq {input : List Process} {seq : List Int} {quantum : Int}
    (harr : ∀ p ∈ input, 0 ≤ p.arrival_time)
    (hburst : ∀ p ∈ input, 0 < p.burst_time ∧ p.burst_time ≤ INT_MAX)
    (hq : quantum ≤ INT_MAX) (k : Nat) :
    ∀ {s : MLQVisualizer}, Reachable input seq quantum s → 0 ≤ s.current_time →
      s.current_time + (k : Int) ≤ INT_MAX → ticks32 k s = ticks k s := by
  induction k with
  | zero => intro s _ _ _; rfl
  | succ k ih =>
    intro s hreach h0 hk
    have hlen := reachable_length hreach
    have hrem := reachable_remainingInv (fun p hp => (hburst p hp).1) hreach
    have hrange : ∀ i, i < s.processes.length →
        0 ≤ (deref s.processes i).arrival_time ∧
        (0 < (deref s.processes i).burst_time ∧ (deref s.processes i).burst_time ≤ INT_MAX) ∧
        (0 ≤ (deref s.processes i).remaining_time ∧
          (deref s.processes i).remaining_time ≤ INT_MAX) := by
      intro i hi
      have hi2 : i < input.length := by omega
      have hst := reachable_statics hreach i input[i] (List.getElem?_eq_getElem hi2)
      have hmem : input[i] ∈ input := List.getElem_mem hi2
      obtain ⟨_, r0, r1, _⟩ := hrem _ (mem_iff_deref.2 ⟨i, hi, rfl⟩)
      have hb := hburst _ hmem
      rw [← hst.2.2.1] at hb
      refine ⟨by rw [hst.2.1]; exact harr _ hmem, hb, r0, ?_⟩
      have := hb.2
      omega
    have ht : tick32 s = tick s :=
      tick32_eq (reachable_engineInv hreach) ⟨h0, by push_cast at hk; omega⟩
        (by rw [reachable_time_quantum hreach]; exact hq) hrange
    show ticks32 k (tick32 s) = ticks k (tick s)
    rw [ht]
    have hreach2 : Reachable input seq quantum (tick s) := Reachable.update true hreach
    apply ih hreach2
    · rcases tick_current_time s with h | h <;> rw [h] <;> omega
    · push_cast at hk
      rcases tick_current_time s with h | h <;> rw [h] <;> omega

theorem reachable_timing_bounds {input : List Process} {seq : List Int} {quantum : Int}
    {s : MLQVisualizer} (hreach : Reachable input seq quantum s)
    (p : Process) (hp : p ∈ s.processes) :
    (p.started = true → p.start_time ≥ p.arrival_time) ∧
    (p.finished = true → p.waiting_time ≥ 0 ∧ p.turnaround_time ≥ p.burst_time) := by
  obtain ⟨i, _, rfl⟩ := mem_iff_deref.1 hp
  have hstart := (reachable_engineInv hreach).2.2.2.2.2.2.1 i
  obtain ⟨h1, _, h3⟩ := reachable_timingInv hreach _ hp
  refine ⟨fun hs => hstart hs, fun hf => ?_⟩
  obtain ⟨h4, h5, h6⟩ := h3 hf
  have hs : (deref s.processes i).started = true := by
    by_contra hns
    have := (h1 (by simpa using hns)).2
    rw [hf] at this
    exact absurd this (by decide)
  have := hstart hs
  constructor <;> omega

/-! ## The claims -/

/-- C1: band priority. In a state with the bands as `initializeProcesses`
builds them and four band codes in 0..3, when `executeScheduling` re-runs
selection (no holder continues) and band `k` has a ready item, the item that is
selected and marked executing comes from a band `q ≤ k`, it is what
`selectFromQueue` returns for band `q`, and it is a member of no band above `k`. -/
theorem band_priority_on_selection (s : MLQVisualizer) (k : Nat) (hk : k < 4)
    (hwf : s.queues = (distribute s.processes).2)
    (hcodes : s.sequence.length = 4 ∧ ∀ c ∈ s.sequence, 0 ≤ c ∧ c ≤ 3)
    (hsel : continuing s = none)
    (hready : ∃ i ∈ s.queues.getD k [], isReady s i = true) :
    ∃ q r, q ≤ k ∧ selectFromQueue s q = some r ∧ r ∈ s.queues.getD q [] ∧
      (∀ j, (deref (executeScheduling s).processes j).is_executing = true ↔ j = r) ∧
      (∀ q2, k < q2 → r ∉ s.queues.getD q2 []) := by
  let s1 : MLQVisualizer := clearHolder (clearExecuting s)
  have hs1 : ∀ q, selectFromQueue s1 q = selectFromQueue s q := fun q =>
    selectFromQueue_clearExecuting s q
  have hexec : executeScheduling s = scanQueues s1 [0, 1, 2, 3] := by
    unfold executeScheduling
    simp only [continuing_clearExecuting, hsel]
    rfl
  have hk_some : selectFromQueue s1 k ≠ none := by
    rw [hs1]
    obtain ⟨r, hr⟩ := selectFromQueue_isSome (seqAt_valid hcodes hk)
      (readyProcesses_ne_nil hready)
    rw [hr]; simp
  have hkmem : k ∈ [0, 1, 2, 3] := by
    have : k = 0 ∨ k = 1 ∨ k = 2 ∨ k = 3 := by omega
    rcases this with h | h | h | h <;> simp [h]
  obtain ⟨q, r, _, hqr, hscan, _, hfirst⟩ :=
    scanQueues_first s1 [0, 1, 2, 3] (by decide) ⟨k, hkmem, hk_some⟩
  have hqk : q ≤ k := hfirst k hkmem hk_some
  rw [hs1] at hqr
  have hrq : r ∈ s.queues.getD q [] := (mem_readyProcesses.1 (selectFromQueue_mem hqr)).1
  have hrlen := mem_queue_lt_length hwf hrq
  refine ⟨q, r, hqk, hqr, hrq, ?_, ?_⟩
  · intro j
    rw [hexec, hscan]
    refine dispatch_is_executing s1 q r ?_ ?_ j
    · show r < (s.processes.map clearFlag).length
      rw [List.length_map]
      exact hrlen.1
    · intro i
      have : deref s1.processes i = clearFlag (deref s.processes i) :=
        deref_clearExecuting s i
      rw [this]
      rfl
  · intro q2 hq2 hmem
    have := (mem_queue_lt_length hwf hmem).2
    omega

/-- Witness for C1 on the sample state with band codes 0, 1, 2, 3 and `k = 1`. -/
theorem band_priority_on_selection_witness :
    ∃ q r, q ≤ 1 ∧ selectFromQueue (sampleState [0, 1, 2, 3]) q = some r ∧
      r ∈ (sampleState [0, 1, 2, 3]).queues.getD q [] ∧
      (∀ j, (deref (executeScheduling (sampleState [0, 1, 2, 3])).processes j).is_executing
          = true ↔ j = r) ∧
      (∀ q2, 1 < q2 → r ∉ (sampleState [0, 1, 2, 3]).queues.getD q2 []) :=
  band_priority_on_selection (sampleState [0, 1, 2, 3]) 1 (by decide) (by decide)
    (by decide) (by decide) ⟨1, by decide, by decide⟩

/-- C2: FCFS. For a band with code 0 and a non-empty ready set,
`selectFromQueue` returns a ready member of the band whose `arrival_time` is
minimal among the ready members and whose `pid` is minimal among the ready
members with that `arrival_time`. -/
theorem fcfs_selects_earliest_arrival_then_least_pid (s : MLQVisualizer) (q : Nat)
    (halg : seqAt s.sequence q = 0)
    (hne : ∃ i ∈ s.queues.getD q [], isReady s i = true) :
    ∃ r, selectFromQueue s q = some r ∧ r ∈ s.queues.getD q [] ∧ isReady s r = true ∧
      ∀ x ∈ s.queues.getD q [], isReady s x = true →
        (deref s.processes r).arrival_time ≤ (deref s.processes x).arrival_time ∧
        ((deref s.processes x).arrival_time = (deref s.processes r).arrival_time →
          (deref s.processes r).pid ≤ (deref s.processes x).pid) := by
  obtain ⟨r, pre, post, hsel, heq, hpre, hpost⟩ :=
    selectFromQueue_split s q (fun p => toLex (p.arrival_time, p.pid)) compFCFS compFCFS_iff
      (by simp [selectProcess, halg]) hne
  have hr : r ∈ readyProcesses s q := by rw [heq]; simp
  refine ⟨r, hsel, (mem_readyProcesses.1 hr).1, (mem_readyProcesses.1 hr).2, ?_⟩
  intro x hx hrx
  have hle := key_le_of_split (fun p => toLex (p.arrival_time, p.pid)) heq hpre hpost hx hrx
  rw [Prod.Lex.le_iff] at hle
  simp only at hle
  constructor
  · omega
  · intro h; omega

/-- Witness for C2 on band 0 of the sample state with every band FCFS. -/
theorem fcfs_selects_earliest_arrival_then_least_pid_witness :
    ∃ r, selectFromQueue (sampleState [0, 0, 0, 0]) 0 = some r ∧ r ∈ (sampleState [0, 0, 0, 0]).queues.getD 0 [] ∧
      isReady (sampleState [0, 0, 0, 0]) r = true ∧
      ∀ x ∈ (sampleState [0, 0, 0, 0]).queues.getD 0 [], isReady (sampleState [0, 0, 0, 0]) x = true →
        (deref (sampleState [0, 0, 0, 0]).processes r).arrival_time ≤ (deref (sampleState [0, 0, 0, 0]).processes x).arrival_time ∧
        ((deref (sampleState [0, 0, 0, 0]).processes x).arrival_time = (deref (sampleState [0, 0, 0, 0]).processes r).arrival_time →
          (deref (sampleState [0, 0, 0, 0]).processes r).pid ≤ (deref (sampleState [0, 0, 0, 0]).processes x).pid) :=
  fcfs_selects_earliest_arrival_then_least_pid (sampleState [0, 0, 0, 0]) 0 (by decide)
    ⟨0, by decide, by decide⟩

/-- C3: Priority. For a band with code 1 and a non-empty ready set, with the
bands as `initializeProcesses` builds them and identifiers 1..n in input order,
`selectFromQueue` returns a ready member of minimal `priority`, of minimal
`arrival_time` among those of that priority, and of minimal `pid` among those
still tied. -/
theorem priority_selects_least_value_then_arrival_then_pid (s : MLQVisualizer) (q : Nat)
    (hwf : s.queues = (distribute s.processes).2)
    (hpid : ∀ i, i < s.processes.length → (deref s.processes i).pid = (i : Int) + 1)
    (halg : seqAt s.sequence q = 1)
    (hne : ∃ i ∈ s.queues.getD q [], isReady s i = true) :
    ∃ r, selectFromQueue s q = some r ∧ r ∈ s.queues.getD q [] ∧ isReady s r = true ∧
      ∀ x ∈ s.queues.getD q [], isReady s x = true →
        (deref s.processes r).priority ≤ (deref s.processes x).priority ∧
        ((deref s.processes x).priority = (deref s.processes r).priority →
          (deref s.processes r).arrival_time ≤ (deref s.processes x).arrival_time ∧
          ((deref s.processes x).arrival_time = (deref s.processes r).arrival_time →
            (deref s.processes r).pid ≤ (deref s.processes x).pid)) := by
  obtain ⟨r, pre, post, hsel, heq, hpre, hpost⟩ :=
    selectFromQueue_split s q (fun p => toLex (p.priority, p.arrival_time)) compPriority
      compPriority_iff (by simp [selectProcess, halg]) hne
  have hr : r ∈ readyProcesses s q := by rw [heq]; simp
  have hrq := (mem_readyProcesses.1 hr).1
  refine ⟨r, hsel, hrq, (mem_readyProcesses.1 hr).2, ?_⟩
  intro x hx hrx
  have hle := key_le_of_split (fun p => toLex (p.priority, p.arrival_time)) heq hpre hpost hx hrx
  rw [Prod.Lex.le_iff] at hle
  simp only at hle
  refine ⟨by omega, fun h1 => ⟨by omega, fun h2 => ?_⟩⟩
  have hidx : r ≤ x := index_le_of_split (fun p => toLex (p.priority, p.arrival_time)) hwf heq hpre hx hrx (by simp only [h1, h2])
  rw [hpid r (mem_queue_lt_length hwf hrq).1, hpid x (mem_queue_lt_length hwf hx).1]
  omega

/-- Witness for C3 on band 0 of the sample state with every band Priority. -/
theorem priority_selects_least_value_then_arrival_then_pid_witness :
    ∃ r, selectFromQueue (sampleState [1, 1, 1, 1]) 0 = some r ∧ r ∈ (sampleState [1, 1, 1, 1]).queues.getD 0 [] ∧
      isReady (sampleState [1, 1, 1, 1]) r = true ∧
      ∀ x ∈ (sampleState [1, 1, 1, 1]).queues.getD 0 [], isReady (sampleState [1, 1, 1, 1]) x = true →
        (deref (sampleState [1, 1, 1, 1]).processes r).priority ≤ (deref (sampleState [1, 1, 1, 1]).processes x).priority ∧
        ((deref (sampleState [1, 1, 1, 1]).processes x).priority = (deref (sampleState [1, 1, 1, 1]).processes r).priority →
          (deref (sampleState [1, 1, 1, 1]).processes r).arrival_time ≤ (deref (sampleState [1, 1, 1, 1]).processes x).arrival_time ∧
          ((deref (sampleState [1, 1, 1, 1]).processes x).arrival_time = (deref (sampleState [1, 1, 1, 1]).processes r).arrival_time →
            (deref (sampleState [1, 1, 1, 1]).processes r).pid ≤ (deref (sampleState [1, 1, 1, 1]).processes x).pid)) :=
  priority_selects_least_value_then_arrival_then_pid (sampleState [1, 1, 1, 1]) 0 (by decide) (by decide) (by decide)
    ⟨0, by decide, by decide⟩

/-- C4: SJF. For a band with code 2 and a non-empty ready set, with the bands
as `initializeProcesses` builds them and identifiers 1..n in input order,
`selectFromQueue` returns a ready member of minimal `remaining_time` (not
`burst_time`), of minimal `arrival_time` among those with that remaining time,
and of minimal `pid` among those still tied. -/
theorem sjf_selects_least_remaining_then_arrival_then_pid (s : MLQVisualizer) (q : Nat)
    (hwf : s.queues = (distribute s.processes).2)
    (hpid : ∀ i, i < s.processes.length → (deref s.processes i).pid = (i : Int) + 1)
    (halg : seqAt s.sequence q = 2)
    (hne : ∃ i ∈ s.queues.getD q [], isReady s i = true) :
    ∃ r, selectFromQueue s q = some r ∧ r ∈ s.queues.getD q [] ∧ isReady s r = true ∧
      ∀ x ∈ s.queues.getD q [], isReady s x = true →
        (deref s.processes r).remaining_time ≤ (deref s.processes x).remaining_time ∧
        ((deref s.processes x).remaining_time = (deref s.processes r).remaining_time →
          (deref s.processes r).arrival_time ≤ (deref s.processes x).arrival_time ∧
          ((deref s.processes x).arrival_time = (deref s.processes r).arrival_time →
            (deref s.processes r).pid ≤ (deref s.processes x).pid)) := by
  obtain ⟨r, pre, post, hsel, heq, hpre, hpost⟩ :=
    selectFromQueue_split s q (fun p => toLex (p.remaining_time, p.arrival_time)) compSJF
      compSJF_iff (by simp [selectProcess, halg]) hne
  have hr : r ∈ readyProcesses s q := by rw [heq]; simp
  have hrq := (mem_readyProcesses.1 hr).1
  refine ⟨r, hsel, hrq, (mem_readyProcesses.1 hr).2, ?_⟩
  intro x hx hrx
  have hle := key_le_of_split (fun p => toLex (p.remaining_time, p.arrival_time)) heq hpre hpost hx hrx
  rw [Prod.Lex.le_iff] at hle
  simp only at hle
  refine ⟨by omega, fun h1 => ⟨by omega, fun h2 => ?_⟩⟩
  have hidx : r ≤ x := index_le_of_split (fun p => toLex (p.remaining_time, p.arrival_time)) hwf heq hpre hx hrx (by simp only [h1, h2])
  rw [hpid r (mem_queue_lt_length hwf hrq).1, hpid x (mem_queue_lt_length hwf hx).1]
  omega

/-- Witness for C4 on band 0 of the sample state with every band SJF. -/
theorem sjf_selects_least_remaining_then_arrival_then_pid_witness :
    ∃ r, selectFromQueue (sampleState [2, 2, 2, 2]) 0 = some r ∧ r ∈ (sampleState [2, 2, 2, 2]).queues.getD 0 [] ∧
      isReady (sampleState [2, 2, 2, 2]) r = true ∧
      ∀ x ∈ (sampleState [2, 2, 2, 2]).queues.getD 0 [], isReady (sampleState [2, 2, 2, 2]) x = true →
        (deref (sampleState [2, 2, 2, 2]).processes r).remaining_time ≤ (deref (sampleState [2, 2, 2, 2]).processes x).remaining_time ∧
        ((deref (sampleState [2, 2, 2, 2]).processes x).remaining_time = (deref (sampleState [2, 2, 2, 2]).processes r).remaining_time →
          (deref (sampleState [2, 2, 2, 2]).processes r).arrival_time ≤ (deref (sampleState [2, 2, 2, 2]).processes x).arrival_time ∧
          ((deref (sampleState [2, 2, 2, 2]).processes x).arrival_time = (deref (sampleState [2, 2, 2, 2]).processes r).arrival_time →
            (deref (sampleState [2, 2, 2, 2]).processes r).pid ≤ (deref (sampleState [2, 2, 2, 2]).processes x).pid)) :=
  sjf_selects_least_remaining_then_arrival_then_pid (sampleState [2, 2, 2, 2]) 0 (by decide) (by decide) (by decide)
    ⟨0, by decide, by decide⟩

/-- C5: Round Robin and never-run items, evaluated on the code. After the first
tick of `rrInput` (band 0 Round Robin, quantum 1) the ready set of band 0 holds
process 0, which ran at tick 0, and process 4, which has never run; both carry
`last_execution_time = 0`, and `selectFromQueue` returns process 0 again, which
the next tick then executes while process 4 still has not started. -/
theorem round_robin_reselects_item_run_at_tick_zero :
    rrAfterFirstTick.current_time = 1 ∧
    seqAt rrAfterFirstTick.sequence 0 = 3 ∧
    readyProcesses rrAfterFirstTick 0 = [0, 4] ∧
    (deref rrAfterFirstTick.processes 0).started = true ∧
    (deref rrAfterFirstTick.processes 0).last_execution_time = 0 ∧
    (deref rrAfterFirstTick.processes 4).started = false ∧
    (deref rrAfterFirstTick.processes 4).last_execution_time = 0 ∧
    selectFromQueue rrAfterFirstTick 0 = some 0 ∧
    (deref (tick rrAfterFirstTick).processes 0).is_executing = true ∧
    (deref (tick rrAfterFirstTick).processes 4).started = false := by
  decide

/-- C6: contract of `selectFromQueue`. For a band whose code is in 0..3, the
result is `none` exactly when no member of the band is ready
(`arrival_time ≤ current_time` and not finished), and any returned item is a
member of the band that has arrived (arrival at `current_time` included) and
is not finished. The function returns only the selected pointer: it writes to
no item and no engine field. -/
theorem selectFromQueue_returns_ready_member_or_none (s : MLQVisualizer) (q : Nat)
    (halg : 0 ≤ seqAt s.sequence q ∧ seqAt s.sequence q ≤ 3) :
    (selectFromQueue s q = none ↔
      ∀ i ∈ s.queues.getD q [],
        ¬ ((deref s.processes i).arrival_time ≤ s.current_time ∧
            (deref s.processes i).finished = false)) ∧
    (∀ r, selectFromQueue s q = some r →
      r ∈ s.queues.getD q [] ∧ (deref s.processes r).arrival_time ≤ s.current_time ∧
        (deref s.processes r).finished = false) := by
  constructor
  · constructor
    · intro hnone i hi hready
      have hne : readyProcesses s q ≠ [] :=
        readyProcesses_ne_nil ⟨i, hi, isReady_iff.2 hready⟩
      obtain ⟨r, hr⟩ := selectFromQueue_isSome halg hne
      rw [hnone] at hr
      exact Option.noConfusion hr
    · intro hall
      cases hsel : selectFromQueue s q with
      | none => rfl
      | some r =>
        have hr := mem_readyProcesses.1 (selectFromQueue_mem hsel)
        exact absurd (isReady_iff.1 hr.2) (hall r hr.1)
  · intro r hsel
    have hr := mem_readyProcesses.1 (selectFromQueue_mem hsel)
    exact ⟨hr.1, isReady_iff.1 hr.2⟩

/-- Witness for C6 on band 3 of the sample state, whose only member arrives at
time 2: nothing is selected at time 0. -/
theorem selectFromQueue_returns_ready_member_or_none_witness :
    (0 ≤ seqAt (sampleState [0, 1, 2, 3]).sequence 3 ∧ seqAt (sampleState [0, 1, 2, 3]).sequence 3 ≤ 3) ∧
    (selectFromQueue (sampleState [0, 1, 2, 3]) 3 = none ↔
      ∀ i ∈ (sampleState [0, 1, 2, 3]).queues.getD 3 [],
        ¬ ((deref (sampleState [0, 1, 2, 3]).processes i).arrival_time ≤ (sampleState [0, 1, 2, 3]).current_time ∧
            (deref (sampleState [0, 1, 2, 3]).processes i).finished = false)) ∧
    (∀ r, selectFromQueue (sampleState [0, 1, 2, 3]) 3 = some r →
      r ∈ (sampleState [0, 1, 2, 3]).queues.getD 3 [] ∧ (deref (sampleState [0, 1, 2, 3]).processes r).arrival_time ≤ (sampleState [0, 1, 2, 3]).current_time ∧
        (deref (sampleState [0, 1, 2, 3]).processes r).finished = false) :=
  ⟨by decide, selectFromQueue_returns_ready_member_or_none (sampleState [0, 1, 2, 3]) 3 (by decide)⟩

/-- C7: a tick outside RUNNING is a no-op, and completion is absorbing. When
the engine is not RUNNING, `tick` returns the state unchanged. Once every
process is finished, any number of ticks leaves `current_time`, the processes
and the holder unchanged, and from a RUNNING state the engine is COMPLETED
after the first of them and stays so. -/
theorem tick_is_noop_unless_running (s : MLQVisualizer) :
    (isRunning s = false → tick s = s) ∧
    (allFinished s = true → ∀ n : Nat,
      (ticks n s).current_time = s.current_time ∧
      (ticks n s).processes = s.processes ∧
      (ticks n s).current_executing_process = s.current_executing_process ∧
      (isRunning s = true → 1 ≤ n → (ticks n s).simulation_completed = true)) := by
  refine ⟨tick_of_not_running s, fun h n => ?_⟩
  have hn := ticks_of_allFinished n s h
  refine ⟨?_, ?_, ?_, ?_⟩
  · rcases hn with h1 | h1 <;> rw [h1]
  · rcases hn with h1 | h1 <;> rw [h1]
  · rcases hn with h1 | h1 <;> rw [h1]
  · intro hrun hpos
    obtain ⟨m, rfl⟩ : ∃ m, n = m + 1 := ⟨n - 1, by omega⟩
    rw [ticks, tick_of_running_allFinished s hrun h, ticks_of_not_running]
    simp [isRunning]

/-- Witness for C7: a tick before the start changes nothing, and three ticks
after both processes of `pairInput` have finished leave time and processes as
they are with the engine COMPLETED. -/
theorem tick_is_noop_unless_running_witness :
    tick (initializeProcesses construct pairInput [0, 0, 0, 0] 2) =
        initializeProcesses construct pairInput [0, 0, 0, 0] 2 ∧
    allFinished pairDone = true ∧ isRunning pairDone = true ∧
    (ticks 3 pairDone).current_time = pairDone.current_time ∧
    (ticks 3 pairDone).processes = pairDone.processes ∧
    (ticks 3 pairDone).simulation_completed = true :=
  ⟨(tick_is_noop_unless_running _).1 (by decide), by decide, by decide,
    ((tick_is_noop_unless_running pairDone).2 (by decide) 3).1,
    ((tick_is_noop_unless_running pairDone).2 (by decide) 3).2.1,
    ((tick_is_noop_unless_running pairDone).2 (by decide) 3).2.2.2 (by decide) (by decide)⟩

/-- C8: reset restores the initial state. After `initializeProcesses`, a start
and any number `k` of ticks, `resetSimulation` yields exactly the state
`initializeProcesses` produced on the same input (time 0, no holder, READY,
every process and band as initialised); and `resetSimulation` is idempotent. -/
theorem reset_after_ticks_restores_initial_state (s0 : MLQVisualizer)
    (input_processes : List Process) (sched_sequence : List Int) (quantum : Int) (k : Nat) :
    resetSimulation
        (ticks k (pressSpace (initializeProcesses s0 input_processes sched_sequence quantum))) =
      initializeProcesses s0 input_processes sched_sequence quantum ∧
    (initializeProcesses s0 input_processes sched_sequence quantum).current_time = 0 ∧
    (initializeProcesses s0 input_processes sched_sequence quantum).current_executing_process =
      none ∧
    isRunning (initializeProcesses s0 input_processes sched_sequence quantum) = false ∧
    (∀ s : MLQVisualizer, resetSimulation (resetSimulation s) = resetSimulation s) := by
  refine ⟨?_, rfl, rfl, rfl, resetSimulation_idem⟩
  rw [resetSimulation_ticks, resetSimulation_pressSpace]
  unfold initializeProcesses
  exact resetSimulation_idem _

/-- C10: remaining time. When every input process has a positive burst, in
every state reachable from `initializeProcesses` by ticks and resets each
process has `0 ≤ remaining_time ≤ burst_time`, and it is finished exactly when
`remaining_time = 0`. -/
theorem remaining_time_within_burst_and_zero_iff_finished (input_processes : List Process)
    (sched_sequence : List Int) (quantum : Int)
    (hburst : ∀ p ∈ input_processes, 0 < p.burst_time) (s : MLQVisualizer)
    (hreach : Reachable input_processes sched_sequence quantum s)
    (p : Process) (hp : p ∈ s.processes) :
    0 ≤ p.remaining_time ∧ p.remaining_time ≤ p.burst_time ∧
    (p.finished = true ↔ p.remaining_time = 0) := by
  obtain ⟨_, h2, h3, h4⟩ := reachable_remainingInv hburst hreach p hp
  exact ⟨h2, h3, h4⟩

/-- Witness for C10: the first process of `rrInput` after its first tick. -/
theorem remaining_time_within_burst_and_zero_iff_finished_witness :
    (∀ p ∈ rrInput, 0 < p.burst_time) ∧
    0 ≤ (deref rrAfterFirstTick.processes 0).remaining_time ∧
    (deref rrAfterFirstTick.processes 0).remaining_time ≤
      (deref rrAfterFirstTick.processes 0).burst_time ∧
    ((deref rrAfterFirstTick.processes 0).finished = true ↔
      (deref rrAfterFirstTick.processes 0).remaining_time = 0) :=
  ⟨by decide,
    remaining_time_within_burst_and_zero_iff_finished rrInput [3, 0, 0, 0] 1 (by decide)
      rrAfterFirstTick (Reachable.update true (Reachable.space (Reachable.init construct)))
      (deref rrAfterFirstTick.processes 0) (by decide)⟩

/-- C11: holder and executing item. In every state reachable from
`initializeProcesses`: at most one process is marked `is_executing`; a process
so marked executed in the tick just completed (`last_execution_time + 1 =
current_time`) and had arrived by that tick; and the holder
`current_executing_process`, when present, is one unfinished process that is a
member of band `current_executing_queue` and has `arrival_time ≤ current_time`. -/
theorem holder_and_executing_item_invariant (input_processes : List Process)
    (sched_sequence : List Int) (quantum : Int) (s : MLQVisualizer)
    (hreach : Reachable input_processes sched_sequence quantum s) :
    (∀ i j, (deref s.processes i).is_executing = true →
      (deref s.processes j).is_executing = true → i = j) ∧
    (∀ i, (deref s.processes i).is_executing = true →
      (deref s.processes i).arrival_time ≤ (deref s.processes i).last_execution_time ∧
      (deref s.processes i).last_execution_time + 1 = s.current_time) ∧
    (∀ r, s.current_executing_process = some r →
      r < s.processes.length ∧ (deref s.processes r).finished = false ∧
      (∃ q : Nat, q < 4 ∧ s.current_executing_queue = (q : Int) ∧ r ∈ s.queues.getD q []) ∧
      (deref s.processes r).arrival_time ≤ s.current_time) := by
  obtain ⟨hwf, hhold, hexec, huniq, _⟩ := reachable_engineInv hreach
  refine ⟨huniq, hexec, fun r hr => ?_⟩
  obtain ⟨hlen, hfin, _, hq, harr, _⟩ := hhold r hr
  exact ⟨hlen, hfin, ⟨r % 4, Nat.mod_lt _ (by decide), hq, mem_queue_of_lt hwf hlen⟩, harr⟩

/-- Witness for C11: the sample state after one tick, whose holder is process 0. -/
theorem holder_and_executing_item_invariant_witness :
    (run sampleInput [0, 1, 2, 3] 2 1).current_executing_process = some 0 ∧
    (0 < (run sampleInput [0, 1, 2, 3] 2 1).processes.length ∧
      (deref (run sampleInput [0, 1, 2, 3] 2 1).processes 0).finished = false ∧
      (∃ q : Nat, q < 4 ∧
        (run sampleInput [0, 1, 2, 3] 2 1).current_executing_queue = (q : Int) ∧
        0 ∈ (run sampleInput [0, 1, 2, 3] 2 1).queues.getD q []) ∧
      (deref (run sampleInput [0, 1, 2, 3] 2 1).processes 0).arrival_time ≤
        (run sampleInput [0, 1, 2, 3] 2 1).current_time) :=
  ⟨by decide,
    (holder_and_executing_item_invariant sampleInput [0, 1, 2, 3] 2
      (run sampleInput [0, 1, 2, 3] 2 1)
      (reachable_ticks 1 (Reachable.space (Reachable.init construct)))).2.2 0 (by decide)⟩

/-- C12: Round Robin quantum. In every reachable state with
`time_quantum ≥ 1`: every time slice lies in `[0, time_quantum]`; a tick that
selects a process from a Round Robin band runs it with a slice of
`time_quantum`, of which `time_quantum - 1` is left after the unit run in that
tick; a holder of a Round Robin band has between 1 and `time_quantum - 1` units
left, a tick runs it without selection and then either clears the holder or
leaves it one unit less, and the holder is cleared within as many ticks as it
has units left, so no selection lasts more than `time_quantum` consecutive
ticks; and with no holder `executeScheduling` scans the bands 0..3 again. -/
theorem round_robin_quantum_bound (input_processes : List Process)
    (sched_sequence : List Int) (quantum : Int) (hquantum : 1 ≤ quantum) (s : MLQVisualizer)
    (hreach : Reachable input_processes sched_sequence quantum s) :
    (∀ p ∈ s.processes, 0 ≤ p.time_slice_remaining ∧ p.time_slice_remaining ≤ quantum) ∧
    (isRunning s = true → allFinished s = false → continuing s = none →
      ∀ q r : Nat, q < 4 → seqAt s.sequence q = 3 → selectFromQueue s q = some r →
        (∀ k : Nat, k < q → selectFromQueue s k = none) →
        (deref (tick s).processes r).is_executing = true ∧
        (deref (tick s).processes r).time_slice_remaining = quantum - 1) ∧
    (∀ r, s.current_executing_process = some r →
      seqAt s.sequence s.current_executing_queue = 3 →
      1 ≤ (deref s.processes r).time_slice_remaining ∧
      (deref s.processes r).time_slice_remaining ≤ quantum - 1 ∧
      (isRunning s = true →
        (deref (tick s).processes r).is_executing = true ∧
        ((tick s).current_executing_process = none ∨
          ((tick s).current_executing_process = some r ∧
            (deref (tick s).processes r).time_slice_remaining =
              (deref s.processes r).time_slice_remaining - 1)) ∧
        ∃ m : Nat, 1 ≤ m ∧ (m : Int) ≤ (deref s.processes r).time_slice_remaining ∧
          (ticks m s).current_executing_process = none ∧
          ∀ j, j < m → (ticks j s).current_executing_process = some r)) ∧
    (s.current_executing_process = none →
      executeScheduling s = scanQueues (clearHolder (clearExecuting s)) [0, 1, 2, 3]) := by
  have hinv := reachable_engineInv hreach
  have htq := reachable_time_quantum hreach
  refine ⟨reachable_slice_bounds (by omega) hreach, ?_, ?_, ?_⟩
  · intro hrun hnf hc q r hq hrr hqr hbefore
    obtain ⟨hrlen, ht⟩ := tick_of_selection hinv.1 hrun hnf hc hq hqr hbefore
    rw [ht, if_pos hrr, deref_afterRun _ _ _ _ _ hrlen, if_pos rfl]
    refine ⟨runUnit_is_executing _ _ _, ?_⟩
    rw [runUnit_time_slice_remaining]
    simp only [setSlice_time_slice_remaining]
    rw [if_pos ⟨hrr, by omega⟩, htq]
  · intro r hcep hrr
    obtain ⟨h1, h2⟩ := (hinv.2.1 r hcep).2.2.2.2.2 hrr
    rw [htq] at h2
    refine ⟨h1, h2, fun hrun => ?_⟩
    obtain ⟨hexec, _, hnext⟩ := rr_holder_tick hinv hrun hcep hrr
    refine ⟨hexec, ?_, ?_⟩
    · rcases hnext with h | ⟨h3, _, h4⟩
      · exact Or.inl h
      · exact Or.inr ⟨h3, h4⟩
    · obtain ⟨k, hk⟩ : ∃ k : Nat, (deref s.processes r).time_slice_remaining = (k : Int) :=
        ⟨(deref s.processes r).time_slice_remaining.toNat, by omega⟩
      obtain ⟨m, hm1, hm2, hm3, hm4⟩ := rr_holder_released k hinv hrun hcep hrr hk
      exact ⟨m, hm1, by rw [hk]; exact_mod_cast hm2, hm3, hm4⟩
  · intro hcep
    unfold executeScheduling
    have hc : continuing (clearExecuting s) = none := by
      rw [continuing_clearExecuting]
      unfold continuing
      rw [hcep]
    simp only [hc]
    rfl

/-- Witness for C12: scenario C after one tick; the holder, process 0, has one
unit of its quantum of 2 left. -/
theorem round_robin_quantum_bound_witness :
    (1 : Int) ≤ 2 ∧
    (run rrPair [3, 3, 3, 3] 2 1).current_executing_process = some 0 ∧
    1 ≤ (deref (run rrPair [3, 3, 3, 3] 2 1).processes 0).time_slice_remaining ∧
    (deref (run rrPair [3, 3, 3, 3] 2 1).processes 0).time_slice_remaining ≤ 2 - 1 :=
  ⟨by decide, by decide,
    ((round_robin_quantum_bound rrPair [3, 3, 3, 3] 2 (by decide)
      (run rrPair [3, 3, 3, 3] 2 1)
      (reachable_ticks 1 (Reachable.space (Reachable.init construct)))).2.2.1 0
        (by decide) (by decide)).1,
    ((round_robin_quantum_bound rrPair [3, 3, 3, 3] 2 (by decide)
      (run rrPair [3, 3, 3, 3] 2 1)
      (reachable_ticks 1 (Reachable.space (Reachable.init construct)))).2.2.1 0
        (by decide) (by decide)).2.1⟩

/-- C13: scenario A. From any prior state and with any quantum, the two items
P1 (arrival 0, burst 3) and P2 (arrival 1, burst 2) with every band FCFS are
all finished after five ticks, the sixth tick sets COMPLETED, and then
`completion_time` is 3 and 5 and `waiting_time` is 0 and 2. -/
theorem scenario_fcfs_two_items (s0 : MLQVisualizer) (quantum : Int) :
    allFinished (ticks 5 (pressSpace
      (initializeProcesses s0 pairInput [0, 0, 0, 0] quantum))) = true ∧
    (ticks 6 (pressSpace
      (initializeProcesses s0 pairInput [0, 0, 0, 0] quantum))).simulation_completed = true ∧
    (ticks 6 (pressSpace (initializeProcesses s0 pairInput [0, 0, 0, 0] quantum))).processes.map
        (fun p => (p.pid, p.finished, p.completion_time, p.waiting_time)) =
      [(1, true, 3, 0), (2, true, 5, 2)] := by
  rw [run_without_round_robin s0 pairInput [0, 0, 0, 0] quantum 5 (by decide),
    run_without_round_robin s0 pairInput [0, 0, 0, 0] quantum 6 (by decide),
    allFinished_withQuantum, withQuantum_processes, withQuantum_simulation_completed]
  decide

/-- C14, as stated, fails on the code: with every band Priority and quantum 2
the first tick executes P1, not P2, and at completion the pairs
(completion_time, waiting_time) are not (6, 2) for P1 and (2, 0) for P2. -/
theorem scenario_priority_claimed_order_fails :
    (run priorityPair [1, 1, 1, 1] 2 1).processes.map (fun p => (p.pid, p.is_executing)) =
      [(1, true), (2, false)] ∧
    (run priorityPair [1, 1, 1, 1] 2 7).simulation_completed = true ∧
    (run priorityPair [1, 1, 1, 1] 2 7).processes.map
        (fun p => (p.pid, p.completion_time, p.waiting_time)) ≠ [(1, 6, 2), (2, 2, 0)] := by
  decide

/-- C14 amended: scenario B. From any prior state and with any quantum, the two
items P1 (arrival 0, burst 4, priority 2) and P2 (arrival 0, burst 2,
priority 1) with band 0 Priority and any discipline codes 0..3 for bands 1, 2
and 3: P1, alone in band 0, executes first; all is finished after six ticks
and the seventh sets COMPLETED; P1 starts at 0 and completes at 4 with waiting
time 0, P2 starts at 4 and completes at 6 with waiting time 4. -/
theorem scenario_priority_two_items (s0 : MLQVisualizer) (c1 c2 c3 quantum : Int)
    (h1 : 0 ≤ c1 ∧ c1 ≤ 3) (h2 : 0 ≤ c2 ∧ c2 ≤ 3) (h3 : 0 ≤ c3 ∧ c3 ≤ 3) :
    (ticks 1 (pressSpace (initializeProcesses s0 priorityPair [1, c1, c2, c3] quantum))).processes.map
        (fun p => (p.pid, p.is_executing)) = [(1, true), (2, false)] ∧
    allFinished (ticks 6 (pressSpace
      (initializeProcesses s0 priorityPair [1, c1, c2, c3] quantum))) = true ∧
    (ticks 7 (pressSpace
      (initializeProcesses s0 priorityPair [1, c1, c2, c3] quantum))).simulation_completed = true ∧
    (ticks 7 (pressSpace
      (initializeProcesses s0 priorityPair [1, c1, c2, c3] quantum))).processes.map
        (fun p => (p.pid, p.start_time, p.completion_time, p.waiting_time)) =
      [(1, 0, 4, 0), (2, 4, 6, 4)] := by
  have e1 : c1 = 0 ∨ c1 = 1 ∨ c1 = 2 ∨ c1 = 3 := by omega
  have e2 : c2 = 0 ∨ c2 = 1 ∨ c2 = 2 ∨ c2 = 3 := by omega
  have e3 : c3 = 0 ∨ c3 = 1 ∨ c3 = 2 ∨ c3 = 3 := by omega
  rcases e1 with rfl | rfl | rfl | rfl <;> rcases e2 with rfl | rfl | rfl | rfl <;>
    rcases e3 with rfl | rfl | rfl | rfl <;>
    exact scenario_priority_core s0 _ _ _ quantum (by decide) (by decide) (by decide) (by decide)

/-- Witness for C14 amended: band 0 Priority, band 1 Round Robin, bands 2 and 3
FCFS and SJF, quantum 1, from the freshly constructed engine: P1 completes at
4 and P2 at 6. -/
theorem scenario_priority_two_items_witness :
    ((0 : Int) ≤ 3 ∧ (3 : Int) ≤ 3) ∧ ((0 : Int) ≤ 0 ∧ (0 : Int) ≤ 3) ∧
    ((0 : Int) ≤ 2 ∧ (2 : Int) ≤ 3) ∧
    (ticks 7 (pressSpace (initializeProcesses construct priorityPair [1, 3, 0, 2] 1))).processes.map
        (fun p => (p.pid, p.start_time, p.completion_time, p.waiting_time)) =
      [(1, 0, 4, 0), (2, 4, 6, 4)] :=
  ⟨by decide, by decide, by decide,
    (scenario_priority_two_items construct 3 0 2 1 (by decide) (by decide) (by decide)).2.2.2⟩

/-- C15, as stated, fails on the code: with every band Round Robin and quantum
2, P1 is the process executed in ticks 2 and 3 as well, and after five ticks
P1 has run its whole burst while P2 has not started. -/
theorem scenario_round_robin_claimed_interleave_fails :
    (run rrPair [3, 3, 3, 3] 2 3).processes.map (fun p => (p.pid, p.is_executing)) =
      [(1, true), (2, false)] ∧
    (run rrPair [3, 3, 3, 3] 2 4).processes.map (fun p => (p.pid, p.is_executing)) =
      [(1, true), (2, false)] ∧
    (run rrPair [3, 3, 3, 3] 2 5).processes.map (fun p => (p.pid, p.started, p.remaining_time)) =
      [(1, true, 0), (2, false, 3)] := by
  decide

/-- C15 amended: scenario C. From any prior state, the two items P1 (arrival 0,
burst 5) and P2 (arrival 0, burst 3) with band 0 Round Robin, any discipline
codes 0..3 for bands 1, 2 and 3, and quantum 2: listed after 0, 1, ..., 8
ticks, the executing flags show P1 executing in ticks 0-4 and then P2 in ticks
5-7; the holder after 0, ..., 5 ticks is cleared after ticks 1, 3 and 4; the
ninth tick sets COMPLETED; P1 completes at 5 with waiting time 0 and P2 starts
at 5 and completes at 8 with waiting time 5. -/
theorem scenario_round_robin_two_items (s0 : MLQVisualizer) (c1 c2 c3 : Int)
    (h1 : 0 ≤ c1 ∧ c1 ≤ 3) (h2 : 0 ≤ c2 ∧ c2 ≤ 3) (h3 : 0 ≤ c3 ∧ c3 ≤ 3) :
    (List.range 9).map (fun k =>
        (ticks k (pressSpace (initializeProcesses s0 rrPair [3, c1, c2, c3] 2))).processes.map
          (fun p => p.is_executing)) =
      [[false, false], [true, false], [true, false], [true, false], [true, false],
        [true, false], [false, true], [false, true], [false, true]] ∧
    (List.range 6).map (fun k =>
        (ticks k (pressSpace
          (initializeProcesses s0 rrPair [3, c1, c2, c3] 2))).current_executing_process) =
      [none, some 0, none, some 0, none, none] ∧
    (ticks 9 (pressSpace
      (initializeProcesses s0 rrPair [3, c1, c2, c3] 2))).simulation_completed = true ∧
    (ticks 9 (pressSpace (initializeProcesses s0 rrPair [3, c1, c2, c3] 2))).processes.map
        (fun p => (p.pid, p.start_time, p.completion_time, p.waiting_time)) =
      [(1, 0, 5, 0), (2, 5, 8, 5)] := by
  rw [initializeProcesses_prior_irrelevant]
  have e1 : c1 = 0 ∨ c1 = 1 ∨ c1 = 2 ∨ c1 = 3 := by omega
  have e2 : c2 = 0 ∨ c2 = 1 ∨ c2 = 2 ∨ c2 = 3 := by omega
  have e3 : c3 = 0 ∨ c3 = 1 ∨ c3 = 2 ∨ c3 = 3 := by omega
  rcases e1 with rfl | rfl | rfl | rfl <;> rcases e2 with rfl | rfl | rfl | rfl <;>
    rcases e3 with rfl | rfl | rfl | rfl <;> decide

/-- Witness for C15 amended: band 0 Round Robin, bands 1, 2 and 3 FCFS,
Priority and SJF, quantum 2, from the freshly constructed engine: P1 executes
in ticks 0-4 and P2 in ticks 5-7. -/
theorem scenario_round_robin_two_items_witness :
    ((0 : Int) ≤ 0 ∧ (0 : Int) ≤ 3) ∧ ((0 : Int) ≤ 1 ∧ (1 : Int) ≤ 3) ∧
    ((0 : Int) ≤ 2 ∧ (2 : Int) ≤ 3) ∧
    (List.range 9).map (fun k =>
        (ticks k (pressSpace (initializeProcesses construct rrPair [3, 0, 1, 2] 2))).processes.map
          (fun p => p.is_executing)) =
      [[false, false], [true, false], [true, false], [true, false], [true, false],
        [true, false], [false, true], [false, true], [false, true]] :=
  ⟨by decide, by decide, by decide,
    (scenario_round_robin_two_items construct 0 1 2 (by decide) (by decide) (by decide)).1⟩

/-- C16, as stated, fails on the code: called on a valid started engine with no
processes, with a zero burst, with a band code 7, or with two band codes,
`initializeProcesses` changes the state, storing the two codes and the empty
process list as given. -/
theorem initializeProcesses_accepts_invalid_configurations :
    initializeProcesses (sampleState [0, 1, 2, 3]) [] [0, 1, 2, 3] 2 ≠ sampleState [0, 1, 2, 3] ∧
    initializeProcesses (sampleState [0, 1, 2, 3])
        [{ pid := 1, arrival_time := 0, burst_time := 0, priority := 0 }] [0, 1, 2, 3] 2 ≠
      sampleState [0, 1, 2, 3] ∧
    initializeProcesses (sampleState [0, 1, 2, 3]) pairInput [0, 1, 2, 7] 2 ≠
      sampleState [0, 1, 2, 3] ∧
    initializeProcesses (sampleState [0, 1, 2, 3]) pairInput [0, 1] 2 ≠
      sampleState [0, 1, 2, 3] ∧
    (initializeProcesses (sampleState [0, 1, 2, 3]) pairInput [0, 1] 2).sequence = [0, 1] ∧
    (initializeProcesses (sampleState [0, 1, 2, 3]) [] [0, 1, 2, 3] 2).processes = [] := by
  decide

/-- C16 amended: `initializeProcesses` validates nothing. For every prior state
and every configuration it stores the items, the band codes and the quantum as
given, one process per item, with `current_time` 0, no holder and the engine
not RUNNING, and the result does not depend on the prior state. -/
theorem initializeProcesses_installs_any_configuration (s : MLQVisualizer)
    (input_processes : List Process) (sched_sequence : List Int) (quantum : Int) :
    (initializeProcesses s input_processes sched_sequence quantum).original_processes =
      input_processes ∧
    (initializeProcesses s input_processes sched_sequence quantum).processes.length =
      input_processes.length ∧
    (initializeProcesses s input_processes sched_sequence quantum).sequence = sched_sequence ∧
    (initializeProcesses s input_processes sched_sequence quantum).time_quantum = quantum ∧
    (initializeProcesses s input_processes sched_sequence quantum).current_time = 0 ∧
    (initializeProcesses s input_processes sched_sequence quantum).current_executing_process =
      none ∧
    isRunning (initializeProcesses s input_processes sched_sequence quantum) = false ∧
    initializeProcesses s input_processes sched_sequence quantum =
      initializeProcesses construct input_processes sched_sequence quantum := by
  refine ⟨rfl, ?_, rfl, rfl, rfl, rfl, rfl, rfl⟩
  simp [initializeProcesses, resetSimulation, distribute_fst_length]

/-- C17: a malformed file, evaluated on the code. On `malformedFile`, whose
first `burst_time` field is `x`, `loadFromFile` returns `true` and replaces a
valid state by two processes with burst 0, band codes 0 and time 0; only an
unopenable file makes it return `false` with the state unchanged. -/
theorem loadFromFile_accepts_malformed_file :
    (∃ t, loadFromFile (some malformedFile) (sampleState [0, 1, 2, 3]) = some (true, t) ∧
      t ≠ sampleState [0, 1, 2, 3] ∧
      t.processes.map (fun p => (p.pid, p.arrival_time, p.burst_time, p.priority)) =
        [(1, 0, 0, 0), (2, 0, 0, 0)] ∧
      t.sequence = [0, 0, 0, 0] ∧ t.time_quantum = 2 ∧ t.current_time = 0) ∧
    loadFromFile none (sampleState [0, 1, 2, 3]) = some (false, sampleState [0, 1, 2, 3]) := by
  refine ⟨⟨(initializeProcesses (sampleState [0, 1, 2, 3])
      [{ pid := 1, arrival_time := 0, burst_time := 0, priority := 0 },
       { pid := 2, arrival_time := 0, burst_time := 0, priority := 0 }] [0, 0, 0, 0] 2), ?_⟩, rfl⟩
  decide

/-- C18: band assignment. In every state reachable from `initializeProcesses`
on `n` items (by ticks, resets, start and pause): band `q` is the list of the
indices `i < n` with `i % 4 = q` in increasing order, so index `i` occurs once
in band `i % 4` and in no other band; the process at index `i` carries the
identifier, arrival, burst and priority of the input item `i` and
`queue_index = i % 4`; and `loadFromFile` gives the item at index `i` the
identifier `i + 1`. -/
theorem band_membership_is_fixed (input_processes : List Process)
    (sched_sequence : List Int) (quantum : Int) (s : MLQVisualizer)
    (hreach : Reachable input_processes sched_sequence quantum s) :
    s.processes.length = input_processes.length ∧
    s.queues = [bandOf input_processes.length 0, bandOf input_processes.length 1,
      bandOf input_processes.length 2, bandOf input_processes.length 3] ∧
    (∀ i q, q < 4 → (i ∈ s.queues.getD q [] ↔ i < input_processes.length ∧ i % 4 = q)) ∧
    (∀ q, (s.queues.getD q []).Pairwise (· < ·)) ∧
    (∀ i q, q < 4 → i < input_processes.length →
      List.count i (s.queues.getD q []) = if q = i % 4 then 1 else 0) ∧
    (∀ i p0, input_processes[i]? = some p0 →
      (deref s.processes i).pid = p0.pid ∧
      (deref s.processes i).arrival_time = p0.arrival_time ∧
      (deref s.processes i).burst_time = p0.burst_time ∧
      (deref s.processes i).priority = p0.priority ∧
      (deref s.processes i).queue_index = ((i % 4 : Nat) : Int)) ∧
    (∀ (st : IStream) (n i : Nat), i < n →
      ((loadProcesses (List.range n) st).2.map (fun p => p.pid))[i]? = some ((i : Int) + 1)) := by
  have hlen := reachable_length hreach
  have hq : s.queues = [bandOf input_processes.length 0, bandOf input_processes.length 1,
      bandOf input_processes.length 2, bandOf input_processes.length 3] := by
    rw [(reachable_engineInv hreach).1, distribute_queues, hlen]
  have hmem : ∀ i q, q < 4 →
      (i ∈ s.queues.getD q [] ↔ i < input_processes.length ∧ i % 4 = q) := by
    intro i q hq4
    rw [hq, getD_bands, if_pos hq4]
    exact mem_bandOf
  have hsorted : ∀ q, (s.queues.getD q []).Pairwise (· < ·) := by
    intro q
    rw [hq, getD_bands]
    split_ifs
    · exact bandOf_pairwise _ _
    · exact List.Pairwise.nil
  refine ⟨hlen, hq, hmem, hsorted, ?_, fun i p0 h => reachable_statics hreach i p0 h,
    loadProcesses_range_pid⟩
  intro i q hq4 hi
  have hnodup : (s.queues.getD q []).Nodup :=
    (hsorted q).imp (fun h => Nat.ne_of_lt h)
  split_ifs with h
  · exact List.count_eq_one_of_mem hnodup ((hmem i q hq4).2 ⟨hi, h.symm⟩)
  · exact List.count_eq_zero_of_not_mem (fun hm => h ((hmem i q hq4).1 hm).2.symm)

/-- Witness for C18: the bands of the sample state after three ticks. -/
theorem band_membership_is_fixed_witness :
    (run sampleInput [0, 1, 2, 3] 2 3).processes.length = sampleInput.length ∧
    (run sampleInput [0, 1, 2, 3] 2 3).queues =
      [bandOf sampleInput.length 0, bandOf sampleInput.length 1,
        bandOf sampleInput.length 2, bandOf sampleInput.length 3] :=
  ⟨(band_membership_is_fixed sampleInput [0, 1, 2, 3] 2 (run sampleInput [0, 1, 2, 3] 2 3)
      (reachable_ticks 3 (Reachable.space (Reachable.init construct)))).1,
    (band_membership_is_fixed sampleInput [0, 1, 2, 3] 2 (run sampleInput [0, 1, 2, 3] 2 3)
      (reachable_ticks 3 (Reachable.space (Reachable.init construct)))).2.1⟩

/-- C20: no preemption outside Round Robin. In every reachable state, for a
process at index `i` whose band `i % 4` has code 0, 1 or 2: while it is
started and unfinished it is the holder, `executeScheduling` continues it
without selection, and a RUNNING tick executes it for one unit, after which it
is finished or still the holder; and once finished, with `burst_time > 0`, its
`completion_time` equals `start_time + burst_time`. -/
theorem non_round_robin_item_runs_to_completion (input_processes : List Process)
    (sched_sequence : List Int) (quantum : Int) (s : MLQVisualizer)
    (hreach : Reachable input_processes sched_sequence quantum s)
    (i : Nat) (hi : i < s.processes.length)
    (hcode : seqAt s.sequence ((i % 4 : Nat) : Int) = 0 ∨
      seqAt s.sequence ((i % 4 : Nat) : Int) = 1 ∨ seqAt s.sequence ((i % 4 : Nat) : Int) = 2) :
    ((deref s.processes i).started = true → (deref s.processes i).finished = false →
      s.current_executing_process = some i ∧
      continuing s = some (i, seqAt s.sequence ((i % 4 : Nat) : Int)) ∧
      (isRunning s = true →
        (deref (tick s).processes i).is_executing = true ∧
        (deref (tick s).processes i).remaining_time = (deref s.processes i).remaining_time - 1 ∧
        ((deref (tick s).processes i).finished = true ∨
          (tick s).current_executing_process = some i))) ∧
    (0 < (deref s.processes i).burst_time → (deref s.processes i).finished = true →
      (deref s.processes i).completion_time =
        (deref s.processes i).start_time + (deref s.processes i).burst_time) := by
  have hinv := reachable_engineInv hreach
  have hne : seqAt s.sequence ((i % 4 : Nat) : Int) ≠ 3 := by
    rcases hcode with h | h | h <;> rw [h] <;> decide
  obtain ⟨_, hhold, _, _, _, _, _, hnr, hdone⟩ := id hinv
  refine ⟨fun hst hfin => ?_, fun hb hf => hdone i hne hb hf⟩
  obtain ⟨hcep, _⟩ := hnr i hi hne hst hfin
  obtain ⟨_, _, _, hq, _, _⟩ := hhold i hcep
  have hns : seqAt s.sequence s.current_executing_queue = 3 →
      0 < (deref s.processes i).time_slice_remaining := by
    intro h; rw [hq] at h; exact absurd h hne
  have hc := continuing_of_holder hcep hfin hns
  rw [hq] at hc
  refine ⟨hcep, hc, fun hrun => ?_⟩
  have ht := tick_of_holder hinv hrun hcep hns
  rw [ht]
  have hd := deref_afterRun s s.current_executing_queue i
    (seqAt s.sequence s.current_executing_queue) (clearFlag (deref s.processes i)) hi i
  rw [if_pos rfl] at hd
  rw [hd]
  refine ⟨runUnit_is_executing _ _ _, by rw [runUnit_remaining_time]; rfl, ?_⟩
  by_cases h0 : (deref s.processes i).remaining_time - 1 ≤ 0
  · left
    rw [runUnit_finished]
    simp only [clearFlag_remaining_time]
    rw [if_pos h0]
  · right
    show (if _ then none else some i) = some i
    rw [if_neg]
    rw [runUnit_remaining_time, hq]
    simp only [clearFlag_remaining_time, not_or, not_and]
    exact ⟨h0, fun h => absurd h hne⟩

/-- Witness for C20: in scenario B, P1 is the holder after two ticks and has
completed at `start_time + burst_time` after seven. -/
theorem non_round_robin_item_runs_to_completion_witness :
    (run priorityPair [1, 1, 1, 1] 2 2).current_executing_process = some 0 ∧
    (deref (run priorityPair [1, 1, 1, 1] 2 7).processes 0).completion_time =
      (deref (run priorityPair [1, 1, 1, 1] 2 7).processes 0).start_time +
        (deref (run priorityPair [1, 1, 1, 1] 2 7).processes 0).burst_time :=
  ⟨((non_round_robin_item_runs_to_completion priorityPair [1, 1, 1, 1] 2
      (run priorityPair [1, 1, 1, 1] 2 2)
      (reachable_ticks 2 (Reachable.space (Reachable.init construct))) 0 (by decide)
      (by decide)).1 (by decide) (by decide)).1,
    (non_round_robin_item_runs_to_completion priorityPair [1, 1, 1, 1] 2
      (run priorityPair [1, 1, 1, 1] 2 7)
      (reachable_ticks 7 (Reachable.space (Reachable.init construct))) 0 (by decide)
      (by decide)).2 (by decide) (by decide)⟩

/-- C21: idle tick. In a reachable RUNNING state with four band codes in 0..3
and a process not yet finished, one tick advances `current_time` by exactly 1;
no process is marked executing by the tick if and only if no band has a ready
member (`arrival_time ≤ current_time` and not finished); and in that case the
holder was empty and stays empty and every process record is as before, apart
from the cleared `is_executing` flag. -/
theorem tick_advances_clock_and_idles_iff_no_ready_item (input_processes : List Process)
    (sched_sequence : List Int) (quantum : Int) (s : MLQVisualizer)
    (hreach : Reachable input_processes sched_sequence quantum s)
    (hrun : isRunning s = true)
    (hcodes : s.sequence.length = 4 ∧ ∀ c ∈ s.sequence, 0 ≤ c ∧ c ≤ 3)
    (hnf : allFinished s = false) :
    (tick s).current_time = s.current_time + 1 ∧
    ((∀ i, (deref (tick s).processes i).is_executing = false) ↔
      (∀ q, q < 4 → ∀ i ∈ s.queues.getD q [], isReady s i = false)) ∧
    ((∀ q, q < 4 → ∀ i ∈ s.queues.getD q [], isReady s i = false) →
      s.current_executing_process = none ∧ (tick s).current_executing_process = none ∧
      (tick s).processes.length = s.processes.length ∧
      ∀ i, deref (tick s).processes i = clearFlag (deref s.processes i)) := by
  have hinv := reachable_engineInv hreach
  rcases tick_run_or_idle hinv hrun hnf with
    ⟨q, r, p1, hrlen, hready, _, ht, _⟩ | ⟨hcep, hnone, ht⟩
  · have hexec : (deref (tick s).processes r).is_executing = true := by
      rw [ht, deref_afterRun _ _ _ _ _ hrlen, if_pos rfl]
      exact runUnit_is_executing _ _ _
    have hnot : ¬ ∀ q, q < 4 → ∀ i ∈ s.queues.getD q [], isReady s i = false := by
      intro h
      have := h (r % 4) (Nat.mod_lt _ (by decide)) r (mem_queue_of_lt hinv.1 hrlen)
      rw [hready] at this
      exact Bool.noConfusion this
    refine ⟨by rw [ht]; rfl, ⟨fun h => ?_, fun h => absurd h hnot⟩, fun h => absurd h hnot⟩
    have := h r
    rw [hexec] at this
    exact Bool.noConfusion this
  · have hidle : ∀ q, q < 4 → ∀ i ∈ s.queues.getD q [], isReady s i = false := by
      intro q hq i hi
      have hnil := readyProcesses_eq_nil_of_none (seqAt_valid hcodes hq) (hnone q hq)
      cases hr : isReady s i
      · rfl
      · exact absurd hnil (readyProcesses_ne_nil ⟨i, hi, hr⟩)
    have hframe : ∀ i, deref (tick s).processes i = clearFlag (deref s.processes i) := by
      intro i
      rw [ht]
      exact deref_afterIdle s i
    refine ⟨by rw [ht]; rfl, ⟨fun _ => hidle, fun _ i => ?_⟩, fun _ => ⟨hcep, by rw [ht]; rfl,
      by rw [ht]; simp [afterIdle], hframe⟩⟩
    rw [hframe i]
    rfl

/-- Witness for C21: one process that arrives at time 2; the first tick after
the start is idle. -/
theorem tick_advances_clock_and_idles_iff_no_ready_item_witness :
    isRunning (run lateInput [0, 1, 2, 3] 2 0) = true ∧
    allFinished (run lateInput [0, 1, 2, 3] 2 0) = false ∧
    (tick (run lateInput [0, 1, 2, 3] 2 0)).current_time =
      (run lateInput [0, 1, 2, 3] 2 0).current_time + 1 ∧
    ((∀ i, (deref (tick (run lateInput [0, 1, 2, 3] 2 0)).processes i).is_executing = false) ↔
      (∀ q, q < 4 → ∀ i ∈ (run lateInput [0, 1, 2, 3] 2 0).queues.getD q [],
        isReady (run lateInput [0, 1, 2, 3] 2 0) i = false)) :=
  ⟨by decide, by decide,
    (tick_advances_clock_and_idles_iff_no_ready_item lateInput [0, 1, 2, 3] 2
      (run lateInput [0, 1, 2, 3] 2 0) (Reachable.space (Reachable.init construct))
      (by decide) (by decide) (by decide)).1,
    (tick_advances_clock_and_idles_iff_no_ready_item lateInput [0, 1, 2, 3] 2
      (run lateInput [0, 1, 2, 3] 2 0) (Reachable.space (Reachable.init construct))
      (by decide) (by decide) (by decide)).2.1⟩

/-- C23: termination. Take a configuration with four band codes in 0..3, every
burst positive, no negative arrival time, and `A` the largest arrival time of
its items (so there is at least one item); let `T` be `A` plus the sum of the
bursts. Whatever the quantum, after the start and `T` ticks every process is
finished, after one more tick the engine is COMPLETED, and `current_time` is
then the largest `completion_time`. More precisely there is a first tick count
`F` with `1 ≤ F ≤ T` after which every process is finished; tick `F + 1` is
the one that sets COMPLETED, and `current_time` stays `F` from then on. -/
theorem every_item_finishes_within_arrival_plus_burst (input_processes : List Process)
    (sched_sequence : List Int) (quantum : Int) (A : Int) (T : Nat)
    (hcodes : sched_sequence.length = 4 ∧ ∀ c ∈ sched_sequence, 0 ≤ c ∧ c ≤ 3)
    (hburst : ∀ p ∈ input_processes, 0 < p.burst_time)
    (harr : ∀ p ∈ input_processes, 0 ≤ p.arrival_time)
    (hmax : (∃ p ∈ input_processes, p.arrival_time = A) ∧
      ∀ p ∈ input_processes, p.arrival_time ≤ A)
    (hT : (T : Int) = A + (input_processes.map (fun p => p.burst_time)).sum) :
    (∀ p ∈ (run input_processes sched_sequence quantum T).processes, p.finished = true) ∧
    (run input_processes sched_sequence quantum (T + 1)).simulation_completed = true ∧
    (∀ p ∈ (run input_processes sched_sequence quantum (T + 1)).processes,
      p.completion_time ≤ (run input_processes sched_sequence quantum (T + 1)).current_time) ∧
    (∃ p ∈ (run input_processes sched_sequence quantum (T + 1)).processes,
      p.completion_time = (run input_processes sched_sequence quantum (T + 1)).current_time) ∧
    (∃ F, 1 ≤ F ∧ F ≤ T ∧
      (∀ j, j < F → allFinished (run input_processes sched_sequence quantum j) = false) ∧
      allFinished (run input_processes sched_sequence quantum F) = true ∧
      (run input_processes sched_sequence quantum F).simulation_completed = false ∧
      (run input_processes sched_sequence quantum (F + 1)).simulation_completed = true ∧
      (run input_processes sched_sequence quantum (T + 1)).current_time = (F : Int)) := by
  obtain ⟨⟨pA, hpA, hpAeq⟩, hA⟩ := hmax
  have hA0 : 0 ≤ A := by rw [← hpAeq]; exact harr pA hpA
  have hne : input_processes ≠ [] := List.ne_nil_of_mem hpA
  obtain ⟨hrun, htime, _, hwork, hnf⟩ :=
    started_engine construct input_processes sched_sequence quantum
  have hnf := hnf hne
  have hreach : Reachable input_processes sched_sequence quantum
      (pressSpace (initializeProcesses construct input_processes sched_sequence quantum)) :=
    Reachable.space (Reachable.init construct)
  have hprog := ticks_progress hreach hcodes hrun hnf A hA T
  unfold run
  generalize pressSpace (initializeProcesses construct input_processes sched_sequence quantum)
    = s1 at *
  rcases hprog with ⟨hbefore, _, _, hphi⟩ | ⟨F, hF1, hFT, hbefore, hall, hrunF, htimeF, i, hi, hci⟩
  · exfalso
    have hpos := remainingWork_pos hburst (reachable_ticks T hreach) (hbefore T (le_refl _))
    have hm : 0 ≤ max 0 (A - (ticks T s1).current_time) := le_max_left _ _
    rw [htime, hwork, sub_zero, max_eq_right hA0] at hphi
    omega
  have hafter : ∀ m, ticks (F + (m + 1)) s1 =
      { ticks F s1 with simulation_completed := true } := by
    intro m
    rw [ticks_add]
    exact ticks_after_all_finished hrunF hall m
  have hprocs : ∀ j, F ≤ j → (ticks j s1).processes = (ticks F s1).processes ∧
      (ticks j s1).current_time = (ticks F s1).current_time := by
    intro j hj
    obtain ⟨d, rfl⟩ := Nat.exists_eq_add_of_le hj
    cases d with
    | zero => exact ⟨rfl, rfl⟩
    | succ m => rw [hafter m]; exact ⟨rfl, rfl⟩
  have hT1 : ticks (T + 1) s1 = { ticks F s1 with simulation_completed := true } := by
    obtain ⟨d, rfl⟩ := Nat.exists_eq_add_of_le hFT
    exact hafter d
  have hfinF : ∀ p ∈ (ticks F s1).processes, p.finished = true := by
    intro p hp
    obtain ⟨j, hj, rfl⟩ := mem_iff_deref.1 hp
    exact (allFinished_iff _).1 hall j hj
  have hcompF : (ticks F s1).simulation_completed = false := by
    unfold isRunning at hrunF
    cases h : (ticks F s1).simulation_completed
    · rfl
    · rw [h] at hrunF
      simp at hrunF
  refine ⟨?_, ?_, ?_, ?_, F, hF1, hFT, hbefore, hall, hcompF, ?_, ?_⟩
  · rw [(hprocs T hFT).1]
    exact hfinF
  · rw [hT1]
  · rw [hT1]
    intro p hp
    exact reachable_completion_le (reachable_ticks F hreach) p hp (hfinF p hp)
  · rw [hT1]
    exact ⟨deref (ticks F s1).processes i, mem_iff_deref.2 ⟨i, hi, rfl⟩, hci⟩
  · rw [hafter 0]
  · rw [hT1]
    show (ticks F s1).current_time = _
    rw [htimeF, htime]
    omega

/-- Witness for C23: scenario A. The largest arrival time is 1 and the bursts
sum to 5, so six ticks finish both processes. -/
theorem every_item_finishes_within_arrival_plus_burst_witness :
    ((∃ p ∈ pairInput, p.arrival_time = 1) ∧ ∀ p ∈ pairInput, p.arrival_time ≤ 1) ∧
    ((6 : Nat) : Int) = 1 + (pairInput.map (fun p => p.burst_time)).sum ∧
    (∀ p ∈ (run pairInput [0, 1, 2, 3] 2 6).processes, p.finished = true) ∧
    (run pairInput [0, 1, 2, 3] 2 (6 + 1)).simulation_completed = true :=
  ⟨by decide, by decide,
    (every_item_finishes_within_arrival_plus_burst pairInput [0, 1, 2, 3] 2 1 6
      (by decide) (by decide) (by decide) (by decide) (by decide)).1,
    (every_item_finishes_within_arrival_plus_burst pairInput [0, 1, 2, 3] 2 1 6
      (by decide) (by decide) (by decide) (by decide) (by decide)).2.1⟩

/-- C24, as stated, fails on the code: for one item with burst 1 and the least
`int` as arrival time, the first tick in 32-bit arithmetic finishes the item
with `turnaround_time` -2147483647 and `waiting_time` -2147483648, below
`burst_time` and below 0. -/
theorem timing_bounds_fail_on_arrival_overflow :
    (∀ p ∈ overflowInput, 0 < p.burst_time) ∧
    (tick32 (pressSpace (initializeProcesses construct overflowInput [0, 1, 2, 3] 2))).processes.map
        (fun p => (p.finished, p.burst_time, p.completion_time, p.turnaround_time,
          p.waiting_time)) =
      [(true, 1, 1, -2147483647, -2147483648)] ∧
    ¬ (∀ p ∈ (tick32 (pressSpace
          (initializeProcesses construct overflowInput [0, 1, 2, 3] 2))).processes,
        p.finished = true → p.waiting_time ≥ 0 ∧ p.turnaround_time ≥ p.burst_time) := by
  decide

/-- C24 amended: timing bounds in range. Take items with no negative arrival
time and positive bursts that fit an `int`, a quantum that fits an `int`, and
at most `INT_MAX` ticks after the start. Then the ticks computed in 32-bit
arithmetic are the ticks of the unbounded embedding, and in the state they
reach every started process has `start_time ≥ arrival_time` and every finished
process has `waiting_time ≥ 0` and `turnaround_time ≥ burst_time`. -/
theorem timing_bounds_within_int_range (s0 : MLQVisualizer) (input_processes : List Process)
    (sched_sequence : List Int) (quantum : Int) (k : Nat)
    (harr : ∀ p ∈ input_processes, 0 ≤ p.arrival_time)
    (hburst : ∀ p ∈ input_processes, 0 < p.burst_time ∧ p.burst_time ≤ INT_MAX)
    (hquantum : quantum ≤ INT_MAX) (hk : (k : Int) ≤ INT_MAX) :
    ticks32 k (pressSpace (initializeProcesses s0 input_processes sched_sequence quantum)) =
      ticks k (pressSpace (initializeProcesses s0 input_processes sched_sequence quantum)) ∧
    ∀ p ∈ (ticks32 k (pressSpace
        (initializeProcesses s0 input_processes sched_sequence quantum))).processes,
      (p.started = true → p.start_time ≥ p.arrival_time) ∧
      (p.finished = true → p.waiting_time ≥ 0 ∧ p.turnaround_time ≥ p.burst_time) := by
  have hreach : Reachable input_processes sched_sequence quantum
      (pressSpace (initializeProcesses s0 input_processes sched_sequence quantum)) :=
    Reachable.space (Reachable.init s0)
  have htime : (pressSpace
      (initializeProcesses s0 input_processes sched_sequence quantum)).current_time = 0 := rfl
  have heq := ticks32_eq harr hburst hquantum k hreach (by rw [htime])
    (by rw [htime]; omega)
  refine ⟨heq, ?_⟩
  rw [heq]
  exact fun p hp => reachable_timing_bounds (reachable_ticks k hreach) p hp

/-- Witness for C24 amended: scenario A after five ticks in 32-bit arithmetic;
the second process has finished with waiting time 2 and turnaround time 4. -/
theorem timing_bounds_within_int_range_witness :
    (∀ p ∈ pairInput, 0 ≤ p.arrival_time) ∧
    (∀ p ∈ pairInput, 0 < p.burst_time ∧ p.burst_time ≤ INT_MAX) ∧
    (2 : Int) ≤ INT_MAX ∧ ((5 : Nat) : Int) ≤ INT_MAX ∧
    (deref (ticks32 5 (pressSpace
      (initializeProcesses construct pairInput [0, 0, 0, 0] 2))).processes 1).finished = true ∧
    (deref (ticks32 5 (pressSpace
      (initializeProcesses construct pairInput [0, 0, 0, 0] 2))).processes 1).waiting_time ≥ 0 ∧
    (deref (ticks32 5 (pressSpace
      (initializeProcesses construct pairInput [0, 0, 0, 0] 2))).processes 1).turnaround_time ≥
      (deref (ticks32 5 (pressSpace
        (initializeProcesses construct pairInput [0, 0, 0, 0] 2))).processes 1).burst_time :=
  ⟨by decide, by decide, by decide, by decide, by decide,
    ((timing_bounds_within_int_range construct pairInput [0, 0, 0, 0] 2 5
      (by decide) (by decide) (by decide) (by decide)).2
        (deref (ticks32 5 (pressSpace
          (initializeProcesses construct pairInput [0, 0, 0, 0] 2))).processes 1)
        (by decide)).2 (by decide)⟩

end MLQ
